import Mathlib

/-!
# Parallel verification engine: thread pool, check queue, input fetcher

A shallow embedding of `util/threadpool.h`, `checkqueue.h` and `inputfetcher.h`.

Threads are modelled by explicit control states and a step function: one step is one
atomic action of one thread (a critical section under `cs_work_queue`, one access to an
atomic variable, or a stretch of thread-local computation).  A schedule is a list of
thread ids (`0` is the thread that calls `Add`/`Wait`, `i + 1` is worker `i`); properties
are proved for every schedule.
-/

namespace FieroCoin

/-! ## `util/threadpool.h` -/

/-- Control state of one thread of `m_workers`, running `ThreadPool::WorkerThread`.
`φ` is the type of a task under execution. -/
inductive WorkerThread (φ : Type) where
  /-- Blocked in `m_condition.wait` (or spawned and not yet past it). -/
  | waiting : WorkerThread φ
  /-- Inside `task()`, the lock released. -/
  | running (task : φ) : WorkerThread φ
  /-- The call `task()` has returned; the lock is not yet reacquired. -/
  | returned : WorkerThread φ
  /-- Left `WorkerThread` because `m_interrupt` was set. -/
  | exited : WorkerThread φ
  deriving DecidableEq

/-- The data members of `ThreadPool`: `τ` is the type of the queued closures, `φ` the
type of a closure under execution. -/
structure ThreadPool (τ φ : Type) where
  m_work_queue : List τ
  m_interrupt : Bool
  m_workers : List (WorkerThread φ)
  m_in_flight_task_count : Int
  deriving DecidableEq

namespace ThreadPool

variable {τ φ : Type}

/-- `ThreadPool::Submit`: the closure is emplaced at the back of `m_work_queue`. -/
def Submit (p : ThreadPool τ φ) (task : τ) : ThreadPool τ φ :=
  { p with m_work_queue := p.m_work_queue ++ [task] }

/-- `ThreadPool::WorkersCount`. -/
def WorkersCount (p : ThreadPool τ φ) : Nat := p.m_workers.length

/-- `ThreadPool::WorkQueueSize`. -/
def WorkQueueSize (p : ThreadPool τ φ) : Nat := p.m_work_queue.length

/-- `ThreadPool::InFlightTasksCount`: the `int32_t` counter returned as a `size_t` (of
64 bits). -/
def InFlightTasksCount (p : ThreadPool τ φ) : Nat :=
  (p.m_in_flight_task_count % 18446744073709551616).toNat

/-- `ThreadPool::IsIdle`. -/
def IsIdle (p : ThreadPool τ φ) : Bool :=
  p.m_interrupt || (p.m_work_queue.isEmpty && p.m_in_flight_task_count == 0)

/-- The condition `!m_interrupt && (!m_work_queue.empty() || m_in_flight_task_count > 0)`
that `ThreadPool::WaitUntilIdle` tests in its loop and `ThreadPool::WaitForProgress` tests
once: while it holds, the caller waits on `m_wait_condition`. -/
def stillWorking (p : ThreadPool τ φ) : Bool :=
  !p.m_interrupt && (!p.m_work_queue.isEmpty || decide (p.m_in_flight_task_count > 0))

/-- The locked part of the loop body of `WorkerThread` for a thread blocked in
`m_condition.wait`: it goes on when `m_interrupt || !m_work_queue.empty()`, leaves if
interrupted, and else pops the front task and counts it as in flight.  `none`: the
thread stays blocked.  (A thread that waits is taken to see `m_interrupt` once it is set;
a wake-up lost because `Stop` notifies without the lock is not modelled.) -/
def workerWake (enter : τ → φ) (i : Nat) (p : ThreadPool τ φ) : Option (ThreadPool τ φ) :=
  if p.m_interrupt then
    some { p with m_workers := p.m_workers.set i WorkerThread.exited }
  else
    match p.m_work_queue with
    | [] => none
    | task :: rest =>
      some { p with
        m_work_queue := rest
        m_in_flight_task_count := p.m_in_flight_task_count + 1
        m_workers := p.m_workers.set i (WorkerThread.running (enter task)) }

/-- The locked part of `WorkerThread` after `task()` returned: the loop test
`while (!m_interrupt)`, then (as `did_first_run` is set) `--m_in_flight_task_count` and
the notification, then the wait for the next task, which is popped at once when the
queue is not empty. -/
def workerNext (enter : τ → φ) (i : Nat) (p : ThreadPool τ φ) : ThreadPool τ φ :=
  if p.m_interrupt then
    { p with m_workers := p.m_workers.set i WorkerThread.exited }
  else
    match p.m_work_queue with
    | [] =>
      { p with
        m_in_flight_task_count := p.m_in_flight_task_count - 1
        m_workers := p.m_workers.set i WorkerThread.waiting }
    | task :: rest =>
      { p with
        m_work_queue := rest
        m_in_flight_task_count := p.m_in_flight_task_count - 1 + 1
        m_workers := p.m_workers.set i (WorkerThread.running (enter task)) }

/-- `ThreadPool::Start`: it throws when `m_workers` is not empty, and else spawns
`num_workers` threads (none when `num_workers <= 0`; `num_workers` is an `int`), each
of which starts to run `WorkerThread`.  On the exception the pool is as before. -/
def Start (p : ThreadPool τ φ) (num_workers : Int) : Except String (ThreadPool τ φ) :=
  if !p.m_workers.isEmpty then Except.error "Thread pool already started"
  else
    Except.ok { p with
      m_workers := p.m_workers ++ List.replicate num_workers.toNat WorkerThread.waiting }

/-- The first statements of `ThreadPool::Stop`: `m_interrupt()` and the notifications. -/
def Stop.signal (p : ThreadPool τ φ) : ThreadPool τ φ :=
  { p with m_interrupt := true }

/-- What the interrupt makes of a worker while `Stop` joins it: a thread that is not
inside `task()` leaves `WorkerThread` (this is `workerWake` and `workerNext` with
`m_interrupt` set: the counter is not touched); a thread inside `task()` is still
there.  This takes the notification of `Stop` to reach every waiting thread: `Stop` sets
`m_interrupt` and notifies without holding `cs_work_queue`, so a thread between the test
of its wait predicate and its blocking can miss both, and the `join` then does not
return; that interleaving is not modelled. -/
def Stop.leave : WorkerThread φ → WorkerThread φ
  | WorkerThread.running task => WorkerThread.running task
  | _ => WorkerThread.exited

/-- Every `worker.join()` of `Stop` returns: every thread has left `WorkerThread`. -/
def Stop.joined (p : ThreadPool τ φ) : Bool :=
  p.m_workers.all (fun w => match w with
    | WorkerThread.exited => true
    | _ => false)

/-- The last statements of `ThreadPool::Stop`: `m_workers.clear()` and
`m_interrupt.reset()`. -/
def Stop.clear (p : ThreadPool τ φ) : ThreadPool τ φ :=
  { p with m_workers := [], m_interrupt := false }

/-- `ThreadPool::Stop` on a pool none of whose workers is inside `task()`: the workers
find `m_interrupt` set when they next hold the lock, and leave.  `none`: some worker is
inside `task()`, and what the pool holds when the joins return depends on that task; the
last statements of `Stop` are then `Stop.clear` all the same. -/
def Stop (p : ThreadPool τ φ) : Option (ThreadPool τ φ) :=
  if Stop.joined { Stop.signal p with m_workers := (Stop.signal p).m_workers.map Stop.leave }
  then some (Stop.clear
    { Stop.signal p with m_workers := (Stop.signal p).m_workers.map Stop.leave })
  else none

/-- `ThreadPool::ProcessTask`: the value it returns, the tasks it executes on the calling
thread (the front task, popped under the lock, or none), and the pool after the pop. -/
def ProcessTask (p : ThreadPool τ φ) : Bool × List τ × ThreadPool τ φ :=
  match p.m_work_queue with
  | [] => (false, [], p)
  | task :: rest => (true, [task], { p with m_work_queue := rest })

/-- `n` calls of `ProcessTask` in a row, with no other thread at work: the tasks
executed, in order, and the pool after them.  `submits task` are the tasks that
`task()` itself submits to the pool while it is executed. -/
def ProcessTasks (submits : τ → List τ) : Nat → ThreadPool τ φ → List τ × ThreadPool τ φ
  | 0, p => ([], p)
  | n + 1, p =>
    (p.ProcessTask.2.1 ++
        (ProcessTasks submits n
          ((p.ProcessTask.2.1.flatMap submits).foldl Submit p.ProcessTask.2.2)).1,
      (ProcessTasks submits n
        ((p.ProcessTask.2.1.flatMap submits).foldl Submit p.ProcessTask.2.2)).2)

/-- The constructor `ThreadPool() = default`: nothing queued, no worker, no task in
flight, not interrupted. -/
def new : ThreadPool τ φ :=
  { m_work_queue := []
    m_interrupt := false
    m_workers := []
    m_in_flight_task_count := 0 }

end ThreadPool

/-- The state of a worker after one more action inside `task()`: `some g` when it is
still inside, at `g`; `none` when `task()` has returned. -/
def WorkerThread.resume {φ : Type} : Option φ → WorkerThread φ
  | some g => WorkerThread.running g
  | none => WorkerThread.returned

/-- A worker that holds a task counted in `m_in_flight_task_count`. -/
def WorkerThread.busy {φ : Type} : WorkerThread φ → Bool
  | WorkerThread.running _ => true
  | WorkerThread.returned => true
  | _ => false

/-- A worker blocked in `m_condition.wait`. -/
def WorkerThread.isWaiting {φ : Type} : WorkerThread φ → Bool
  | WorkerThread.waiting => true
  | _ => false

/-! ### A pool and the thread that owns it -/

namespace ThreadPool

variable {τ : Type}

/-- What the thread that owns a pool calls on it. -/
inductive Call (τ : Type) where
  | Start (num_workers : Int) : Call τ
  | Stop : Call τ
  | Submit (task : τ) : Call τ
  | ProcessTask : Call τ
  | WaitUntilIdle : Call τ
  deriving DecidableEq

/-- Where the thread that owns the pool stands.  A task under execution is kept with
the tasks it has still to submit to the pool, which is all a task can do to the pool. -/
inductive CallerPc (τ : Type) where
  /-- Between two calls. -/
  | idle : CallerPc τ
  /-- In `ProcessTask`, inside `task()`. -/
  | processTask (frame : τ × List τ) : CallerPc τ
  /-- In `Stop`, past the notifications, in the loop of `worker.join()`. -/
  | stopJoin : CallerPc τ
  /-- In the loop of `WaitUntilIdle`. -/
  | waitUntilIdle : CallerPc τ
  deriving DecidableEq

/-- A pool, the thread that owns it and what that thread has still to call, and the
exceptions it has caught so far. -/
structure System (τ : Type) where
  pool : ThreadPool τ (τ × List τ)
  pc : CallerPc τ
  calls : List (Call τ)
  thrown : List String
  deriving DecidableEq

/-- A thread starts to execute `task`; `submits task` are the tasks that `task()` submits
to the pool, in order. -/
def enter (submits : τ → List τ) (task : τ) : τ × List τ := (task, submits task)

/-- One atomic action of a thread inside `task()`: the next `Submit`, or the return
(`none`). -/
def frameStep (p : ThreadPool τ (τ × List τ)) :
    τ × List τ → Option (τ × List τ) × ThreadPool τ (τ × List τ)
  | (_, []) => (none, p)
  | (task, next :: rest) => (some (task, rest), p.Submit next)

/-- Where the owner stands after one more action inside the `task()` of `ProcessTask`. -/
def CallerPc.resume : Option (τ × List τ) → CallerPc τ
  | some frame => CallerPc.processTask frame
  | none => CallerPc.idle

/-- One atomic action of the thread that owns the pool; `none`: it is blocked (in a
`join` of `Stop`, or in `WaitUntilIdle`) or has nothing left to call. -/
def callerStep (submits : τ → List τ) (s : System τ) : Option (System τ) :=
  match s.pc with
  | CallerPc.idle =>
    match s.calls with
    | [] => none
    | Call.Start num_workers :: rest =>
      match s.pool.Start num_workers with
      | Except.error e => some { s with calls := rest, thrown := s.thrown ++ [e] }
      | Except.ok p => some { s with calls := rest, pool := p }
    | Call.Stop :: rest =>
      some { s with calls := rest, pool := Stop.signal s.pool, pc := CallerPc.stopJoin }
    | Call.Submit task :: rest => some { s with calls := rest, pool := s.pool.Submit task }
    | Call.ProcessTask :: rest =>
      some { s with
        calls := rest
        pool := s.pool.ProcessTask.2.2
        pc := CallerPc.resume ((s.pool.ProcessTask.2.1.map (enter submits)).head?) }
    | Call.WaitUntilIdle :: rest => some { s with calls := rest, pc := CallerPc.waitUntilIdle }
  | CallerPc.processTask frame =>
    some { s with pool := (frameStep s.pool frame).2, pc := CallerPc.resume (frameStep s.pool frame).1 }
  | CallerPc.stopJoin =>
    if Stop.joined s.pool then some { s with pool := Stop.clear s.pool, pc := CallerPc.idle }
    else none
  | CallerPc.waitUntilIdle =>
    if s.pool.stillWorking then none else some { s with pc := CallerPc.idle }

/-- One atomic action of worker `i`; `none`: it is blocked, has left, or does not exist. -/
def workerStep (submits : τ → List τ) (i : Nat) (s : System τ) : Option (System τ) :=
  match s.pool.m_workers.get? i with
  | none => none
  | some WorkerThread.waiting =>
    (s.pool.workerWake (enter submits) i).map (fun p => { s with pool := p })
  | some (WorkerThread.running frame) =>
    some { s with
      pool := { (frameStep s.pool frame).2 with
        m_workers := (frameStep s.pool frame).2.m_workers.set i
          (WorkerThread.resume (frameStep s.pool frame).1) } }
  | some WorkerThread.returned => some { s with pool := s.pool.workerNext (enter submits) i }
  | some WorkerThread.exited => none

/-- One atomic action of thread `tid`: `0` is the owner, `i + 1` is worker `i`. -/
def step (submits : τ → List τ) (tid : Nat) (s : System τ) : Option (System τ) :=
  match tid with
  | 0 => callerStep submits s
  | i + 1 => workerStep submits i s

/-- The scheduler gives the processor to thread `tid`; a thread that cannot act leaves
everything as it is. -/
def schedule (submits : τ → List τ) (tid : Nat) (s : System τ) : System τ :=
  (step submits tid s).getD s

/-- The system after the scheduler decisions `sched`, taken from left to right. -/
def run (submits : τ → List τ) : List Nat → System τ → System τ
  | [], s => s
  | tid :: sched, s => run submits sched (schedule submits tid s)

/-- A freshly constructed pool whose owner is about to make the calls `calls`. -/
def System.init (calls : List (Call τ)) : System τ :=
  { pool := ThreadPool.new
    pc := CallerPc.idle
    calls := calls
    thrown := [] }

/-- What holds of the counter in every state a pool reaches: it is at least the number
of workers that hold a task. -/
def Counted (s : System τ) : Prop :=
  (s.pool.m_workers.countP WorkerThread.busy : Int) ≤ s.pool.m_in_flight_task_count

end ThreadPool

/-! ## `checkqueue.h` -/

namespace CheckQueue

/-- The two closures `CCheckQueue` passes to `ThreadPool::Submit`: the one of `Add`,
which calls `CheckBatch(checks)`, and the one of `CheckBatch`, which calls
`Check(checks)`. -/
inductive Task (T : Type) where
  | CheckBatch (checks : List T) : Task T
  | Check (checks : List T) : Task T
  deriving DecidableEq

/-- Where a thread stands inside a closure it executes. -/
inductive Frame (T : Type) where
  /-- In the loop of `CheckBatch`; `batches` are the arguments of the calls of `Submit`
  still to come, in order. -/
  | submitting (batches : List (List T)) : Frame T
  /-- At the start of `Check(checks)`, before `m_all_ok` is read. -/
  | checkEntry (checks : List T) : Frame T
  /-- In `Check` after the loop, before `if (!ok) m_all_ok = false`. -/
  | checkExit (ok : Bool) : Frame T
  deriving DecidableEq

/-- The data members of `CCheckQueue<T>`, and the sequence of checks evaluated so far
(`evaluated`, which is not a member: it records the calls `check()` in order). -/
structure CCheckQueue (T : Type) where
  m_all_ok : Bool
  nBatchSize : Nat
  m_thread_pool : ThreadPool (Task T) (Frame T)
  evaluated : List T
  deriving DecidableEq

variable {T : Type}

/-- The constructor `CCheckQueue(batch_size, thread_pool)`; `batch_size` is an
`unsigned int`, and `m_all_ok` starts as `true`. -/
def CCheckQueue.new (batch_size : Nat) (thread_pool : ThreadPool (Task T) (Frame T)) :
    CCheckQueue T :=
  { m_all_ok := true
    nBatchSize := batch_size % 4294967296
    m_thread_pool := thread_pool
    evaluated := [] }

/-- The loop `for (T& check : checks) if (ok) ok = check();` of `Check`: the final `ok`
and the checks that were called, in order. -/
def Check.loop (eval : T → Bool) : Bool → List T → Bool × List T
  | ok, [] => (ok, [])
  | ok, check :: rest =>
    if ok then
      ((Check.loop eval (eval check) rest).1, check :: (Check.loop eval (eval check) rest).2)
    else
      Check.loop eval ok rest

/-- `Check` up to the end of its loop: `bool ok{m_all_ok}; if (!ok) return;` and the
loop.  `none`: the function has returned; `some ok`: the last statement is still to be
executed with this value of the local `ok`. -/
def Check.entry (eval : T → Bool) (q : CCheckQueue T) (checks : List T) :
    Option Bool × CCheckQueue T :=
  if !q.m_all_ok then (none, q)
  else
    (some (Check.loop eval q.m_all_ok checks).1,
      { q with evaluated := q.evaluated ++ (Check.loop eval q.m_all_ok checks).2 })

/-- The last statement of `Check`: `if (!ok) m_all_ok = false;`. -/
def Check.exit (q : CCheckQueue T) (ok : Bool) : CCheckQueue T :=
  if !ok then { q with m_all_ok := false } else q

/-- `CCheckQueue::Check`, run without interference of other threads. -/
def CCheckQueue.Check (eval : T → Bool) (q : CCheckQueue T) (checks : List T) :
    CCheckQueue T :=
  match Check.entry eval q checks with
  | (none, q1) => q1
  | (some ok, q1) => Check.exit q1 ok

/-- The local `batch_size` of `CheckBatch`:
`std::max(1U, std::min(nBatchSize, static_cast<uint32_t>(checks.size() / (WorkersCount() + 1))))`. -/
def CheckBatch.batch_size (nBatchSize size workers : Nat) : Nat :=
  max 1 (min nBatchSize ((size / (workers + 1)) % 4294967296))

/-- The loop of `CheckBatch`: `i` and `local_checks` are the locals of these names, the
last argument is what the iterator `it` has still to visit.  The result lists the
arguments of the calls of `Submit`, in order.  After a call `i = 0` is followed by the
`++i` of the loop header.  (`i` never exceeds `batch_size`, so it does not wrap.) -/
def CheckBatch.loop (batch_size : Nat) : Nat → List T → List T → List (List T)
  | _, _, [] => []
  | i, local_checks, check :: rest =>
    if i == batch_size || rest.isEmpty then
      (local_checks ++ [check]) :: CheckBatch.loop batch_size (0 + 1) [] rest
    else
      CheckBatch.loop batch_size (i + 1) (local_checks ++ [check]) rest

/-- The sub-batches `CheckBatch(checks)` submits on queue `q`, in order. -/
def CCheckQueue.subBatches (q : CCheckQueue T) (checks : List T) : List (List T) :=
  CheckBatch.loop
    (CheckBatch.batch_size q.nBatchSize checks.length q.m_thread_pool.WorkersCount)
    0 [] checks

/-- `m_thread_pool->Submit(task)`. -/
def CCheckQueue.Submit (q : CCheckQueue T) (task : Task T) : CCheckQueue T :=
  { q with m_thread_pool := q.m_thread_pool.Submit task }

/-- `CCheckQueue::CheckBatch`, run without interference of other threads. -/
def CCheckQueue.CheckBatch (q : CCheckQueue T) (checks : List T) : CCheckQueue T :=
  (q.subBatches checks).foldl (fun q1 batch => q1.Submit (Task.Check batch)) q

/-- The test `!m_all_ok || checks.empty()` of `Add`. -/
def Add.skips (q : CCheckQueue T) (checks : List T) : Bool :=
  !q.m_all_ok || checks.isEmpty

/-- `CCheckQueue::Add`, run without interference of other threads. -/
def CCheckQueue.Add (q : CCheckQueue T) (checks : List T) : CCheckQueue T :=
  if Add.skips q checks then q else q.Submit (Task.CheckBatch checks)

/-- `CCheckQueue::HasThreads`. -/
def CCheckQueue.HasThreads (q : CCheckQueue T) : Bool :=
  decide (q.m_thread_pool.WorkersCount > 0)

/-- A thread starts to execute a closure popped from the work queue. -/
def Task.enter (q : CCheckQueue T) : Task T → Frame T
  | Task.CheckBatch checks => Frame.submitting (q.subBatches checks)
  | Task.Check checks => Frame.checkEntry checks

/-- One atomic action of a thread inside a closure; `none`: the closure has returned. -/
def Frame.step (eval : T → Bool) (q : CCheckQueue T) : Frame T → Option (Frame T) × CCheckQueue T
  | Frame.submitting [] => (none, q)
  | Frame.submitting (batch :: rest) =>
    (if rest.isEmpty then none else some (Frame.submitting rest), q.Submit (Task.Check batch))
  | Frame.checkEntry checks =>
    ((Check.entry eval q checks).1.map Frame.checkExit, (Check.entry eval q checks).2)
  | Frame.checkExit ok => (none, Check.exit q ok)

/-- What the driving thread asks of the queue. -/
inductive Call (T : Type) where
  | Add (checks : List T) : Call T
  | Wait : Call T
  deriving DecidableEq

/-- Where the driving thread (the master) stands. -/
inductive MasterPc (T : Type) where
  /-- Between two calls. -/
  | idle : MasterPc T
  /-- In `Add`, past the test, before `Submit`. -/
  | addSubmit (checks : List T) : MasterPc T
  /-- In `Wait`, about to call `ProcessTask`. -/
  | waitProcessTask : MasterPc T
  /-- In `Wait`, inside the `task()` of `ProcessTask`. -/
  | waitTask (task : Frame T) : MasterPc T
  /-- In `Wait`, in `WaitUntilIdle`. -/
  | waitUntilIdle : MasterPc T
  /-- In `Wait`, past `WaitUntilIdle`, before `m_all_ok` is read and reset (one step:
  the pool is idle then, and no other thread drives the queue). -/
  | waitRead : MasterPc T
  deriving DecidableEq

/-- Where the master stands after one more action inside the `task()` of
`ProcessTask`: still inside, or back in the loop of `Wait`. -/
def MasterPc.resume {T : Type} : Option (Frame T) → MasterPc T
  | some g => MasterPc.waitTask g
  | none => MasterPc.waitProcessTask

/-- A check queue with its pool, the master and what it has still to call, and the
values `Wait` has returned so far. -/
structure System (T : Type) where
  queue : CCheckQueue T
  pc : MasterPc T
  calls : List (Call T)
  returned : List Bool
  deriving DecidableEq

/-- One atomic action of the master; `none`: it is blocked or has nothing left to do. -/
def masterStep (eval : T → Bool) (s : System T) : Option (System T) :=
  match s.pc with
  | MasterPc.idle =>
    match s.calls with
    | [] => none
    | Call.Add checks :: rest =>
      if Add.skips s.queue checks then some { s with calls := rest }
      else some { s with calls := rest, pc := MasterPc.addSubmit checks }
    | Call.Wait :: rest => some { s with calls := rest, pc := MasterPc.waitProcessTask }
  | MasterPc.addSubmit checks =>
    some { s with queue := s.queue.Submit (Task.CheckBatch checks), pc := MasterPc.idle }
  | MasterPc.waitProcessTask =>
    match s.queue.m_thread_pool.m_work_queue with
    | [] => some { s with pc := MasterPc.waitUntilIdle }
    | task :: rest =>
      some { s with
        queue := { s.queue with
          m_thread_pool := { s.queue.m_thread_pool with m_work_queue := rest } }
        pc := MasterPc.waitTask (task.enter s.queue) }
  | MasterPc.waitTask f =>
    some { s with
      queue := (f.step eval s.queue).2
      pc := MasterPc.resume (f.step eval s.queue).1 }
  | MasterPc.waitUntilIdle =>
    if ThreadPool.stillWorking s.queue.m_thread_pool then none
    else some { s with pc := MasterPc.waitRead }
  | MasterPc.waitRead =>
    some { s with
      queue := { s.queue with m_all_ok := true }
      returned := s.returned ++ [s.queue.m_all_ok]
      pc := MasterPc.idle }

/-- The worker list of the pool of `q` with entry `i` replaced. -/
def CCheckQueue.setWorker (q : CCheckQueue T) (i : Nat) (w : WorkerThread (Frame T)) :
    CCheckQueue T :=
  { q with m_thread_pool := { q.m_thread_pool with m_workers := q.m_thread_pool.m_workers.set i w } }

/-- One atomic action of worker `i`; `none`: it is blocked, has left, or does not exist. -/
def workerStep (eval : T → Bool) (i : Nat) (s : System T) : Option (System T) :=
  match s.queue.m_thread_pool.m_workers.get? i with
  | none => none
  | some WorkerThread.waiting =>
    (s.queue.m_thread_pool.workerWake (Task.enter s.queue) i).map
      (fun p => { s with queue := { s.queue with m_thread_pool := p } })
  | some (WorkerThread.running f) =>
    some { s with
      queue := (f.step eval s.queue).2.setWorker i (WorkerThread.resume (f.step eval s.queue).1) }
  | some WorkerThread.returned =>
    some { s with
      queue := { s.queue with
        m_thread_pool := s.queue.m_thread_pool.workerNext (Task.enter s.queue) i } }
  | some WorkerThread.exited => none

/-- One atomic action of thread `tid`: `0` is the master, `i + 1` is worker `i`. -/
def step (eval : T → Bool) (tid : Nat) (s : System T) : Option (System T) :=
  match tid with
  | 0 => masterStep eval s
  | i + 1 => workerStep eval i s

/-- The first thread among `0, ..., n - 1` that can act, acting. -/
def firstEnabled (eval : T → Bool) (s : System T) (n : Nat) : Option (System T) :=
  (List.range n).findSome? (fun tid => step eval tid s)

/-- The scheduler gives the processor to thread `tid`; when that thread cannot act, the
first thread that can act runs instead, and when none can, nothing happens. -/
def schedule (eval : T → Bool) (tid : Nat) (s : System T) : System T :=
  match step eval tid s with
  | some s1 => s1
  | none =>
    match firstEnabled eval s (s.queue.m_thread_pool.WorkersCount + 1) with
    | some s1 => s1
    | none => s

/-- The system after the scheduler decisions `sched`, taken from left to right. -/
def run (eval : T → Bool) : List Nat → System T → System T
  | [], s => s
  | tid :: sched, s => run eval sched (schedule eval tid s)

/-- A pool of `workers` started threads with nothing queued. -/
def startedPool (workers : Nat) : ThreadPool (Task T) (Frame T) :=
  { m_work_queue := []
    m_interrupt := false
    m_workers := List.replicate workers WorkerThread.waiting
    m_in_flight_task_count := 0 }

/-- A freshly constructed queue on a pool of `workers` threads, and a master that is
about to make the calls `calls`. -/
def System.init (workers batch_size : Nat) (calls : List (Call T)) : System T :=
  { queue := CCheckQueue.new batch_size (startedPool workers)
    pc := MasterPc.idle
    calls := calls
    returned := [] }

/-- The master has made all its calls and the last one has returned. -/
def System.finished (s : System T) : Bool :=
  match s.pc, s.calls with
  | MasterPc.idle, [] => true
  | _, _ => false

/-! ### Quantities used to state and prove the properties of the check queue -/

/-- The conjunction of the results of the checks a queued closure carries. -/
def Task.all (eval : T → Bool) : Task T → Bool
  | Task.CheckBatch checks => checks.all eval
  | Task.Check checks => checks.all eval

/-- The conjunction of the results a closure under execution has still to account
for: the checks it has not passed on or looked at, or the local `ok` it has not yet
written back. -/
def Frame.all (eval : T → Bool) : Frame T → Bool
  | Frame.submitting batches => batches.all (fun batch => batch.all eval)
  | Frame.checkEntry checks => checks.all eval
  | Frame.checkExit ok => ok

/-- `Frame.all` of the closure a thread goes on with, `true` when it has returned. -/
def Frame.allOpt (eval : T → Bool) : Option (Frame T) → Bool
  | some f => f.all eval
  | none => true

/-- `Frame.all` of the closure a worker executes, `true` when it executes none. -/
def workerAll (eval : T → Bool) : WorkerThread (Frame T) → Bool
  | WorkerThread.running f => f.all eval
  | _ => true

/-- The value `m_all_ok` will have once everything the pool holds has been executed. -/
def CCheckQueue.verdict (eval : T → Bool) (q : CCheckQueue T) : Bool :=
  q.m_all_ok && (q.m_thread_pool.m_work_queue.all (Task.all eval) &&
    q.m_thread_pool.m_workers.all (workerAll eval))

/-- The values the calls `Wait` among `calls` return, when the session under way has
the verdict `acc` so far: each `Wait` returns the conjunction of the checks added since
the `Wait` before it. -/
def predict (eval : T → Bool) : Bool → List (Call T) → List Bool
  | _, [] => []
  | acc, Call.Add checks :: rest => predict eval (acc && checks.all eval) rest
  | acc, Call.Wait :: rest => acc :: predict eval true rest

/-- The values the calls `Wait` that have not yet returned are going to return. -/
def System.pending (eval : T → Bool) (s : System T) : List Bool :=
  match s.pc with
  | MasterPc.idle => predict eval (s.queue.verdict eval) s.calls
  | MasterPc.addSubmit checks => predict eval (s.queue.verdict eval && checks.all eval) s.calls
  | MasterPc.waitTask f => (s.queue.verdict eval && f.all eval) :: predict eval true s.calls
  | _ => s.queue.verdict eval :: predict eval true s.calls

/-- An upper bound on the atomic actions left inside a closure under execution,
counting those of the closures it is going to submit. -/
def Frame.cost : Frame T → Nat
  | Frame.submitting batches => 1 + 5 * batches.length
  | Frame.checkEntry _ => 2
  | Frame.checkExit _ => 1

/-- `Frame.cost` of the closure a thread goes on with, `0` when it has returned. -/
def Frame.costOpt : Option (Frame T) → Nat
  | some f => f.cost
  | none => 0

/-- An upper bound on the atomic actions a queued closure gives rise to. -/
def Task.cost : Task T → Nat
  | Task.CheckBatch checks => 3 + 5 * checks.length
  | Task.Check _ => 4

/-- An upper bound on the atomic actions a worker takes for the task it holds. -/
def workerCost : WorkerThread (Frame T) → Nat
  | WorkerThread.running f => f.cost + 1
  | WorkerThread.returned => 1
  | _ => 0

/-- An upper bound on the atomic actions the master takes to get back to `idle`, not
counting the tasks it pops. -/
def MasterPc.cost : MasterPc T → Nat
  | MasterPc.idle => 0
  | MasterPc.addSubmit checks => 1 + (Task.CheckBatch checks).cost
  | MasterPc.waitProcessTask => 3
  | MasterPc.waitTask f => f.cost + 3
  | MasterPc.waitUntilIdle => 2
  | MasterPc.waitRead => 1

/-- An upper bound on the atomic actions a call gives rise to. -/
def Call.cost : Call T → Nat
  | Call.Add checks => 2 + (Task.CheckBatch checks).cost
  | Call.Wait => 4

/-- The number of scheduler decisions after which the calls `calls` have all returned,
whatever the schedule. -/
def fuel (calls : List (Call T)) : Nat := (calls.map Call.cost).sum

/-- An upper bound on the atomic actions left in a system. -/
def System.measure (s : System T) : Nat :=
  fuel s.calls + s.pc.cost +
    ((s.queue.m_thread_pool.m_work_queue.map Task.cost).sum +
      (s.queue.m_thread_pool.m_workers.map workerCost).sum)

/-- What holds of every state a system reaches from `System.init` when the `Wait`
calls of the master are to return `expected`. -/
structure Inv (eval : T → Bool) (expected : List Bool) (s : System T) : Prop where
  not_interrupted : s.queue.m_thread_pool.m_interrupt = false
  in_flight : s.queue.m_thread_pool.m_in_flight_task_count =
    (s.queue.m_thread_pool.m_workers.countP WorkerThread.busy : Nat)
  not_exited : ∀ w ∈ s.queue.m_thread_pool.m_workers, w.busy = true ∨ w.isWaiting = true
  quiet : s.pc = MasterPc.waitRead →
    s.queue.m_thread_pool.m_work_queue = [] ∧
      s.queue.m_thread_pool.m_workers.all WorkerThread.isWaiting = true
  drained : s.pc = MasterPc.waitUntilIdle →
    s.queue.m_thread_pool.m_workers.all WorkerThread.isWaiting = true →
      s.queue.m_thread_pool.m_work_queue = []
  returns : s.returned ++ s.pending eval = expected

/-- No thread can act. -/
def System.stuck (eval : T → Bool) (s : System T) : Prop :=
  ∀ tid, step eval tid s = none

/-- The data members of `CCheckQueueControl<T>`: `pqueue` is kept as whether it is not
null; `locked` (not a member) is whether the guard is inside the critical section of
`pqueue->m_control_mutex`. -/
structure CCheckQueueControl (T : Type) where
  pqueue : Bool
  fDone : Bool
  locked : Bool
  deriving DecidableEq

/-- The constructor `CCheckQueueControl(pqueueIn)`, once it has entered the critical
section of `m_control_mutex` (which it does only when `pqueue != nullptr`). -/
def CCheckQueueControl.new (pqueue : Bool) : CCheckQueueControl T :=
  { pqueue := pqueue, fDone := false, locked := pqueue }

/-- `CCheckQueueControl::Wait`: the calls it makes on `*pqueue`, and the guard when it
returns. -/
def CCheckQueueControl.Wait (g : CCheckQueueControl T) : List (Call T) × CCheckQueueControl T :=
  if !g.pqueue then ([], g) else ([Call.Wait], { g with fDone := true })

/-- `CCheckQueueControl::Add`: the calls it makes on `*pqueue`, and the guard when it
returns. -/
def CCheckQueueControl.Add (g : CCheckQueueControl T) (vChecks : List T) :
    List (Call T) × CCheckQueueControl T :=
  if g.pqueue then ([Call.Add vChecks], g) else ([], g)

/-- The destructor `~CCheckQueueControl`: `if (!fDone) Wait();`, then it leaves the
critical section when `pqueue != nullptr`. -/
def CCheckQueueControl.destroy (g : CCheckQueueControl T) :
    List (Call T) × CCheckQueueControl T :=
  ((if !g.fDone then g.Wait else ([], g)).1,
    if (if !g.fDone then g.Wait else ([], g)).2.pqueue then
      { (if !g.fDone then g.Wait else ([], g)).2 with locked := false }
    else (if !g.fDone then g.Wait else ([], g)).2)

/-- The calls `ops` of the owner of a guard on the guard (`Call.Add` for its `Add`,
`Call.Wait` for its `Wait`), followed by the destructor: the calls made on `*pqueue`, in
order, and the guard at the end. -/
def CCheckQueueControl.calls : CCheckQueueControl T → List (Call T) →
    List (Call T) × CCheckQueueControl T
  | g, [] => g.destroy
  | g, Call.Add vChecks :: ops =>
    ((g.Add vChecks).1 ++ (CCheckQueueControl.calls (g.Add vChecks).2 ops).1,
      (CCheckQueueControl.calls (g.Add vChecks).2 ops).2)
  | g, Call.Wait :: ops =>
    (g.Wait.1 ++ (CCheckQueueControl.calls g.Wait.2 ops).1,
      (CCheckQueueControl.calls g.Wait.2 ops).2)

/-- The pool holds nothing of a session: the work queue is empty, every worker waits for
work, and `m_all_ok` is true. -/
def CCheckQueue.drained (q : CCheckQueue T) : Prop :=
  q.m_thread_pool.m_work_queue = [] ∧ q.m_all_ok = true ∧
    q.m_thread_pool.m_workers.all WorkerThread.isWaiting = true

/-- What holds of every state of a master whose last call is a `Wait`: that call is
still to come, or under way, or it has returned and the queue is drained. -/
def Closing (s : System T) : Prop :=
  s.calls.getLast? = some Call.Wait ∨
    (s.calls = [] ∧
      match s.pc with
      | MasterPc.idle => s.queue.drained
      | MasterPc.addSubmit _ => False
      | _ => True)

/-- The value `CCheckQueueControl::Wait` returns: `true` when `pqueue == nullptr`, and
else `fRet`, the value `pqueue->Wait()` has returned. -/
def CCheckQueueControl.Wait.returns (g : CCheckQueueControl T) (fRet : Bool) : Bool :=
  if !g.pqueue then true else fRet

/-- A thread that puts a guard on the queue: it constructs a `CCheckQueueControl` on the
queue, calls `ops` on it and destroys it. -/
inductive Owner (T : Type) where
  /-- Before the constructor, or in it at `ENTER_CRITICAL_SECTION`. -/
  | entering (ops : List (Call T)) : Owner T
  /-- The constructor has returned and the destructor has not: the guard is alive, and
  the thread drives the queue; `calls` are the calls its `ops` and its destructor have
  still to make on the queue. -/
  | live (pc : MasterPc T) (calls : List (Call T)) (returned : List Bool) : Owner T
  /-- The destructor has returned. -/
  | gone (returned : List Bool) : Owner T
  deriving DecidableEq

/-- A check queue with its pool, the state of `m_control_mutex`, and the threads that
put guards on the queue. -/
structure Guarded (T : Type) where
  queue : CCheckQueue T
  m_control_mutex : Bool
  owners : List (Owner T)
  deriving DecidableEq

/-- Modelled from the spec: `ENTER_CRITICAL_SECTION(cs)`, a macro of `sync.h`, acquires
the exclusive lock `cs`, blocking while it is held; the argument is whether `cs` is
held, the result whether it is held afterwards, `none` when the caller is blocked. -/
def ENTER_CRITICAL_SECTION (cs : Bool) : Option Bool :=
  if cs then none else some true

/-- Modelled from the spec: `LEAVE_CRITICAL_SECTION(cs)`, a macro of `sync.h`, releases
the lock `cs`. -/
def LEAVE_CRITICAL_SECTION (_cs : Bool) : Bool := false

/-- One atomic action of owner `j`: the `ENTER_CRITICAL_SECTION` of the constructor; an
action of a call on the queue (those of `ops`, then the `Wait` of the destructor when
`fDone` is not set); or, when these have returned, the `LEAVE_CRITICAL_SECTION` of the
destructor.  `none`: the thread is blocked, or done. -/
def Guarded.ownerStep (eval : T → Bool) (j : Nat) (s : Guarded T) : Option (Guarded T) :=
  match s.owners.get? j with
  | none => none
  | some (Owner.entering ops) =>
    (ENTER_CRITICAL_SECTION s.m_control_mutex).map (fun cs =>
      { s with
        m_control_mutex := cs
        owners := s.owners.set j (Owner.live MasterPc.idle
          (CCheckQueueControl.calls (CCheckQueueControl.new true) ops).1 []) })
  | some (Owner.live pc calls returned) =>
    if System.finished { queue := s.queue, pc := pc, calls := calls, returned := returned } then
      some { s with
        m_control_mutex := LEAVE_CRITICAL_SECTION s.m_control_mutex
        owners := s.owners.set j (Owner.gone returned) }
    else
      (masterStep eval { queue := s.queue, pc := pc, calls := calls, returned := returned }).map
        (fun sys =>
          { s with
            queue := sys.queue
            owners := s.owners.set j (Owner.live sys.pc sys.calls sys.returned) })
  | some (Owner.gone _) => none

/-- One atomic action of worker `i` of the pool of the queue. -/
def Guarded.workerStep (eval : T → Bool) (i : Nat) (s : Guarded T) : Option (Guarded T) :=
  (CheckQueue.workerStep eval i
      { queue := s.queue, pc := MasterPc.idle, calls := [], returned := [] }).map
    (fun sys => { s with queue := sys.queue })

/-- One atomic action of a thread: `Sum.inl j` is owner `j`, `Sum.inr i` is worker `i`. -/
def Guarded.step (eval : T → Bool) (tid : Nat ⊕ Nat) (s : Guarded T) : Option (Guarded T) :=
  match tid with
  | Sum.inl j => s.ownerStep eval j
  | Sum.inr i => s.workerStep eval i

/-- The state after the scheduler decisions `sched`, taken from left to right; a thread
that cannot act leaves everything as it is. -/
def Guarded.run (eval : T → Bool) : List (Nat ⊕ Nat) → Guarded T → Guarded T
  | [], s => s
  | tid :: sched, s => Guarded.run eval sched ((s.step eval tid).getD s)

/-- A freshly constructed queue on a pool of `workers` threads, and one thread for each
element of `programs`, about to construct a guard on the queue and to call that element
on it. -/
def Guarded.init (workers batch_size : Nat) (programs : List (List (Call T))) : Guarded T :=
  { queue := CCheckQueue.new batch_size (startedPool workers)
    m_control_mutex := false
    owners := programs.map Owner.entering }

/-- The checks a queued closure carries. -/
def Task.checks : Task T → List T
  | Task.CheckBatch checks => checks
  | Task.Check checks => checks

/-- The checks a closure under execution has still to pass on or to look at. -/
def Frame.checks : Frame T → List T
  | Frame.submitting batches => batches.flatten
  | Frame.checkEntry checks => checks
  | Frame.checkExit _ => []

/-- `Frame.checks` of the closure a thread goes on with, none when it has returned. -/
def Frame.checksOpt : Option (Frame T) → List T
  | some f => f.checks
  | none => []

/-- `Frame.checks` of the closure a worker executes. -/
def workerChecks : WorkerThread (Frame T) → List T
  | WorkerThread.running f => f.checks
  | _ => []

/-- The checks the master holds: those of an `Add` under way, or of the closure it
executes. -/
def MasterPc.checks : MasterPc T → List T
  | MasterPc.addSubmit checks => checks
  | MasterPc.waitTask f => f.checks
  | _ => []

/-- The checks a call passes to the queue. -/
def Call.checks : Call T → List T
  | Call.Add checks => checks
  | Call.Wait => []

/-- The checks that are still to be passed to the queue or are held by the master, the
work queue or a worker, and have not been evaluated or dropped. -/
def System.held (s : System T) : List T :=
  s.calls.flatMap Call.checks ++ s.pc.checks ++
    (s.queue.m_thread_pool.m_work_queue.flatMap Task.checks ++
      s.queue.m_thread_pool.m_workers.flatMap workerChecks)

/-- No check of the closure has failed: the local `ok` of `Check`, where there is one,
is true. -/
def Frame.passed : Frame T → Bool
  | Frame.checkExit ok => ok
  | _ => true

/-- `Frame.passed` of the closure a thread goes on with. -/
def Frame.passedOpt : Option (Frame T) → Bool
  | some f => f.passed
  | none => true

/-- `Frame.passed` of the closure a worker executes. -/
def workerPassed : WorkerThread (Frame T) → Bool
  | WorkerThread.running f => f.passed
  | _ => true

/-- `Frame.passed` of the closure the master executes. -/
def MasterPc.passed : MasterPc T → Bool
  | MasterPc.waitTask f => f.passed
  | _ => true

/-- No failure has been seen: `m_all_ok` is true and so is every local `ok`. -/
def System.passing (s : System T) : Prop :=
  s.queue.m_all_ok = true ∧ s.pc.passed = true ∧
    ∀ w ∈ s.queue.m_thread_pool.m_workers, workerPassed w = true

/-- The call is a `Wait`. -/
def Call.isWait : Call T → Bool
  | Call.Wait => true
  | Call.Add _ => false

end CheckQueue

/-! ## `inputfetcher.h` -/

namespace Fetcher

/-- `COutPoint`: the hash of the producing transaction (a `Txid`, here a number) and
the index of the output. -/
structure COutPoint where
  hash : Nat
  n : Nat
  deriving DecidableEq

/-- Modelled from the spec: a coin is the data backing an outpoint (the class `Coin` of
`coins.h`); nothing here looks into it. -/
abbrev Coin : Type := Nat

/-- What `FetchInputs` reads of a `CTransaction` (of `primitives/transaction.h`):
`GetHash()`, `IsCoinBase()` and the `prevout` of each element of `vin`. -/
structure CTransaction where
  GetHash : Nat
  IsCoinBase : Bool
  vin : List COutPoint
  deriving DecidableEq

/-- `CBlock`, of which `FetchInputs` reads `vtx`. -/
structure CBlock where
  vtx : List CTransaction
  deriving DecidableEq

/-- Modelled from the spec: the backing store (`CCoinsViewDB` of `txdb.h`) is a
read-only store with a point lookup by outpoint; here the list of its entries. -/
abbrev CCoinsViewDB : Type := List (COutPoint × Coin)

/-- Modelled from the spec: `CCoinsViewDB::GetCoin`, the lookup `lookup(key) ->
Option<Value>` of the store. -/
def CCoinsViewDB.GetCoin (db : CCoinsViewDB) (outpoint : COutPoint) : Option Coin :=
  db.lookup outpoint

/-- Modelled from the spec: an entry of the cache (`CCoinsViewCache` of `coins.h`): a
coin and whether it is marked for write-back. -/
structure CCoinsCacheEntry where
  coin : Coin
  dirty : Bool
  deriving DecidableEq

/-- Modelled from the spec: the cache, a map from outpoints to entries, here the list of
its key/entry pairs. -/
abbrev CCoinsViewCache : Type := List (COutPoint × CCoinsCacheEntry)

/-- Modelled from the spec: `CCoinsViewCache::HaveCoinInCache`, the `contains(key)` of
the cache. -/
def CCoinsViewCache.HaveCoinInCache (cache : CCoinsViewCache) (outpoint : COutPoint) : Bool :=
  (cache.lookup outpoint).isSome

/-- Modelled from the spec: `CCoinsViewCache::EmplaceCoinInternalDANGER`, the insert
operation that adds a key/value pair, marked for write-back only if `set_dirty`; a key
that is present keeps its entry. -/
def CCoinsViewCache.EmplaceCoinInternalDANGER (cache : CCoinsViewCache)
    (outpoint : COutPoint) (coin : Coin) (set_dirty : Bool) : CCoinsViewCache :=
  if cache.HaveCoinInCache outpoint then cache
  else cache ++ [(outpoint, { coin := coin, dirty := set_dirty })]

/-- The two closures `InputFetcher::Add` passes to `ThreadPool::Submit`: the outer one,
which splits `outpoints` into sub-batches, and the inner one, which looks a sub-batch
up in the store. -/
inductive Task where
  | Add (outpoints : List COutPoint) : Task
  | Fetch (outpoints : List COutPoint) : Task
  deriving DecidableEq

/-- Where a thread stands inside a closure it executes. -/
inductive Frame where
  /-- In the loop of the outer closure; `batches` are the arguments of the calls of
  `Submit` still to come, in order. -/
  | submitting (batches : List (List COutPoint)) : Frame
  /-- The outer closure has divided by `WorkersCount() == 0`: behaviour undefined. -/
  | undefined : Frame
  /-- At the start of the inner closure. -/
  | fetching (outpoints : List COutPoint) : Frame
  /-- In the inner closure past its loop, before `LOCK(m_mutex)`. -/
  | fetched (pairs : List (COutPoint × Coin)) : Frame
  deriving DecidableEq

/-- The data members of `InputFetcher`, whether `m_mutex` is held, and the outpoints
looked up so far (`lookups`, which is not a member: it records the calls of `GetCoin` in
order). -/
structure InputFetcher where
  m_pairs : List (COutPoint × Coin)
  m_mutex_held : Bool
  m_batch_size : Nat
  m_thread_pool : ThreadPool Task Frame
  m_db : CCoinsViewDB
  lookups : List COutPoint
  deriving DecidableEq

/-- `m_thread_pool->Submit(task)`. -/
def InputFetcher.Submit (f : InputFetcher) (task : Task) : InputFetcher :=
  { f with m_thread_pool := f.m_thread_pool.Submit task }

/-- `InputFetcher::Add` up to the call of `Submit`: it returns at once when
`!outpoints.empty()`, and else submits the outer closure. -/
def InputFetcher.Add (f : InputFetcher) (outpoints : List COutPoint) : InputFetcher :=
  if !outpoints.isEmpty then f else f.Submit (Task.Add outpoints)

/-- The local `batch_size` of the outer closure:
`std::max(1U, std::min(m_batch_size, static_cast<uint32_t>(outpoints.size() / WorkersCount())))`;
`none` stands for the division by zero. -/
def Add.batch_size (m_batch_size size workers : Nat) : Option Nat :=
  if workers = 0 then none
  else some (max 1 (min m_batch_size ((size / workers) % 4294967296)))

/-- The loop of the outer closure: `i` and `local_outpoints` are the locals of these
names, the last argument is what the iterator `it` has still to visit.  The result lists
the arguments of the calls of `Submit`, in order.  After a call `i = 0` is followed by
the `++i` of the loop header. -/
def Add.loop (batch_size : Nat) : Nat → List COutPoint → List COutPoint → List (List COutPoint)
  | _, _, [] => []
  | i, local_outpoints, outpoint :: rest =>
    if i == batch_size || rest.isEmpty then
      (local_outpoints ++ [outpoint]) :: Add.loop batch_size (0 + 1) [] rest
    else
      Add.loop batch_size (i + 1) (local_outpoints ++ [outpoint]) rest

/-- The loop of the inner closure: the pairs found, and the outpoints looked up, in
order; the first outpoint missing from the store ends the loop (`break`). -/
def Fetch.loop (db : CCoinsViewDB) : List COutPoint → List (COutPoint × Coin) × List COutPoint
  | [] => ([], [])
  | outpoint :: rest =>
    match db.GetCoin outpoint with
    | some coin => ((outpoint, coin) :: (Fetch.loop db rest).1, outpoint :: (Fetch.loop db rest).2)
    | none => ([], [outpoint])

/-- A thread starts to execute a closure popped from the work queue. -/
def Task.enter (f : InputFetcher) : Task → Frame
  | Task.Add outpoints =>
    match Add.batch_size f.m_batch_size outpoints.length f.m_thread_pool.WorkersCount with
    | some batch_size => Frame.submitting (Add.loop batch_size 0 [] outpoints)
    | none => Frame.undefined
  | Task.Fetch outpoints => Frame.fetching outpoints

/-- One atomic action of a thread inside a closure.  `none`: the thread cannot act (it
waits for `m_mutex`, or its behaviour is undefined); `some (none, _)`: the closure has
returned. -/
def Frame.step (f : InputFetcher) : Frame → Option (Option Frame × InputFetcher)
  | Frame.submitting [] => some (none, f)
  | Frame.submitting (batch :: rest) =>
    some (if rest.isEmpty then none else some (Frame.submitting rest),
      f.Submit (Task.Fetch batch))
  | Frame.undefined => none
  | Frame.fetching outpoints =>
    some (some (Frame.fetched (Fetch.loop f.m_db outpoints).1),
      { f with lookups := f.lookups ++ (Fetch.loop f.m_db outpoints).2 })
  | Frame.fetched pairs =>
    if f.m_mutex_held then none
    else some (none, { f with m_pairs := if f.m_pairs.isEmpty then pairs else f.m_pairs ++ pairs })

/-- The inner loop of `FetchInputs`, over the inputs of one transaction: `txids` and
`buffer` are the locals of these names, `calls` lists the arguments of the calls of
`Add` made so far.  The result is the `buffer` and the `calls` after the loop. -/
def FetchInputs.inputs (cache : CCoinsViewCache) (m_batch_size : Nat) (txids : List Nat) :
    List COutPoint → List COutPoint → List (List COutPoint) →
      List COutPoint × List (List COutPoint)
  | [], buffer, calls => (buffer, calls)
  | outpoint :: rest, buffer, calls =>
    if txids.contains outpoint.hash then
      FetchInputs.inputs cache m_batch_size txids rest buffer calls
    else if cache.HaveCoinInCache outpoint then
      FetchInputs.inputs cache m_batch_size txids rest buffer calls
    else if (buffer ++ [outpoint]).length == m_batch_size then
      FetchInputs.inputs cache m_batch_size txids rest [] (calls ++ [buffer ++ [outpoint]])
    else
      FetchInputs.inputs cache m_batch_size txids rest (buffer ++ [outpoint]) calls

/-- The outer loop of `FetchInputs`, over the transactions of the block, and the call
`Add(std::move(buffer))` after it: the arguments of all the calls of `Add`, in order. -/
def FetchInputs.transactions (cache : CCoinsViewCache) (m_batch_size : Nat) :
    List CTransaction → List Nat → List COutPoint → List (List COutPoint) →
      List (List COutPoint)
  | [], _, buffer, calls => calls ++ [buffer]
  | tx :: rest, txids, buffer, calls =>
    if tx.IsCoinBase then
      FetchInputs.transactions cache m_batch_size rest txids buffer calls
    else
      FetchInputs.transactions cache m_batch_size rest (tx.GetHash :: txids)
        (FetchInputs.inputs cache m_batch_size txids tx.vin buffer calls).1
        (FetchInputs.inputs cache m_batch_size txids tx.vin buffer calls).2

/-- The arguments of the calls of `Add` that `FetchInputs(cache, db, block)` makes, in
order. -/
def FetchInputs.calls (cache : CCoinsViewCache) (m_batch_size : Nat) (block : CBlock) :
    List (List COutPoint) :=
  FetchInputs.transactions cache m_batch_size block.vtx [] [] []

/-- Where the thread that called `FetchInputs` stands. -/
inductive Pc where
  /-- In the loops over the block, or at the call of `Add` after them; `calls` are the
  arguments of the calls of `Add` still to come. -/
  | adding (calls : List (List COutPoint)) : Pc
  /-- At `WAIT_LOCK(m_mutex, lock)`, at the top of the `do` loop. -/
  | lockPairs : Pc
  /-- Holding `m_mutex`, having found `m_pairs` empty, before `IsIdle()`. -/
  | testIdle : Pc
  /-- Holding `m_mutex`, before `WaitForProgress()`; after it the loop finds `m_pairs`
  empty again, as `m_mutex` is held all along, and comes back to `IsIdle()`. -/
  | waitForProgress : Pc
  /-- Holding `m_mutex`, in the `m_wait_condition.wait` of `WaitForProgress`. -/
  | blocked : Pc
  /-- `FetchInputs` has returned. -/
  | returned : Pc
  deriving DecidableEq

/-- An input fetcher with its pool, the cache, and the thread inside `FetchInputs`. -/
structure System where
  fetcher : InputFetcher
  cache : CCoinsViewCache
  pc : Pc
  deriving DecidableEq

/-- The loop `for (auto& pair : pairs) cache.EmplaceCoinInternalDANGER(..., false)`. -/
def insertPairs (cache : CCoinsViewCache) (pairs : List (COutPoint × Coin)) : CCoinsViewCache :=
  pairs.foldl (fun c pair => c.EmplaceCoinInternalDANGER pair.1 pair.2 false) cache

/-- One atomic action of the thread inside `FetchInputs`; `none`: it cannot act.  A
thread in `m_wait_condition.wait` can always go on: it is woken by a notification, and
may be woken without one. -/
def masterStep (s : System) : Option System :=
  match s.pc with
  | Pc.adding [] => some { s with pc := Pc.lockPairs }
  | Pc.adding (outpoints :: rest) =>
    some { s with fetcher := s.fetcher.Add outpoints, pc := Pc.adding rest }
  | Pc.lockPairs =>
    if s.fetcher.m_mutex_held then none
    else if s.fetcher.m_pairs.isEmpty then
      some { s with fetcher := { s.fetcher with m_mutex_held := true }, pc := Pc.testIdle }
    else
      some { s with
        fetcher := { s.fetcher with m_pairs := [] }
        cache := insertPairs s.cache s.fetcher.m_pairs }
  | Pc.testIdle =>
    if s.fetcher.m_thread_pool.IsIdle then
      some { s with fetcher := { s.fetcher with m_mutex_held := false }, pc := Pc.returned }
    else some { s with pc := Pc.waitForProgress }
  | Pc.waitForProgress =>
    if ThreadPool.stillWorking s.fetcher.m_thread_pool then
      some { s with pc := Pc.blocked }
    else some { s with pc := Pc.testIdle }
  | Pc.blocked => some { s with pc := Pc.testIdle }
  | Pc.returned => none

/-- The worker list of the pool of `f` with entry `i` replaced. -/
def InputFetcher.setWorker (f : InputFetcher) (i : Nat) (w : WorkerThread Frame) :
    InputFetcher :=
  { f with m_thread_pool := { f.m_thread_pool with m_workers := f.m_thread_pool.m_workers.set i w } }

/-- One atomic action of worker `i`; `none`: it cannot act. -/
def workerStep (i : Nat) (s : System) : Option System :=
  match s.fetcher.m_thread_pool.m_workers.get? i with
  | none => none
  | some WorkerThread.waiting =>
    (s.fetcher.m_thread_pool.workerWake (Task.enter s.fetcher) i).map
      (fun p => { s with fetcher := { s.fetcher with m_thread_pool := p } })
  | some (WorkerThread.running frame) =>
    (frame.step s.fetcher).map
      (fun r => { s with fetcher := r.2.setWorker i (WorkerThread.resume r.1) })
  | some WorkerThread.returned =>
    some { s with
      fetcher := { s.fetcher with
        m_thread_pool := s.fetcher.m_thread_pool.workerNext (Task.enter s.fetcher) i } }
  | some WorkerThread.exited => none

/-- One atomic action of thread `tid`: `0` is the caller of `FetchInputs`, `i + 1` is
worker `i`. -/
def step (tid : Nat) (s : System) : Option System :=
  match tid with
  | 0 => masterStep s
  | i + 1 => workerStep i s

/-- The scheduler gives the processor to thread `tid`; when that thread cannot act, the
first thread that can act runs instead, and when none can, nothing happens. -/
def schedule (tid : Nat) (s : System) : System :=
  match step tid s with
  | some s1 => s1
  | none =>
    match (List.range (s.fetcher.m_thread_pool.WorkersCount + 1)).findSome?
        (fun tid1 => step tid1 s) with
    | some s1 => s1
    | none => s

/-- The system after the scheduler decisions `sched`, taken from left to right. -/
def run : List Nat → System → System
  | [], s => s
  | tid :: sched, s => run sched (schedule tid s)

/-- A pool of `workers` started threads with nothing queued. -/
def startedPool (workers : Nat) : ThreadPool Task Frame :=
  { m_work_queue := []
    m_interrupt := false
    m_workers := List.replicate workers WorkerThread.waiting
    m_in_flight_task_count := 0 }

/-- The constructor `InputFetcher(batch_size, thread_pool)`, followed by `m_db = &db`;
`batch_size` is a `uint32_t`. -/
def InputFetcher.new (batch_size : Nat) (thread_pool : ThreadPool Task Frame)
    (db : CCoinsViewDB) : InputFetcher :=
  { m_pairs := []
    m_mutex_held := false
    m_batch_size := batch_size % 4294967296
    m_thread_pool := thread_pool
    m_db := db
    lookups := [] }

/-- A thread has just called `FetchInputs(cache, db, block)` on a freshly constructed
fetcher with a pool of `workers` threads. -/
def System.init (workers batch_size : Nat) (cache : CCoinsViewCache) (db : CCoinsViewDB)
    (block : CBlock) : System :=
  { fetcher := InputFetcher.new batch_size (startedPool workers) db
    cache := cache
    pc := Pc.adding (FetchInputs.calls cache (batch_size % 4294967296) block) }

/-- What holds of every state reached from `System.init` with cache `cache0`: nothing
has been looked up or found, the cache is `cache0`, and every closure in the pool is an
outer closure over no outpoint. -/
structure NoFetch (cache0 : CCoinsViewCache) (s : System) : Prop where
  pairs : s.fetcher.m_pairs = []
  lookups : s.fetcher.lookups = []
  cache : s.cache = cache0
  queued : ∀ task ∈ s.fetcher.m_thread_pool.m_work_queue, task = Task.Add []
  workers : ∀ w ∈ s.fetcher.m_thread_pool.m_workers, ∀ frame, w = WorkerThread.running frame →
    frame = Frame.submitting [] ∨ frame = Frame.undefined

/-- What `FetchInputs` requires of an outpoint before it puts it into a batch: it is an
input of a transaction of the block that is not a coinbase, no transaction before that
one other than coinbases has the hash the outpoint names, and the cache does not hold
it. -/
def Collectable (cache : CCoinsViewCache) (block : CBlock) (outpoint : COutPoint) : Prop :=
  ∃ before tx after, block.vtx = before ++ tx :: after ∧ tx.IsCoinBase = false ∧
    outpoint ∈ tx.vin ∧
    (∀ t ∈ before, t.IsCoinBase = false → t.GetHash ≠ outpoint.hash) ∧
    cache.HaveCoinInCache outpoint = false

/-- What holds of every state that follows a call of `Add` with an empty batch in a
pool without workers: a task is queued (or about to be), there is no thread to execute
it, and `FetchInputs` has not returned. -/
structure Stalled (s : System) : Prop where
  no_workers : s.fetcher.m_thread_pool.m_workers = []
  not_interrupted : s.fetcher.m_thread_pool.m_interrupt = false
  not_returned : s.pc ≠ Pc.returned
  task_pending : s.fetcher.m_thread_pool.m_work_queue ≠ [] ∨ s.pc = Pc.adding [[]]

/-- Whether an input is to be fetched, judged where it stands in the block: `o` is an
input of `tx`, and `before` are the transactions of the block before `tx`.  It is not
when `tx` is a coinbase, when a transaction of `before` other than a coinbase has the
hash `o.hash`, or when the cache holds `o`. -/
def FetchInputs.kept (cache : CCoinsViewCache) (before : List CTransaction)
    (tx : CTransaction) (o : COutPoint) : Bool :=
  !tx.IsCoinBase && !before.any (fun t => !t.IsCoinBase && t.GetHash == o.hash) &&
    !cache.HaveCoinInCache o

/-- The inputs of the transactions `rest` that are to be fetched, in the order of the
block, each input as often as it stands there; `before` are the transactions of the
block before `rest`. -/
def FetchInputs.toFetch (cache : CCoinsViewCache) :
    List CTransaction → List CTransaction → List COutPoint
  | _, [] => []
  | before, tx :: rest =>
    tx.vin.filter (FetchInputs.kept cache before tx) ++
      FetchInputs.toFetch cache (before ++ [tx]) rest

end Fetcher

/-! ## Properties of the check queue -/

namespace CheckQueue

variable {T : Type}

theorem set_split {α : Type} (l : List α) (i : Nat) (w : α) (h : l.get? i = some w) :
    ∃ l1 l2, l = l1 ++ w :: l2 ∧ ∀ w1, l.set i w1 = l1 ++ w1 :: l2 := by
  induction l generalizing i with
  | nil => simp at h
  | cons a l ih =>
    cases i with
    | zero =>
      simp at h
      subst h
      exact ⟨[], l, rfl, fun _ => rfl⟩
    | succ i =>
      simp at h
      obtain ⟨l1, l2, h1, h2⟩ := ih i (by simpa using h)
      refine ⟨a :: l1, l2, by simp [h1], fun w1 => ?_⟩
      simp [List.set, h2]

theorem CheckBatch.loop_join (batch_size : Nat) (i : Nat) (local_checks it : List T)
    (h : it ≠ []) : (CheckBatch.loop batch_size i local_checks it).flatten = local_checks ++ it := by
  induction it generalizing i local_checks with
  | nil => exact absurd rfl h
  | cons check rest ih =>
    unfold CheckBatch.loop
    split
    · cases rest with
      | nil => simp [CheckBatch.loop]
      | cons c r => simp [ih 1 [] (by simp)]
    · rename_i hc
      have hr : rest ≠ [] := by
        intro h0
        simp [h0] at hc
      simp [ih (i + 1) (local_checks ++ [check]) hr]

theorem CheckBatch.loop_length_le (batch_size : Nat) (i : Nat) (local_checks it : List T) :
    (CheckBatch.loop batch_size i local_checks it).length ≤ it.length := by
  induction it generalizing i local_checks with
  | nil => simp [CheckBatch.loop]
  | cons check rest ih =>
    unfold CheckBatch.loop
    split
    · simpa using ih 1 [] 
    · exact Nat.le_succ_of_le (ih _ _)

theorem Check.loop_fst (eval : T → Bool) (ok : Bool) (checks : List T) :
    (Check.loop eval ok checks).1 = (ok && checks.all eval) := by
  induction checks generalizing ok with
  | nil => simp [Check.loop]
  | cons c rest ih =>
    unfold Check.loop
    cases ok <;> simp [ih]

theorem Check.loop_false (eval : T → Bool) (checks : List T) :
    Check.loop eval false checks = (false, []) := by
  induction checks with
  | nil => rfl
  | cons c rest ih => simp [Check.loop, ih]

theorem Check.loop_snd (eval : T → Bool) (checks : List T) :
    (Check.loop eval true checks).2 =
      checks.takeWhile eval ++ (checks.dropWhile eval).take 1 := by
  induction checks with
  | nil => rfl
  | cons c rest ih =>
    unfold Check.loop
    cases hc : eval c
    · simp [List.takeWhile, List.dropWhile, hc, Check.loop_false]
    · simp [List.takeWhile, List.dropWhile, hc, ih]

theorem subBatches_all (eval : T → Bool) (q : CCheckQueue T) (checks : List T) :
    (q.subBatches checks).all (fun batch => batch.all eval) = checks.all eval := by
  cases checks with
  | nil => simp [CCheckQueue.subBatches, CheckBatch.loop]
  | cons c rest =>
    have h := CheckBatch.loop_join
      (CheckBatch.batch_size q.nBatchSize (c :: rest).length q.m_thread_pool.WorkersCount)
      0 [] (c :: rest) (by simp)
    have h2 : ∀ l : List (List T), l.all (fun batch => batch.all eval) = l.flatten.all eval := by
      intro l
      simp [List.all_flatten]
    rw [CCheckQueue.subBatches, h2, h]
    simp

theorem enter_all (eval : T → Bool) (q : CCheckQueue T) (task : Task T) :
    (task.enter q).all eval = task.all eval := by
  cases task with
  | CheckBatch checks => simp [Task.enter, Frame.all, Task.all, subBatches_all]
  | Check checks => rfl

theorem enter_cost (q : CCheckQueue T) (task : Task T) :
    (task.enter q).cost + 2 ≤ task.cost := by
  cases task with
  | CheckBatch checks =>
    have := CheckBatch.loop_length_le
      (CheckBatch.batch_size q.nBatchSize checks.length q.m_thread_pool.WorkersCount)
      0 [] checks
    simp only [Task.enter, Frame.cost, Task.cost, CCheckQueue.subBatches]
    omega
  | Check checks => simp [Task.enter, Frame.cost, Task.cost]


/-- What one atomic action inside a closure does to the queue: the pool keeps its
workers, its flag and its counter, tasks are only appended, the verdict is kept and
the cost goes down. -/
theorem Frame.step_spec (eval : T → Bool) (q : CCheckQueue T) (f : Frame T) :
    (f.step eval q).2.m_thread_pool.m_workers = q.m_thread_pool.m_workers ∧
    (f.step eval q).2.m_thread_pool.m_interrupt = q.m_thread_pool.m_interrupt ∧
    (f.step eval q).2.m_thread_pool.m_in_flight_task_count =
      q.m_thread_pool.m_in_flight_task_count ∧
    (f.step eval q).2.nBatchSize = q.nBatchSize ∧
    ∃ extra, (f.step eval q).2.m_thread_pool.m_work_queue =
        q.m_thread_pool.m_work_queue ++ extra ∧
      ((f.step eval q).2.m_all_ok && (extra.all (Task.all eval) &&
        Frame.allOpt eval (f.step eval q).1)) = (q.m_all_ok && f.all eval) ∧
      Frame.costOpt (f.step eval q).1 + (extra.map Task.cost).sum < f.cost := by
  cases f with
  | submitting batches =>
    cases batches with
    | nil => exact ⟨rfl, rfl, rfl, rfl, [], by simp [Frame.step], by simp [Frame.step, Frame.allOpt, Frame.all], by simp [Frame.step, Frame.costOpt, Frame.cost]⟩
    | cons batch rest =>
      refine ⟨rfl, rfl, rfl, rfl, [Task.Check batch], by simp [Frame.step, CCheckQueue.Submit, ThreadPool.Submit], ?_, ?_⟩
      · cases rest <;> simp [Frame.step, Frame.allOpt, Frame.all, Task.all, CCheckQueue.Submit]
      · cases rest with
        | nil => simp [Frame.step, Frame.costOpt, Frame.cost, Task.cost]
        | cons b r =>
          simp [Frame.step, Frame.costOpt, Frame.cost, Task.cost]
          omega
  | checkEntry checks =>
    refine ⟨?_, ?_, ?_, ?_, [], ?_, ?_, ?_⟩
    all_goals cases hq : q.m_all_ok <;>
      simp [Frame.step, Check.entry, hq, Frame.allOpt, Frame.all, Frame.costOpt, Frame.cost,
        Check.loop_fst]
  | checkExit ok =>
    refine ⟨?_, ?_, ?_, ?_, [], ?_, ?_, ?_⟩
    all_goals cases ok <;>
      simp [Frame.step, Check.exit, Frame.allOpt, Frame.all, Frame.costOpt, Frame.cost]

@[simp] theorem busy_running (f : Frame T) : (WorkerThread.running f).busy = true := rfl

@[simp] theorem busy_returned : (WorkerThread.returned : WorkerThread (Frame T)).busy = true := rfl

@[simp] theorem busy_waiting : (WorkerThread.waiting : WorkerThread (Frame T)).busy = false := rfl

@[simp] theorem busy_resume (o : Option (Frame T)) : (WorkerThread.resume o).busy = true := by
  cases o <;> rfl

@[simp] theorem isWaiting_running (f : Frame T) : (WorkerThread.running f).isWaiting = false := rfl

@[simp] theorem isWaiting_returned :
    (WorkerThread.returned : WorkerThread (Frame T)).isWaiting = false := rfl

@[simp] theorem isWaiting_waiting :
    (WorkerThread.waiting : WorkerThread (Frame T)).isWaiting = true := rfl

@[simp] theorem isWaiting_resume (o : Option (Frame T)) :
    (WorkerThread.resume o).isWaiting = false := by
  cases o <;> rfl

@[simp] theorem workerAll_running (eval : T → Bool) (f : Frame T) :
    workerAll eval (WorkerThread.running f) = f.all eval := rfl

@[simp] theorem workerAll_returned (eval : T → Bool) :
    workerAll eval WorkerThread.returned = true := rfl

@[simp] theorem workerAll_waiting (eval : T → Bool) :
    workerAll eval WorkerThread.waiting = true := rfl

@[simp] theorem workerAll_resume (eval : T → Bool) (o : Option (Frame T)) :
    workerAll eval (WorkerThread.resume o) = Frame.allOpt eval o := by
  cases o <;> rfl

theorem predict_skips (eval : T → Bool) (q : CCheckQueue T) (checks : List T)
    (h : Add.skips q checks = true) :
    (q.verdict eval && checks.all eval) = q.verdict eval := by
  simp only [Add.skips, Bool.or_eq_true, Bool.not_eq_true', List.isEmpty_iff] at h
  rcases h with h | h
  · simp [CCheckQueue.verdict, h]
  · simp [h]

theorem masterStep_inv (eval : T → Bool) (expected : List Bool) (s s1 : System T)
    (hinv : Inv eval expected s) (h : masterStep eval s = some s1) : Inv eval expected s1 := by
  obtain ⟨hi, hf, he, hq, hd, hr⟩ := hinv
  obtain ⟨queue, pc, calls, returned⟩ := s
  dsimp only at hi hf he hq hd
  cases pc with
  | idle =>
    cases calls with
    | nil => simp [masterStep] at h
    | cons call rest =>
      cases call with
      | Add checks =>
        simp only [masterStep] at h
        split at h
        · rename_i hs
          cases h
          refine ⟨hi, hf, he, by simp, by simp, ?_⟩
          simpa [System.pending, predict, predict_skips eval queue checks hs] using hr
        · cases h
          exact ⟨hi, hf, he, by simp, by simp, by simpa [System.pending, predict] using hr⟩
      | Wait =>
        simp only [masterStep] at h
        cases h
        exact ⟨hi, hf, he, by simp, by simp, by simpa [System.pending, predict] using hr⟩
  | addSubmit checks =>
    simp only [masterStep] at h
    cases h
    refine ⟨hi, hf, he, by simp, by simp, ?_⟩
    simp only [System.pending] at hr ⊢
    rw [← hr]
    congr 2
    simp [CCheckQueue.verdict, CCheckQueue.Submit, ThreadPool.Submit, Task.all]
    ac_rfl
  | waitProcessTask =>
    simp only [masterStep] at h
    split at h
    · rename_i hempty
      cases h
      exact ⟨hi, hf, he, by simp, fun _ _ => hempty, by simpa [System.pending] using hr⟩
    · rename_i task rest hqueue
      cases h
      refine ⟨hi, hf, he, by simp, by simp, ?_⟩
      simp only [System.pending] at hr ⊢
      rw [← hr]
      simp [CCheckQueue.verdict, hqueue, enter_all]
      ac_rfl
  | waitTask f =>
    simp only [masterStep] at h
    cases h
    obtain ⟨hw, hint, hfl, _, extra, hqu, hall, _⟩ := Frame.step_spec eval queue f
    refine ⟨by simpa [hint] using hi, by simpa [hw, hfl] using hf, by simpa [hw] using he,
      ?_, ?_, ?_⟩
    · cases (Frame.step eval queue f).1 <;> simp [MasterPc.resume]
    · cases (Frame.step eval queue f).1 <;> simp [MasterPc.resume]
    · simp only [System.pending] at hr
      rw [← hr]
      have key : (CCheckQueue.verdict eval (Frame.step eval queue f).2 &&
          Frame.allOpt eval (Frame.step eval queue f).1) =
          (CCheckQueue.verdict eval queue && Frame.all eval f) := by
        simp only [CCheckQueue.verdict, hqu, hw, List.all_append]
        generalize (Frame.step eval queue f).2.m_all_ok = a at hall ⊢
        generalize extra.all (Task.all eval) = b at hall ⊢
        generalize Frame.allOpt eval (Frame.step eval queue f).1 = c at hall ⊢
        generalize queue.m_all_ok = d at hall ⊢
        generalize Frame.all eval f = e at hall ⊢
        generalize queue.m_thread_pool.m_work_queue.all (Task.all eval) = x
        generalize queue.m_thread_pool.m_workers.all (workerAll eval) = y
        revert hall
        revert a b c d e x y
        decide
      cases hstep : (Frame.step eval queue f).1 with
      | none => simpa [System.pending, hstep, Frame.allOpt, MasterPc.resume] using key
      | some g => simpa [System.pending, hstep, Frame.allOpt, MasterPc.resume] using key
  | waitUntilIdle =>
    simp only [masterStep] at h
    split at h
    · cases h
    · rename_i hb
      cases h
      simp only [ThreadPool.stillWorking, hi, Bool.not_false, Bool.true_and,
        Bool.or_eq_true, Bool.not_eq_true', decide_eq_true_eq, not_or, Bool.not_eq_false,
        List.isEmpty_iff, not_lt] at hb
      have hcount : queue.m_thread_pool.m_workers.countP WorkerThread.busy = 0 := by
        have := hb.2
        rw [hf] at this
        omega
      have hwait : queue.m_thread_pool.m_workers.all WorkerThread.isWaiting = true := by
        rw [List.all_eq_true]
        intro w hw
        rcases he w hw with hbusy | hwt
        · exact absurd (List.countP_pos_iff.mpr ⟨w, hw, hbusy⟩) (by omega)
        · exact hwt
      exact ⟨hi, hf, he, fun _ => ⟨hb.1, hwait⟩, by simp, by simpa [System.pending] using hr⟩
  | waitRead =>
    simp only [masterStep] at h
    cases h
    obtain ⟨hq1, hq2⟩ := hq rfl
    have hall : queue.m_thread_pool.m_workers.all (workerAll eval) = true := by
      rw [List.all_eq_true] at hq2 ⊢
      intro w hw
      have := hq2 w hw
      cases w <;> simp_all [WorkerThread.isWaiting, workerAll]
    refine ⟨hi, hf, he, by simp, by simp, ?_⟩
    simp only [System.pending] at hr ⊢
    rw [← hr]
    simp [CCheckQueue.verdict, hq1, hall, predict]


theorem pending_congr (eval : T → Bool) (s s1 : System T) (hpc : s1.pc = s.pc)
    (hc : s1.calls = s.calls) (hv : s1.queue.verdict eval = s.queue.verdict eval) :
    s1.pending eval = s.pending eval := by
  simp only [System.pending, hpc, hc, hv]

theorem workerStep_inv (eval : T → Bool) (expected : List Bool) (i : Nat) (s s1 : System T)
    (hinv : Inv eval expected s) (h : workerStep eval i s = some s1) :
    Inv eval expected s1 := by
  obtain ⟨hi, hf, he, hq, hd, hr⟩ := hinv
  unfold workerStep at h
  split at h
  · cases h
  · -- blocked in the wait
    rename_i hget
    obtain ⟨l1, l2, hl, hset⟩ := set_split _ _ _ hget
    simp only [ThreadPool.workerWake, hi, Bool.false_eq_true, ↓reduceIte] at h
    split at h
    · simp at h
    · rename_i task rest hqueue
      simp only [Option.map_some', Option.some.injEq] at h
      subst h
      refine ⟨by simp, ?_, ?_, ?_, ?_, ?_⟩
      · dsimp only
        rw [hset, hf, hl]
        simp [List.countP_cons]
        try omega
      · dsimp only
        rw [hset]
        intro w hw
        have := he w
        simp only [hl, List.mem_append, List.mem_cons] at this hw
        rcases hw with hw | rfl | hw
        · exact this (Or.inl hw)
        · simp
        · exact this (Or.inr (Or.inr hw))
      · intro hpc
        have := (hq hpc).1
        simp [hqueue] at this
      · intro _ hall
        dsimp only at hall
        rw [hset] at hall
        simp at hall
      · rw [← hr]
        congr 1
        refine pending_congr eval _ _ rfl rfl ?_
        simp only [CCheckQueue.verdict]
        rw [hset, hqueue, hl]
        simp only [List.all_append, List.all_cons, workerAll_running, workerAll_waiting, workerAll_returned, enter_all]
        ac_rfl
  · -- inside a closure
    rename_i f hget
    obtain ⟨l1, l2, hl, hset⟩ := set_split _ _ _ hget
    obtain ⟨hw, hint, hfl, _, extra, hqu, hall, _⟩ := Frame.step_spec eval s.queue f
    cases h
    refine ⟨by simpa [CCheckQueue.setWorker, hint] using hi, ?_, ?_, ?_, ?_, ?_⟩
    · simp only [CCheckQueue.setWorker]
      rw [hw, hfl, hset, hf, hl]
      simp [List.countP_cons]
    · simp only [CCheckQueue.setWorker]
      rw [hw, hset]
      intro w hw1
      have := he w
      simp only [hl, List.mem_append, List.mem_cons] at this hw1
      rcases hw1 with hw1 | rfl | hw1
      · exact this (Or.inl hw1)
      · simp
      · exact this (Or.inr (Or.inr hw1))
    · intro hpc
      have := (hq hpc).2
      simp [hl] at this
    · intro _ hallw
      simp only [CCheckQueue.setWorker] at hallw
      rw [hw, hset] at hallw
      simp at hallw
    · rw [← hr]
      congr 1
      refine pending_congr eval _ _ rfl rfl ?_
      simp only [CCheckQueue.verdict, CCheckQueue.setWorker]
      rw [hw, hset, hqu, hl]
      simp only [List.all_append, List.all_cons, workerAll_running, workerAll_resume]
      generalize (Frame.step eval s.queue f).2.m_all_ok = a at hall ⊢
      generalize extra.all (Task.all eval) = b at hall ⊢
      generalize Frame.allOpt eval (Frame.step eval s.queue f).1 = c at hall ⊢
      generalize s.queue.m_all_ok = d at hall ⊢
      generalize Frame.all eval f = e at hall ⊢
      generalize s.queue.m_thread_pool.m_work_queue.all (Task.all eval) = x
      generalize l1.all (workerAll eval) = y
      generalize l2.all (workerAll eval) = z
      revert hall
      revert a b c d e x y z
      decide
  · -- back from a closure
    rename_i hget
    obtain ⟨l1, l2, hl, hset⟩ := set_split _ _ _ hget
    cases h
    simp only [ThreadPool.workerNext, hi, Bool.false_eq_true, ↓reduceIte]
    split
    · rename_i hqueue
      refine ⟨by simp, ?_, ?_, ?_, ?_, ?_⟩
      · dsimp only
        rw [hset, hf, hl]
        simp [List.countP_cons]
        try omega
      · dsimp only
        rw [hset]
        intro w hw
        have := he w
        simp only [hl, List.mem_append, List.mem_cons] at this hw
        rcases hw with hw | rfl | hw
        · exact this (Or.inl hw)
        · simp
        · exact this (Or.inr (Or.inr hw))
      · intro hpc
        have := (hq hpc).2
        simp [hl] at this
      · intro _ _
        exact hqueue
      · rw [← hr]
        congr 1
        refine pending_congr eval _ _ rfl rfl ?_
        simp only [CCheckQueue.verdict]
        rw [hset, hl]
        simp only [List.all_append, List.all_cons, workerAll_returned, workerAll_waiting]
    · rename_i task rest hqueue
      refine ⟨by simp, ?_, ?_, ?_, ?_, ?_⟩
      · dsimp only
        rw [hset, hf, hl]
        simp [List.countP_cons]
        try omega
      · dsimp only
        rw [hset]
        intro w hw
        have := he w
        simp only [hl, List.mem_append, List.mem_cons] at this hw
        rcases hw with hw | rfl | hw
        · exact this (Or.inl hw)
        · simp
        · exact this (Or.inr (Or.inr hw))
      · intro hpc
        have := (hq hpc).2
        simp [hl] at this
      · intro _ hall
        dsimp only at hall
        rw [hset] at hall
        simp at hall
      · rw [← hr]
        congr 1
        refine pending_congr eval _ _ rfl rfl ?_
        simp only [CCheckQueue.verdict]
        rw [hset, hqueue, hl]
        simp only [List.all_append, List.all_cons, workerAll_running, workerAll_waiting, workerAll_returned, enter_all]
        ac_rfl
  · cases h

theorem step_inv (eval : T → Bool) (expected : List Bool) (tid : Nat) (s s1 : System T)
    (hinv : Inv eval expected s) (h : step eval tid s = some s1) : Inv eval expected s1 := by
  cases tid with
  | zero => exact masterStep_inv eval expected s s1 hinv h
  | succ i => exact workerStep_inv eval expected i s s1 hinv h

@[simp] theorem workerCost_running (f : Frame T) :
    workerCost (WorkerThread.running f) = f.cost + 1 := rfl

@[simp] theorem workerCost_returned :
    workerCost (WorkerThread.returned : WorkerThread (Frame T)) = 1 := rfl

@[simp] theorem workerCost_waiting :
    workerCost (WorkerThread.waiting : WorkerThread (Frame T)) = 0 := rfl

@[simp] theorem workerCost_resume (o : Option (Frame T)) :
    workerCost (WorkerThread.resume o) = Frame.costOpt o + 1 := by
  cases o <;> rfl

@[simp] theorem cost_resume (o : Option (Frame T)) :
    (MasterPc.resume o).cost = Frame.costOpt o + 3 := by
  cases o <;> rfl

theorem masterStep_measure (eval : T → Bool) (s s1 : System T)
    (h : masterStep eval s = some s1) : s1.measure < s.measure := by
  obtain ⟨queue, pc, calls, returned⟩ := s
  cases pc with
  | idle =>
    cases calls with
    | nil => simp [masterStep] at h
    | cons call rest =>
      cases call with
      | Add checks =>
        simp only [masterStep] at h
        split at h
        · cases h
          simp [System.measure, fuel, Call.cost, MasterPc.cost]
        · cases h
          simp [System.measure, fuel, Call.cost, MasterPc.cost]
          omega
      | Wait =>
        simp only [masterStep] at h
        cases h
        simp [System.measure, fuel, Call.cost, MasterPc.cost]
        omega
  | addSubmit checks =>
    simp only [masterStep] at h
    cases h
    simp [System.measure, MasterPc.cost, CCheckQueue.Submit, ThreadPool.Submit]
    omega
  | waitProcessTask =>
    simp only [masterStep] at h
    split at h
    · cases h
      simp [System.measure, MasterPc.cost]
    · rename_i task rest hqueue
      cases h
      have := enter_cost queue task
      simp [System.measure, MasterPc.cost, hqueue]
      omega
  | waitTask f =>
    simp only [masterStep] at h
    cases h
    obtain ⟨hw, _, _, _, extra, hqu, _, hcost⟩ := Frame.step_spec eval queue f
    simp only [System.measure, hw, hqu, List.map_append, List.sum_append]
    rw [cost_resume]
    simp only [MasterPc.cost]
    omega
  | waitUntilIdle =>
    simp only [masterStep] at h
    split at h
    · cases h
    · cases h
      simp [System.measure, MasterPc.cost]
  | waitRead =>
    simp only [masterStep] at h
    cases h
    simp [System.measure, MasterPc.cost]

theorem workerStep_measure (eval : T → Bool) (i : Nat) (s s1 : System T)
    (hi : s.queue.m_thread_pool.m_interrupt = false)
    (h : workerStep eval i s = some s1) : s1.measure < s.measure := by
  unfold workerStep at h
  split at h
  · cases h
  · rename_i hget
    obtain ⟨l1, l2, hl, hset⟩ := set_split _ _ _ hget
    simp only [ThreadPool.workerWake, hi, Bool.false_eq_true, ↓reduceIte] at h
    split at h
    · simp at h
    · rename_i task rest hqueue
      simp only [Option.map_some', Option.some.injEq] at h
      subst h
      have := enter_cost s.queue task
      simp only [System.measure]
      rw [hset, hqueue, hl]
      simp
      omega
  · rename_i f hget
    obtain ⟨l1, l2, hl, hset⟩ := set_split _ _ _ hget
    obtain ⟨hw, _, _, _, extra, hqu, _, hcost⟩ := Frame.step_spec eval s.queue f
    cases h
    simp only [System.measure, CCheckQueue.setWorker]
    rw [hw, hset, hqu, hl]
    simp
    omega
  · rename_i hget
    obtain ⟨l1, l2, hl, hset⟩ := set_split _ _ _ hget
    cases h
    simp only [ThreadPool.workerNext, hi, Bool.false_eq_true, ↓reduceIte]
    split
    · rename_i hqueue
      simp only [System.measure]
      rw [hset, hl]
      simp
    · rename_i task rest hqueue
      have := enter_cost s.queue task
      simp only [System.measure]
      rw [hset, hqueue, hl]
      simp
      omega
  · cases h

theorem step_measure (eval : T → Bool) (tid : Nat) (s s1 : System T)
    (hi : s.queue.m_thread_pool.m_interrupt = false)
    (h : step eval tid s = some s1) : s1.measure < s.measure := by
  cases tid with
  | zero => exact masterStep_measure eval s s1 h
  | succ i => exact workerStep_measure eval i s s1 hi h

/-- Freedom from deadlock: when no thread can act, the master has made all its calls. -/
theorem stuck_finished (eval : T → Bool) (expected : List Bool) (s : System T)
    (hinv : Inv eval expected s) (hstuck : s.stuck eval) : s.finished = true := by
  obtain ⟨hi, hf, he, hq, hd, hr⟩ := hinv
  have hm : masterStep eval s = none := hstuck 0
  have hnobusy : ∀ w ∈ s.queue.m_thread_pool.m_workers, w.busy = false := by
    intro w hw
    obtain ⟨i, hget⟩ := List.mem_iff_get?.mp hw
    have hws : workerStep eval i s = none := hstuck (i + 1)
    unfold workerStep at hws
    rw [hget] at hws
    cases w <;> first | rfl | simp at hws
  obtain ⟨queue, pc, calls, returned⟩ := s
  dsimp only at hi hf he hq hd hnobusy
  cases pc with
  | idle =>
    cases calls with
    | nil => rfl
    | cons call rest =>
      cases call with
      | Add checks =>
        simp only [masterStep] at hm
        split at hm <;> cases hm
      | Wait => simp [masterStep] at hm
  | addSubmit checks => simp [masterStep] at hm
  | waitProcessTask =>
    simp only [masterStep] at hm
    split at hm <;> cases hm
  | waitTask f => simp [masterStep] at hm
  | waitUntilIdle =>
    exfalso
    have hwait : queue.m_thread_pool.m_workers.all WorkerThread.isWaiting = true := by
      rw [List.all_eq_true]
      intro w hw
      rcases he w hw with hb | hwt
      · rw [hnobusy w hw] at hb
        cases hb
      · exact hwt
    have hcount : queue.m_thread_pool.m_workers.countP WorkerThread.busy = 0 := by
      rw [List.countP_eq_zero]
      intro w hw
      simp [hnobusy w hw]
    have hempty := hd rfl hwait
    simp [masterStep, ThreadPool.stillWorking, hi, hempty, hf, hcount] at hm
  | waitRead => simp [masterStep] at hm

theorem schedule_cases (eval : T → Bool) (tid : Nat) (s : System T) :
    (schedule eval tid s = s ∧ s.stuck eval) ∨
      ∃ tid1, step eval tid1 s = some (schedule eval tid s) := by
  unfold schedule
  cases h1 : step eval tid s with
  | some s1 => exact Or.inr ⟨tid, h1⟩
  | none =>
    dsimp only
    cases h2 : firstEnabled eval s (s.queue.m_thread_pool.WorkersCount + 1) with
    | some s1 =>
      obtain ⟨tid1, _, h3⟩ := List.exists_of_findSome?_eq_some h2
      exact Or.inr ⟨tid1, h3⟩
    | none =>
      refine Or.inl ⟨rfl, fun tid1 => ?_⟩
      simp only [firstEnabled, List.findSome?_eq_none_iff, List.mem_range] at h2
      by_cases hlt : tid1 < s.queue.m_thread_pool.WorkersCount + 1
      · exact h2 tid1 hlt
      · cases tid1 with
        | zero => omega
        | succ i =>
          have hge : s.queue.m_thread_pool.m_workers.length ≤ i := by
            simp only [ThreadPool.WorkersCount] at hlt
            omega
          have hnone : s.queue.m_thread_pool.m_workers.get? i = none :=
            List.get?_eq_none.mpr hge
          simp only [step, workerStep, hnone]

theorem schedule_inv (eval : T → Bool) (expected : List Bool) (tid : Nat) (s : System T)
    (hinv : Inv eval expected s) : Inv eval expected (schedule eval tid s) := by
  rcases schedule_cases eval tid s with ⟨h, _⟩ | ⟨tid1, h⟩
  · rw [h]
    exact hinv
  · exact step_inv eval expected tid1 s _ hinv h

theorem run_inv (eval : T → Bool) (expected : List Bool) (sched : List Nat) (s : System T)
    (hinv : Inv eval expected s) : Inv eval expected (run eval sched s) := by
  induction sched generalizing s with
  | nil => exact hinv
  | cons tid sched ih => exact ih _ (schedule_inv eval expected tid s hinv)

theorem run_stuck (eval : T → Bool) (expected : List Bool) (sched : List Nat) (s : System T)
    (hinv : Inv eval expected s) (hlen : s.measure ≤ sched.length) :
    (run eval sched s).stuck eval := by
  induction sched generalizing s with
  | nil =>
    intro tid
    cases h : step eval tid s with
    | none => simpa [run] using h
    | some s1 =>
      have := step_measure eval tid s s1 hinv.not_interrupted h
      simp at hlen
      omega
  | cons tid sched ih =>
    rcases schedule_cases eval tid s with ⟨h, hst⟩ | ⟨tid1, h⟩
    · have hfix : ∀ sched1 : List Nat, run eval sched1 s = s := by
        intro sched1
        induction sched1 with
        | nil => rfl
        | cons t r ihr =>
          rcases schedule_cases eval t s with ⟨h1, _⟩ | ⟨t1, h1⟩
          · simp only [run, h1, ihr]
          · rw [hst t1] at h1
            cases h1
      rw [hfix]
      exact hst
    · have := step_measure eval tid1 s _ hinv.not_interrupted h
      simp only [List.length_cons] at hlen
      exact ih _ (schedule_inv eval expected tid s hinv) (by omega)

theorem init_inv (eval : T → Bool) (workers batch_size : Nat) (calls : List (Call T)) :
    Inv eval (predict eval true calls) (System.init workers batch_size calls) := by
  refine ⟨rfl, ?_, ?_, ?_, ?_, ?_⟩
  · simp [System.init, CCheckQueue.new, startedPool, List.countP_replicate]
  · intro w hw
    simp only [System.init, CCheckQueue.new, startedPool, List.mem_replicate] at hw
    simp [hw.2]
  · intro h
    cases h
  · intro h
    cases h
  · simp [System.init, System.pending, CCheckQueue.verdict, CCheckQueue.new, startedPool]

/-- Whatever the schedule, after `fuel calls` scheduler decisions the master has made
all its calls, and the calls of `Wait` have returned the values `predict` gives; and
whenever the master has made all its calls, they have returned these values. -/
theorem run_returned (eval : T → Bool) (workers batch_size : Nat) (calls : List (Call T))
    (sched : List Nat) :
    ((run eval sched (System.init workers batch_size calls)).finished = true →
      (run eval sched (System.init workers batch_size calls)).returned =
        predict eval true calls) ∧
    (fuel calls ≤ sched.length →
      (run eval sched (System.init workers batch_size calls)).finished = true) := by
  have hinv := run_inv eval _ sched _ (init_inv eval workers batch_size calls)
  constructor
  · intro hfin
    have hr := hinv.returns
    revert hfin hr
    generalize run eval sched (System.init workers batch_size calls) = s
    obtain ⟨queue, pc, calls1, returned⟩ := s
    intro hfin hr
    cases pc <;> cases calls1 <;> simp [System.finished] at hfin
    simpa [System.pending, predict] using hr
  · intro hlen
    refine stuck_finished eval _ _ hinv (run_stuck eval _ sched _ (init_inv eval workers batch_size calls) ?_)
    simpa [System.measure, System.init, MasterPc.cost, CCheckQueue.new, startedPool,
      workerCost] using hlen

theorem run_returned_segment (eval : T → Bool) (workers batch_size : Nat)
    (calls : List (Call T)) (sched : List Nat) :
    ∃ rest, (run eval sched (System.init workers batch_size calls)).returned ++ rest =
      predict eval true calls :=
  ⟨_, (run_inv eval _ sched _ (init_inv eval workers batch_size calls)).returns⟩

theorem predict_adds (eval : T → Bool) (acc : Bool) (adds : List (List T))
    (rest : List (Call T)) :
    predict eval acc (adds.map Call.Add ++ rest) =
      predict eval (acc && adds.flatten.all eval) rest := by
  induction adds generalizing acc with
  | nil => simp
  | cons a adds ih => simp [predict, ih, Bool.and_assoc]

/-- C1: for every number of workers, every batch size and every sequence of calls of
`Add` on a fresh queue followed by one call of `Wait`, under every schedule: `Wait`
never returns anything but the conjunction of the results of all the checks that were
added, and after `fuel` scheduler decisions it has returned that conjunction. -/
theorem wait_returns_conjunction (eval : T → Bool) (workers batch_size : Nat)
    (adds : List (List T)) (sched : List Nat) :
    ((run eval sched (System.init workers batch_size
        (adds.map Call.Add ++ [Call.Wait]))).returned = [] ∨
      (run eval sched (System.init workers batch_size
        (adds.map Call.Add ++ [Call.Wait]))).returned = [adds.flatten.all eval]) ∧
    (fuel (adds.map Call.Add ++ [Call.Wait]) ≤ sched.length →
      (run eval sched (System.init workers batch_size
        (adds.map Call.Add ++ [Call.Wait]))).returned = [adds.flatten.all eval]) := by
  have hp : predict eval true (adds.map Call.Add ++ [Call.Wait]) =
      [adds.flatten.all eval] := by
    simp [predict_adds, predict]
  constructor
  · obtain ⟨rest, h⟩ := run_returned_segment eval workers batch_size
      (adds.map Call.Add ++ [Call.Wait]) sched
    rw [hp] at h
    cases hr : (run eval sched (System.init workers batch_size
        (adds.map Call.Add ++ [Call.Wait]))).returned with
    | nil => exact Or.inl rfl
    | cons r rs =>
      rw [hr] at h
      cases rs with
      | nil =>
        simp only [List.cons_append, List.nil_append, List.cons.injEq] at h
        exact Or.inr (by rw [h.1])
      | cons r2 rs2 => simp at h
  · intro hlen
    have h := run_returned eval workers batch_size (adds.map Call.Add ++ [Call.Wait]) sched
    rw [h.1 (h.2 hlen), hp]

/-- With no worker, `Add([true, false, true])` followed by `Wait` returns `false`. -/
theorem wait_returns_conjunction_witness :
    fuel [Call.Add [true, false, true], Call.Wait] ≤ (List.replicate 24 0).length ∧
      (run id (List.replicate 24 0)
        (System.init 0 1 [Call.Add [true, false, true], Call.Wait])).returned = [false] :=
  ⟨by decide,
    (wait_returns_conjunction id 0 1 [[true, false, true]] (List.replicate 24 0)).2
      (by decide)⟩

/-- C2: two sessions in a row on one queue, `Add(A); Wait(); Add(B); Wait()`, under
every schedule: the values returned are always an initial segment of
`[all of A pass, all of B pass]`, and after `fuel` scheduler decisions both have been
returned; so the second `Wait` returns the conjunction of the checks of `B` alone,
whatever the checks of `A` returned. -/
theorem sessions_independent (eval : T → Bool) (workers batch_size : Nat) (A B : List T)
    (sched : List Nat) :
    (∃ rest, (run eval sched (System.init workers batch_size
        [Call.Add A, Call.Wait, Call.Add B, Call.Wait])).returned ++ rest =
          [A.all eval, B.all eval]) ∧
    (fuel [Call.Add A, Call.Wait, Call.Add B, Call.Wait] ≤ sched.length →
      (run eval sched (System.init workers batch_size
        [Call.Add A, Call.Wait, Call.Add B, Call.Wait])).returned =
          [A.all eval, B.all eval]) := by
  have hp : predict eval true [Call.Add A, Call.Wait, Call.Add B, Call.Wait] =
      [A.all eval, B.all eval] := by
    simp [predict]
  constructor
  · rw [← hp]
    exact run_returned_segment eval workers batch_size _ sched
  · intro hlen
    have h := run_returned eval workers batch_size
      [Call.Add A, Call.Wait, Call.Add B, Call.Wait] sched
    rw [h.1 (h.2 hlen), hp]

/-- A failed first session and a passing second one, with two workers. -/
theorem sessions_independent_witness :
    fuel [Call.Add [true, false], Call.Wait, Call.Add [true, true], Call.Wait] ≤
        (List.replicate 20 1 ++ List.replicate 20 2 ++ List.replicate 20 0).length ∧
      (run id (List.replicate 20 1 ++ List.replicate 20 2 ++ List.replicate 20 0)
        (System.init 2 1
          [Call.Add [true, false], Call.Wait, Call.Add [true, true], Call.Wait])).returned =
        [false, true] :=
  ⟨by decide,
    (sessions_independent id 2 1 [true, false] [true, true]
      (List.replicate 20 1 ++ List.replicate 20 2 ++ List.replicate 20 0)).2 (by decide)⟩

/-- C4: `Add(checks)` changes nothing when `checks` is empty or `m_all_ok` is false
(the work queue, the in-flight count, `m_all_ok` and the evaluated checks are those of
before); otherwise it appends exactly one closure, the one that calls
`CheckBatch(checks)`, to the work queue and changes nothing else.  The master's steps
through a call of `Add` do the same: one step back to `idle` in the first case, two
steps that leave the queue as `Add` does in the second. -/
theorem add_noop_or_enqueue (eval : T → Bool) (q : CCheckQueue T) (checks : List T) :
    (checks = [] ∨ q.m_all_ok = false → q.Add checks = q) ∧
    (checks ≠ [] ∧ q.m_all_ok = true →
      q.Add checks = { q with m_thread_pool := { q.m_thread_pool with
        m_work_queue := q.m_thread_pool.m_work_queue ++ [Task.CheckBatch checks] } }) ∧
    (∀ s : System T, s.queue = q → s.pc = MasterPc.idle →
      ∀ rest, s.calls = Call.Add checks :: rest →
        (checks = [] ∨ q.m_all_ok = false →
          masterStep eval s = some { s with calls := rest }) ∧
        (checks ≠ [] ∧ q.m_all_ok = true →
          (masterStep eval s).bind (masterStep eval) =
            some { s with calls := rest, queue := q.Add checks })) := by
  have hskip : checks = [] ∨ q.m_all_ok = false → Add.skips q checks = true := by
    rintro (h | h) <;> simp [Add.skips, h]
  have hnoskip : checks ≠ [] ∧ q.m_all_ok = true → Add.skips q checks = false := by
    rintro ⟨h1, h2⟩
    cases checks with
    | nil => exact absurd rfl h1
    | cons c r => simp [Add.skips, h2]
  refine ⟨fun h => by simp [CCheckQueue.Add, hskip h], fun h => ?_, ?_⟩
  · simp [CCheckQueue.Add, hnoskip h, CCheckQueue.Submit, ThreadPool.Submit]
  · rintro ⟨queue, pc, calls, returned⟩ hq hpc rest hcalls
    dsimp only at hq hpc hcalls
    subst hq hpc hcalls
    constructor
    · intro h
      simp [masterStep, hskip h]
    · intro h
      simp [masterStep, hnoskip h, CCheckQueue.Add]

/-- `Add` on a queue whose flag is down, and `Add` of no checks, change nothing; `Add`
of two checks on a fresh queue enqueues one closure. -/
theorem add_noop_or_enqueue_witness :
    ({ (CCheckQueue.new 1 (startedPool 1) : CCheckQueue Bool) with m_all_ok := false }).Add
        [true] =
      { (CCheckQueue.new 1 (startedPool 1) : CCheckQueue Bool) with m_all_ok := false } ∧
    (CCheckQueue.new 1 (startedPool 1) : CCheckQueue Bool).Add [] =
      CCheckQueue.new 1 (startedPool 1) ∧
    ((CCheckQueue.new 1 (startedPool 1) : CCheckQueue Bool).Add
        [true, false]).m_thread_pool.m_work_queue = [Task.CheckBatch [true, false]] :=
  ⟨(add_noop_or_enqueue id _ [true]).1 (Or.inr rfl),
    (add_noop_or_enqueue id _ []).1 (Or.inl rfl),
    by rw [(add_noop_or_enqueue id _ [true, false]).2.1 ⟨by decide, rfl⟩]; rfl⟩

/-- C6 (the code at the failing input): with `nBatchSize = 1`, no worker and two checks
the local `batch_size` of `CheckBatch` is `1 = max(1, min(1, 2 / 1))`, yet the one
sub-batch it submits holds both checks. -/
theorem first_sub_batch_exceeds_batch_size :
    CheckBatch.batch_size (CCheckQueue.new 1 (startedPool 0) : CCheckQueue Bool).nBatchSize
        [true, true].length
        (CCheckQueue.new 1 (startedPool 0) : CCheckQueue Bool).m_thread_pool.WorkersCount = 1 ∧
      (CCheckQueue.new 1 (startedPool 0) : CCheckQueue Bool).subBatches [true, true] =
        [[true, true]] ∧
      ((CCheckQueue.new 1 (startedPool 0) : CCheckQueue Bool).CheckBatch
        [true, true]).m_thread_pool.m_work_queue = [Task.Check [true, true]] := by
  decide

theorem CheckBatch_fold (q : CCheckQueue T) (batches : List (List T)) :
    batches.foldl (fun q1 batch => q1.Submit (Task.Check batch)) q =
      { q with m_thread_pool := { q.m_thread_pool with
        m_work_queue := q.m_thread_pool.m_work_queue ++ batches.map Task.Check } } := by
  induction batches generalizing q with
  | nil => simp
  | cons b bs ih =>
    rw [List.foldl_cons, ih]
    simp [CCheckQueue.Submit, ThreadPool.Submit]

/-- C7: `CheckBatch(checks)` appends to the work queue one closure `Check(batch)` for
each of its sub-batches, in order, and changes nothing else; the sub-batches
concatenated in the order of submission are `checks`: no check is dropped, duplicated,
reordered or put into two sub-batches.  A thread that executes the closure of `Add`
submits these same sub-batches one by one. -/
theorem check_batch_partitions (q : CCheckQueue T) (checks : List T) :
    q.CheckBatch checks = { q with m_thread_pool := { q.m_thread_pool with
        m_work_queue := q.m_thread_pool.m_work_queue ++
          (q.subBatches checks).map Task.Check } } ∧
      (q.subBatches checks).flatten = checks ∧
      (Task.CheckBatch checks).enter q = Frame.submitting (q.subBatches checks) := by
  refine ⟨CheckBatch_fold q _, ?_, rfl⟩
  cases checks with
  | nil => simp [CCheckQueue.subBatches, CheckBatch.loop]
  | cons c rest =>
    simpa using CheckBatch.loop_join
      (CheckBatch.batch_size q.nBatchSize (c :: rest).length q.m_thread_pool.WorkersCount)
      0 [] (c :: rest) (by simp)

/-- C8: `Check(checks)` started with `m_all_ok` false changes nothing and evaluates no
check.  Started with `m_all_ok` true it evaluates, in order, the checks before the first
one that returns false and that one, and no other; afterwards `m_all_ok` is false if and
only if some check of `checks` returns false, and when none does the queue is as before
but for the record of the evaluated checks. -/
theorem check_fail_fast (eval : T → Bool) (q : CCheckQueue T) (checks : List T) :
    (q.m_all_ok = false → q.Check eval checks = q) ∧
    (q.m_all_ok = true →
      (q.Check eval checks).evaluated =
        q.evaluated ++ (checks.takeWhile eval ++ (checks.dropWhile eval).take 1) ∧
      ((q.Check eval checks).m_all_ok = false ↔ ∃ c ∈ checks, eval c = false) ∧
      (checks.all eval = true →
        q.Check eval checks = { q with evaluated := q.evaluated ++ checks })) := by
  constructor
  · intro h
    simp [CCheckQueue.Check, Check.entry, h]
  · intro h
    have h1 : (Check.loop eval true checks).1 = checks.all eval := by
      simp [Check.loop_fst]
    have h2 := Check.loop_snd eval checks
    cases hall : checks.all eval with
    | true =>
      have htw : checks.takeWhile eval = checks := by
        rw [List.takeWhile_eq_self_iff]
        simpa using hall
      have hdw : checks.dropWhile eval = [] := by
        rw [List.dropWhile_eq_nil_iff]
        simpa using hall
      refine ⟨?_, ?_, ?_⟩
      · simp [CCheckQueue.Check, Check.entry, h, h1, h2, hall, Check.exit]
      · simp only [CCheckQueue.Check, Check.entry, h, h1, hall, Check.exit]
        simp only [List.all_eq_true] at hall
        simp
        intro c hc
        exact hall c hc
      · intro _
        simp [CCheckQueue.Check, Check.entry, h, h1, h2, hall, Check.exit, htw, hdw]
    | false =>
      refine ⟨?_, ?_, ?_⟩
      · simp [CCheckQueue.Check, Check.entry, h, h1, h2, hall, Check.exit]
      · simp only [CCheckQueue.Check, Check.entry, h, h1, hall, Check.exit]
        simp only [List.all_eq_false] at hall
        simpa using hall
      · intro h0
        cases h0

/-- A sub-batch whose second check fails: the third check is not evaluated and the
flag goes down; and a sub-batch started with the flag down evaluates nothing. -/
theorem check_fail_fast_witness :
    ((CCheckQueue.new 1 (startedPool 0) : CCheckQueue Bool).Check id
        [true, false, true]).evaluated = [true, false] ∧
      ((CCheckQueue.new 1 (startedPool 0) : CCheckQueue Bool).Check id
        [true, false, true]).m_all_ok = false ∧
      ({ (CCheckQueue.new 1 (startedPool 0) : CCheckQueue Bool) with m_all_ok := false }).Check
        id [true] =
        { (CCheckQueue.new 1 (startedPool 0) : CCheckQueue Bool) with m_all_ok := false } :=
  ⟨((check_fail_fast id (CCheckQueue.new 1 (startedPool 0)) [true, false, true]).2 rfl).1,
    ((check_fail_fast id (CCheckQueue.new 1 (startedPool 0)) [true, false, true]).2
      rfl).2.1.mpr ⟨false, by decide, rfl⟩,
    (check_fail_fast id _ [true]).1 rfl⟩

theorem Frame.step_keeps_flag_down (eval : T → Bool) (q : CCheckQueue T) (f : Frame T)
    (h : q.m_all_ok = false) : (f.step eval q).2.m_all_ok = false := by
  cases f with
  | submitting batches => cases batches <;> simp [Frame.step, CCheckQueue.Submit, h]
  | checkEntry checks => simp [Frame.step, Check.entry, h]
  | checkExit ok => cases ok <;> simp [Frame.step, Check.exit, h]

theorem Check.loop_snd_mem (eval : T → Bool) (checks : List T) (c : T)
    (h : c ∈ (Check.loop eval true checks).2) : c ∈ checks := by
  rw [Check.loop_snd] at h
  rcases List.mem_append.mp h with h | h
  · exact (List.takeWhile_sublist eval).subset h
  · exact (List.dropWhile_sublist eval).subset ((List.take_sublist 1 _).subset h)

theorem Frame.step_evaluated (eval : T → Bool) (q : CCheckQueue T) (f : Frame T)
    (ev : List T) (h : (f.step eval q).2.evaluated = q.evaluated ++ ev)
    (hev : ∃ c ∈ ev, eval c = false) : Frame.allOpt eval (f.step eval q).1 = false := by
  obtain ⟨c, hc, hfalse⟩ := hev
  have hnil : ev ≠ [] := List.ne_nil_of_mem hc
  cases f with
  | submitting batches =>
    cases batches <;> simp [Frame.step, CCheckQueue.Submit] at h <;> exact absurd h hnil
  | checkEntry checks =>
    cases hq : q.m_all_ok with
    | false =>
      simp [Frame.step, Check.entry, hq] at h
      exact absurd h hnil
    | true =>
      simp only [Frame.step, Check.entry, hq, Bool.not_true, Bool.false_eq_true, ↓reduceIte,
        List.append_cancel_left_eq] at h
      subst h
      have hmem := Check.loop_snd_mem eval checks c hc
      simp only [Frame.step, Check.entry, hq, Bool.not_true, Bool.false_eq_true, ↓reduceIte,
        Option.map_some', Frame.allOpt, Frame.all, Check.loop_fst, Bool.true_and,
        List.all_eq_false]
      exact ⟨c, hmem, by simp [hfalse]⟩
  | checkExit ok =>
    cases ok <;> simp [Frame.step, Check.exit] at h <;> exact absurd h hnil

theorem predict_false_head (eval : T → Bool) (calls : List (Call T)) (r : Bool)
    (h : (predict eval false calls).head? = some r) : r = false := by
  induction calls with
  | nil => simp [predict] at h
  | cons call rest ih =>
    cases call with
    | Add checks => exact ih (by simpa [predict] using h)
    | Wait =>
      simp [predict] at h
      exact h

theorem pending_head_false (eval : T → Bool) (s : System T)
    (hv : s.queue.verdict eval = false) (r : Bool)
    (h : (s.pending eval).head? = some r) : r = false := by
  obtain ⟨queue, pc, calls, returned⟩ := s
  dsimp only at hv
  cases pc <;> simp only [System.pending, hv, Bool.false_and] at h
  · exact predict_false_head eval calls r h
  · exact predict_false_head eval calls r h
  all_goals
    simp at h
    exact h

/-- A step in which a check is evaluated to false leaves a system whose next `Wait` is
going to return false. -/
theorem step_evaluated_false (eval : T → Bool) (tid : Nat) (s s1 : System T)
    (h : step eval tid s = some s1) (ev : List T)
    (hev : s1.queue.evaluated = s.queue.evaluated ++ ev)
    (hfalse : ∃ c ∈ ev, eval c = false) (r : Bool)
    (hr : (s1.pending eval).head? = some r) : r = false := by
  have hnil : ev ≠ [] := by
    obtain ⟨c, hc, _⟩ := hfalse
    exact List.ne_nil_of_mem hc
  cases tid with
  | zero =>
    obtain ⟨queue, pc, calls, returned⟩ := s
    simp only [step] at h
    cases pc with
    | idle =>
      cases calls with
      | nil => simp [masterStep] at h
      | cons call rest =>
        cases call with
        | Add checks =>
          simp only [masterStep] at h
          split at h <;> cases h <;> simp at hev <;> exact absurd hev hnil
        | Wait =>
          simp only [masterStep] at h
          cases h
          simp at hev
          exact absurd hev hnil
    | addSubmit checks =>
      simp only [masterStep] at h
      cases h
      simp [CCheckQueue.Submit] at hev
      exact absurd hev hnil
    | waitProcessTask =>
      simp only [masterStep] at h
      split at h <;> cases h <;> simp at hev <;> exact absurd hev hnil
    | waitTask f =>
      simp only [masterStep] at h
      cases h
      have hf := Frame.step_evaluated eval queue f ev hev hfalse
      cases hstep : (Frame.step eval queue f).1 with
      | none => simp [hstep, Frame.allOpt] at hf
      | some g =>
        simp [hstep, Frame.allOpt] at hf
        simp [System.pending, hstep, MasterPc.resume, hf] at hr
        exact hr
    | waitUntilIdle =>
      simp only [masterStep] at h
      split at h
      · cases h
      · cases h
        simp at hev
        exact absurd hev hnil
    | waitRead =>
      simp only [masterStep] at h
      cases h
      simp at hev
      exact absurd hev hnil
  | succ i =>
    simp only [step] at h
    unfold workerStep at h
    split at h
    · cases h
    · simp only [ThreadPool.workerWake] at h
      split at h
      · simp only [Option.map_some', Option.some.injEq] at h
        subst h
        simp at hev
        exact absurd hev hnil
      · split at h
        · simp at h
        · simp only [Option.map_some', Option.some.injEq] at h
          subst h
          simp at hev
          exact absurd hev hnil
    · rename_i f hget
      obtain ⟨l1, l2, hl, hset⟩ := set_split _ _ _ hget
      cases h
      have hf := Frame.step_evaluated eval s.queue f ev hev hfalse
      refine pending_head_false eval _ ?_ r hr
      simp only [CCheckQueue.verdict, CCheckQueue.setWorker]
      rw [(Frame.step_spec eval s.queue f).1, hset]
      simp [hf]
    · cases h
      simp at hev
      exact absurd hev hnil
    · cases h

/-- `m_all_ok` goes from false to true only in the last step of `Wait`. -/
theorem step_flag (eval : T → Bool) (tid : Nat) (s s1 : System T)
    (h : step eval tid s = some s1) (h0 : s.queue.m_all_ok = false)
    (h1 : s1.queue.m_all_ok = true) : tid = 0 ∧ s.pc = MasterPc.waitRead := by
  cases tid with
  | zero =>
    refine ⟨rfl, ?_⟩
    obtain ⟨queue, pc, calls, returned⟩ := s
    dsimp only at h0
    simp only [step] at h
    cases pc with
    | idle =>
      cases calls with
      | nil => simp [masterStep] at h
      | cons call rest =>
        cases call with
        | Add checks =>
          simp only [masterStep] at h
          split at h <;> cases h <;> simp [h0] at h1
        | Wait =>
          simp only [masterStep] at h
          cases h
          simp [h0] at h1
    | addSubmit checks =>
      simp only [masterStep] at h
      cases h
      simp [CCheckQueue.Submit, h0] at h1
    | waitProcessTask =>
      simp only [masterStep] at h
      split at h <;> cases h <;> simp [h0] at h1
    | waitTask f =>
      simp only [masterStep] at h
      cases h
      simp [Frame.step_keeps_flag_down eval queue f h0] at h1
    | waitUntilIdle =>
      simp only [masterStep] at h
      split at h
      · cases h
      · cases h
        simp [h0] at h1
    | waitRead => rfl
  | succ i =>
    exfalso
    simp only [step] at h
    unfold workerStep at h
    split at h
    · cases h
    · simp only [ThreadPool.workerWake] at h
      split at h
      · simp only [Option.map_some', Option.some.injEq] at h
        subst h
        simp [h0] at h1
      · split at h
        · simp at h
        · simp only [Option.map_some', Option.some.injEq] at h
          subst h
          simp [h0] at h1
    · rename_i f hget
      cases h
      simp [CCheckQueue.setWorker, Frame.step_keeps_flag_down eval s.queue f h0] at h1
    · cases h
      simp [h0] at h1
    · cases h

/-- C3 as the code has it: `m_all_ok` goes from false to true in no step but the last
one of `Wait`; an `Add` that finds `m_all_ok` false changes nothing; and once a step has
evaluated a check to false, the next `Wait` of the master returns false, under every
schedule.  (Between the evaluation and the store of `false` into `m_all_ok` an `Add`
still enqueues its checks.) -/
theorem flag_monotone_within_session (eval : T → Bool) (workers batch_size : Nat)
    (calls : List (Call T)) (sched1 : List Nat) :
    (∀ tid s s1, step eval tid s = some s1 → s.queue.m_all_ok = false →
      s1.queue.m_all_ok = true → tid = 0 ∧ s.pc = MasterPc.waitRead) ∧
    (∀ (s : System T) checks rest, s.queue.m_all_ok = false → s.pc = MasterPc.idle →
      s.calls = Call.Add checks :: rest →
        masterStep eval s = some { s with calls := rest }) ∧
    (∀ tid s1 ev sched2,
      step eval tid (run eval sched1 (System.init workers batch_size calls)) = some s1 →
      s1.queue.evaluated =
        (run eval sched1 (System.init workers batch_size calls)).queue.evaluated ++ ev →
      (∃ c ∈ ev, eval c = false) →
      (run eval sched2 s1).returned[s1.returned.length]? ≠ some true) := by
  refine ⟨fun tid s s1 => step_flag eval tid s s1, ?_, ?_⟩
  · rintro ⟨queue, pc, calls1, returned⟩ checks rest h0 hpc hcalls
    dsimp only at h0 hpc hcalls
    subst hpc hcalls
    simp [masterStep, Add.skips, h0]
  · intro tid s1 ev sched2 hstep hev hfalse hget
    have hinv := run_inv eval _ sched1 _ (init_inv eval workers batch_size calls)
    have hinv1 := step_inv eval _ tid _ s1 hinv hstep
    have hinv2 := run_inv eval _ sched2 s1 hinv1
    have hlt : s1.returned.length < (run eval sched2 s1).returned.length := by
      by_contra hge
      rw [List.getElem?_eq_none (by omega)] at hget
      cases hget
    have h2 : (predict eval true calls)[s1.returned.length]? = some true := by
      rw [← hinv2.returns, List.getElem?_append_left hlt]
      exact hget
    rw [← hinv1.returns, List.getElem?_append_right (le_refl _)] at h2
    have h3 := step_evaluated_false eval tid _ s1 hstep ev hev hfalse true
      (by simpa [List.head?_eq_getElem?] using h2)
    cases h3

/-- One worker, `Add([false]); Add([true]); Wait()`: the worker evaluates the first
check to false, and the `Wait` that follows returns false. -/
theorem flag_monotone_within_session_witness :
    step id 1 (run id [0, 0, 1, 1, 1]
        (System.init 1 1 [Call.Add [false], Call.Add [true], Call.Wait])) =
      some (run id [0, 0, 1, 1, 1, 1]
        (System.init 1 1 [Call.Add [false], Call.Add [true], Call.Wait])) ∧
    (run id (List.replicate 20 0) (run id [0, 0, 1, 1, 1, 1]
      (System.init 1 1 [Call.Add [false], Call.Add [true], Call.Wait]))).returned[0]? =
        some false ∧
    (run id (List.replicate 20 0) (run id [0, 0, 1, 1, 1, 1]
      (System.init 1 1 [Call.Add [false], Call.Add [true], Call.Wait]))).returned[
        (run id [0, 0, 1, 1, 1, 1]
          (System.init 1 1
            [Call.Add [false], Call.Add [true], Call.Wait])).returned.length]? ≠
        some true :=
  ⟨by decide, by decide,
    (flag_monotone_within_session id 1 1 [Call.Add [false], Call.Add [true], Call.Wait]
      [0, 0, 1, 1, 1]).2.2 1
      (run id [0, 0, 1, 1, 1, 1]
        (System.init 1 1 [Call.Add [false], Call.Add [true], Call.Wait]))
      [false] (List.replicate 20 0)
      (by decide) (by decide) ⟨false, by decide, rfl⟩⟩

/-- C3 as stated fails: with one worker and `Add([false]); Add([true]); Wait()`, after
the worker has evaluated the first check to false (and before it has stored `false` into
`m_all_ok`) the second `Add` is not a no-op: it enqueues its closure. -/
theorem add_after_failed_check_enqueues :
    (run id [0, 0, 1, 1, 1, 1]
      (System.init 1 1 [Call.Add [false], Call.Add [true], Call.Wait])).queue.evaluated =
        [false] ∧
    (run id [0, 0, 1, 1, 1, 1]
      (System.init 1 1 [Call.Add [false], Call.Add [true], Call.Wait])).calls =
        [Call.Add [true], Call.Wait] ∧
    (run id [0, 0, 1, 1, 1, 1]
      (System.init 1 1
        [Call.Add [false], Call.Add [true], Call.Wait])).queue.m_thread_pool.m_work_queue =
        [] ∧
    (run id [0, 0, 1, 1, 1, 1, 0, 0]
      (System.init 1 1
        [Call.Add [false], Call.Add [true], Call.Wait])).queue.m_thread_pool.m_work_queue =
        [Task.CheckBatch [true]] ∧
    (run id [0, 0, 1, 1, 1, 1, 0, 0]
      (System.init 1 1 [Call.Add [false], Call.Add [true], Call.Wait])).calls =
        [Call.Wait] := by
  decide

/-- C5: under every schedule, when the master is about to read `m_all_ok` in `Wait` the
work queue is empty, no task is in flight and every worker waits for work; its next step
returns the value `m_all_ok` has then, sets `m_all_ok` to true and leaves the queue empty
and the in-flight count `0`.  And after `fuel calls` scheduler decisions every call of
the master has returned, with any number of workers. -/
theorem wait_drains (eval : T → Bool) (workers batch_size : Nat) (calls : List (Call T))
    (sched : List Nat) :
    ((run eval sched (System.init workers batch_size calls)).pc = MasterPc.waitRead →
      (run eval sched (System.init workers batch_size calls)).queue.m_thread_pool.m_work_queue
        = [] ∧
      (run eval sched (System.init workers batch_size
        calls)).queue.m_thread_pool.m_in_flight_task_count = 0 ∧
      (run eval sched (System.init workers batch_size
        calls)).queue.m_thread_pool.m_workers.all WorkerThread.isWaiting = true ∧
      ∃ s1, masterStep eval (run eval sched (System.init workers batch_size calls)) =
          some s1 ∧
        s1.returned = (run eval sched (System.init workers batch_size calls)).returned ++
          [(run eval sched (System.init workers batch_size calls)).queue.m_all_ok] ∧
        s1.pc = MasterPc.idle ∧
        s1.queue.m_all_ok = true ∧
        s1.queue.m_thread_pool.m_work_queue = [] ∧
        s1.queue.m_thread_pool.m_in_flight_task_count = 0) ∧
    (fuel calls ≤ sched.length →
      (run eval sched (System.init workers batch_size calls)).finished = true) := by
  have hinv := run_inv eval _ sched _ (init_inv eval workers batch_size calls)
  refine ⟨?_, (run_returned eval workers batch_size calls sched).2⟩
  generalize run eval sched (System.init workers batch_size calls) = s at hinv
  intro hpc
  obtain ⟨h1, h2⟩ := hinv.quiet hpc
  have hcount : s.queue.m_thread_pool.m_workers.countP WorkerThread.busy = 0 := by
    rw [List.countP_eq_zero]
    intro w hw
    have := List.all_eq_true.mp h2 w hw
    cases w <;> simp_all [WorkerThread.isWaiting, WorkerThread.busy]
  have h3 : s.queue.m_thread_pool.m_in_flight_task_count = 0 := by
    rw [hinv.in_flight, hcount]
    rfl
  refine ⟨h1, h3, h2, ?_⟩
  obtain ⟨queue, pc, calls1, returned⟩ := s
  dsimp only at hpc h1 h3
  subst hpc
  exact ⟨_, rfl, rfl, rfl, rfl, h1, h3⟩

/-- Four workers, ten passing checks, batch size two, threads scheduled in turn: after
31 decisions the master is about to read `m_all_ok`, the queue is empty and nothing is
in flight; `Wait` returns `true`. -/
theorem wait_drains_witness :
    (run id [0, 1, 2, 3, 4, 0, 1, 2, 3, 4, 0, 1, 2, 3, 4, 0, 1, 2, 3, 4, 0, 1, 2, 3, 4,
        0, 1, 2, 3, 4, 0]
      (System.init 4 2 [Call.Add (List.replicate 10 true), Call.Wait])).pc =
        MasterPc.waitRead ∧
    (run id [0, 1, 2, 3, 4, 0, 1, 2, 3, 4, 0, 1, 2, 3, 4, 0, 1, 2, 3, 4, 0, 1, 2, 3, 4,
        0, 1, 2, 3, 4, 0]
      (System.init 4 2 [Call.Add (List.replicate 10 true),
        Call.Wait])).queue.m_thread_pool.m_in_flight_task_count = 0 ∧
    (run id [0, 1, 2, 3, 4, 0, 1, 2, 3, 4, 0, 1, 2, 3, 4, 0, 1, 2, 3, 4, 0, 1, 2, 3, 4,
        0, 1, 2, 3, 4, 0, 0]
      (System.init 4 2 [Call.Add (List.replicate 10 true), Call.Wait])).returned = [true] :=
  ⟨by decide,
    ((wait_drains id 4 2 [Call.Add (List.replicate 10 true), Call.Wait]
      [0, 1, 2, 3, 4, 0, 1, 2, 3, 4, 0, 1, 2, 3, 4, 0, 1, 2, 3, 4, 0, 1, 2, 3, 4,
        0, 1, 2, 3, 4, 0]).1 (by decide)).2.1,
    by decide⟩

end CheckQueue

/-! ## Properties of the input fetcher -/

namespace Fetcher

theorem enter_add_nil (f : InputFetcher) :
    (Task.Add []).enter f = Frame.submitting [] ∨ (Task.Add []).enter f = Frame.undefined := by
  simp only [Task.enter]
  cases Add.batch_size f.m_batch_size ([] : List COutPoint).length f.m_thread_pool.WorkersCount with
  | none => exact Or.inr rfl
  | some b => exact Or.inl rfl

theorem masterStep_noFetch (cache0 : CCoinsViewCache) (s s1 : System)
    (hinv : NoFetch cache0 s) (h : masterStep s = some s1) : NoFetch cache0 s1 := by
  obtain ⟨hp, hl, hc, hq, hw⟩ := hinv
  obtain ⟨fetcher, cache, pc⟩ := s
  dsimp only at hp hl hc hq hw
  cases pc with
  | adding calls =>
    cases calls with
    | nil =>
      simp only [masterStep] at h
      cases h
      exact ⟨hp, hl, hc, hq, hw⟩
    | cons outpoints rest =>
      simp only [masterStep] at h
      cases h
      cases outpoints with
      | nil =>
        refine ⟨hp, hl, hc, ?_, hw⟩
        intro task htask
        simp only [InputFetcher.Add, List.isEmpty_nil, Bool.not_true, Bool.false_eq_true,
          ↓reduceIte, InputFetcher.Submit, ThreadPool.Submit, List.mem_append,
          List.mem_singleton] at htask
        rcases htask with htask | htask
        · exact hq task htask
        · exact htask
      | cons o os => exact ⟨hp, hl, hc, hq, hw⟩
  | lockPairs =>
    simp only [masterStep, hp, List.isEmpty_nil, ↓reduceIte] at h
    split at h
    · cases h
    · cases h
      exact ⟨rfl, hl, hc, hq, hw⟩
  | testIdle =>
    simp only [masterStep] at h
    split at h <;> cases h <;> exact ⟨hp, hl, hc, hq, hw⟩
  | waitForProgress =>
    simp only [masterStep] at h
    split at h <;> cases h <;> exact ⟨hp, hl, hc, hq, hw⟩
  | blocked =>
    simp only [masterStep] at h
    cases h
    exact ⟨hp, hl, hc, hq, hw⟩
  | returned => simp [masterStep] at h

theorem workerStep_noFetch (cache0 : CCoinsViewCache) (i : Nat) (s s1 : System)
    (hinv : NoFetch cache0 s) (h : workerStep i s = some s1) : NoFetch cache0 s1 := by
  obtain ⟨hp, hl, hc, hq, hw⟩ := hinv
  have hset : ∀ w1 : WorkerThread Frame,
      (∀ frame, w1 = WorkerThread.running frame →
        frame = Frame.submitting [] ∨ frame = Frame.undefined) →
      ∀ w ∈ s.fetcher.m_thread_pool.m_workers.set i w1, ∀ frame,
        w = WorkerThread.running frame →
          frame = Frame.submitting [] ∨ frame = Frame.undefined := by
    intro w1 hw1 w hmem
    rcases List.mem_or_eq_of_mem_set hmem with hmem | rfl
    · exact hw w hmem
    · exact hw1
  have hpop : ∀ task rest, s.fetcher.m_thread_pool.m_work_queue = task :: rest →
      (∀ t ∈ rest, t = Task.Add []) ∧
      ∀ frame, WorkerThread.running (Task.enter s.fetcher task) = WorkerThread.running frame →
        frame = Frame.submitting [] ∨ frame = Frame.undefined := by
    intro task rest hqueue
    rw [hqueue] at hq
    refine ⟨fun t ht => hq t (List.mem_cons_of_mem _ ht), ?_⟩
    intro frame hframe
    cases hframe
    rw [hq task (List.mem_cons_self _ _)]
    exact enter_add_nil s.fetcher
  unfold workerStep at h
  split at h
  · cases h
  · simp only [ThreadPool.workerWake] at h
    split at h
    · simp only [Option.map_some', Option.some.injEq] at h
      subst h
      exact ⟨hp, hl, hc, hq, hset _ (fun frame hf => by cases hf)⟩
    · split at h
      · simp at h
      · rename_i task rest hqueue
        simp only [Option.map_some', Option.some.injEq] at h
        subst h
        exact ⟨hp, hl, hc, (hpop task rest hqueue).1, hset _ (hpop task rest hqueue).2⟩
  · rename_i frame hget
    have hmem : WorkerThread.running frame ∈ s.fetcher.m_thread_pool.m_workers :=
      List.mem_iff_get?.mpr ⟨i, hget⟩
    rcases hw _ hmem frame rfl with rfl | rfl
    · simp only [Frame.step, Option.map_some', Option.some.injEq] at h
      subst h
      exact ⟨hp, hl, hc, hq, hset _ (fun frame hf => by cases hf)⟩
    · simp [Frame.step] at h
  · cases h
    simp only [ThreadPool.workerNext]
    split
    · exact ⟨hp, hl, hc, hq, hset _ (fun frame hf => by cases hf)⟩
    · split
      · exact ⟨hp, hl, hc, hq, hset _ (fun frame hf => by cases hf)⟩
      · rename_i task rest hqueue
        exact ⟨hp, hl, hc, (hpop task rest hqueue).1, hset _ (hpop task rest hqueue).2⟩
  · cases h

theorem fetch_step_noFetch (cache0 : CCoinsViewCache) (tid : Nat) (s s1 : System)
    (hinv : NoFetch cache0 s) (h : step tid s = some s1) : NoFetch cache0 s1 := by
  cases tid with
  | zero => exact masterStep_noFetch cache0 s s1 hinv h
  | succ i => exact workerStep_noFetch cache0 i s s1 hinv h

theorem schedule_noFetch (cache0 : CCoinsViewCache) (tid : Nat) (s : System)
    (hinv : NoFetch cache0 s) : NoFetch cache0 (schedule tid s) := by
  unfold schedule
  cases h1 : step tid s with
  | some s1 => exact fetch_step_noFetch cache0 tid s s1 hinv h1
  | none =>
    dsimp only
    cases h2 : (List.range (s.fetcher.m_thread_pool.WorkersCount + 1)).findSome?
        (fun tid1 => step tid1 s) with
    | some s1 =>
      obtain ⟨tid1, _, h3⟩ := List.exists_of_findSome?_eq_some h2
      exact fetch_step_noFetch cache0 tid1 s s1 hinv h3
    | none => exact hinv

theorem run_noFetch (cache0 : CCoinsViewCache) (sched : List Nat) (s : System)
    (hinv : NoFetch cache0 s) : NoFetch cache0 (run sched s) := by
  induction sched generalizing s with
  | nil => exact hinv
  | cons tid sched ih => exact ih _ (schedule_noFetch cache0 tid s hinv)

theorem init_noFetch (workers batch_size : Nat) (cache : CCoinsViewCache) (db : CCoinsViewDB)
    (block : CBlock) : NoFetch cache (System.init workers batch_size cache db block) := by
  refine ⟨rfl, rfl, rfl, ?_, ?_⟩
  · intro task htask
    simp [System.init, InputFetcher.new, startedPool] at htask
  · intro w hw frame hframe
    simp only [System.init, InputFetcher.new, startedPool, List.mem_replicate] at hw
    rw [hw.2] at hframe
    cases hframe

theorem inputs_spec (cache : CCoinsViewCache) (m_batch_size : Nat) (txids : List Nat)
    (vin buffer : List COutPoint) (calls : List (List COutPoint)) (o : COutPoint)
    (h : o ∈ (FetchInputs.inputs cache m_batch_size txids vin buffer calls).1 ++
      (FetchInputs.inputs cache m_batch_size txids vin buffer calls).2.flatten) :
    o ∈ buffer ++ calls.flatten ∨
      (o ∈ vin ∧ o.hash ∉ txids ∧ cache.HaveCoinInCache o = false) := by
  induction vin generalizing buffer calls with
  | nil => exact Or.inl h
  | cons outpoint rest ih =>
    unfold FetchInputs.inputs at h
    split at h
    · rcases ih _ _ h with h1 | ⟨h1, h2, h3⟩
      · exact Or.inl h1
      · exact Or.inr ⟨List.mem_cons_of_mem _ h1, h2, h3⟩
    · rename_i hid
      split at h
      · rcases ih _ _ h with h1 | ⟨h1, h2, h3⟩
        · exact Or.inl h1
        · exact Or.inr ⟨List.mem_cons_of_mem _ h1, h2, h3⟩
      · rename_i hcache
        have hnew : o ∈ (buffer ++ [outpoint]) ++ calls.flatten →
            o ∈ buffer ++ calls.flatten ∨
              (o ∈ outpoint :: rest ∧ o.hash ∉ txids ∧ cache.HaveCoinInCache o = false) := by
          intro hmem
          simp only [List.mem_append, List.mem_singleton] at hmem
          rcases hmem with (hmem | rfl) | hmem
          · exact Or.inl (List.mem_append.mpr (Or.inl hmem))
          · exact Or.inr ⟨List.mem_cons_self _ _, by simpa using hid, by simpa using hcache⟩
          · exact Or.inl (List.mem_append.mpr (Or.inr hmem))
        split at h
        · rcases ih _ _ h with h1 | ⟨h1, h2, h3⟩
          · apply hnew
            simp only [List.nil_append, List.flatten_append, List.flatten_cons,
              List.flatten_nil, List.append_nil, List.mem_append, List.mem_singleton] at h1 ⊢
            tauto
          · exact Or.inr ⟨List.mem_cons_of_mem _ h1, h2, h3⟩
        · rcases ih _ _ h with h1 | ⟨h1, h2, h3⟩
          · exact hnew h1
          · exact Or.inr ⟨List.mem_cons_of_mem _ h1, h2, h3⟩

theorem transactions_spec (cache : CCoinsViewCache) (m_batch_size : Nat) (block : CBlock)
    (rest before : List CTransaction) (txids : List Nat) (buffer : List COutPoint)
    (calls : List (List COutPoint)) (hvtx : block.vtx = before ++ rest)
    (hids : ∀ h, h ∈ txids → ∃ t ∈ before, t.IsCoinBase = false ∧ t.GetHash = h)
    (hids2 : ∀ t ∈ before, t.IsCoinBase = false → t.GetHash ∈ txids)
    (hold : ∀ o ∈ buffer ++ calls.flatten, Collectable cache block o) :
    ∀ o ∈ (FetchInputs.transactions cache m_batch_size rest txids buffer calls).flatten,
      Collectable cache block o := by
  induction rest generalizing before txids buffer calls with
  | nil =>
    intro o ho
    apply hold
    simp only [FetchInputs.transactions, List.flatten_append, List.flatten_cons,
      List.flatten_nil, List.append_nil, List.mem_append] at ho ⊢
    tauto
  | cons tx rest ih =>
    unfold FetchInputs.transactions
    split
    · rename_i hcb
      refine ih (before ++ [tx]) txids buffer calls (by simp [hvtx]) ?_ ?_ hold
      · intro h hh
        obtain ⟨t, ht, h1, h2⟩ := hids h hh
        exact ⟨t, List.mem_append.mpr (Or.inl ht), h1, h2⟩
      · intro t ht hncb
        rcases List.mem_append.mp ht with ht | ht
        · exact hids2 t ht hncb
        · simp only [List.mem_singleton] at ht
          subst ht
          rw [hcb] at hncb
          cases hncb
    · rename_i hcb
      refine ih (before ++ [tx]) (tx.GetHash :: txids) _ _ (by simp [hvtx]) ?_ ?_ ?_
      · intro h hh
        rcases List.mem_cons.mp hh with rfl | hh
        · exact ⟨tx, by simp, by simpa using hcb, rfl⟩
        · obtain ⟨t, ht, h1, h2⟩ := hids h hh
          exact ⟨t, List.mem_append.mpr (Or.inl ht), h1, h2⟩
      · intro t ht hncb
        rcases List.mem_append.mp ht with ht | ht
        · exact List.mem_cons_of_mem _ (hids2 t ht hncb)
        · simp only [List.mem_singleton] at ht
          subst ht
          exact List.mem_cons_self _ _
      · intro o ho
        rcases inputs_spec cache m_batch_size txids tx.vin buffer calls o ho with h1 | ⟨h1, h2, h3⟩
        · exact hold o h1
        · refine ⟨before, tx, rest, hvtx, by simpa using hcb, h1, ?_, h3⟩
          intro t ht hncb heq
          exact h2 (heq ▸ hids2 t ht hncb)

/-- C9 (the code at the failing input): the store holds X:1 = (7, 1) and not Y:2 =
(8, 2), the block has one transaction with the inputs X:1 and Y:2, the batch size is 128
and the pool has one worker.  `FetchInputs` passes the one batch `[X:1, Y:2]` to `Add`,
which returns at once because the batch is not empty; so under every schedule nothing is
looked up and X:1 is not in the cache, and `FetchInputs` returns after four steps of its
thread. -/
theorem fetch_inputs_drops_fetchable_outpoint (sched : List Nat) :
    CCoinsViewDB.GetCoin [(⟨7, 1⟩, 50)] ⟨7, 1⟩ = some 50 ∧
    FetchInputs.calls [] 128 ⟨[⟨101, false, [⟨7, 1⟩, ⟨8, 2⟩]⟩]⟩ = [[⟨7, 1⟩, ⟨8, 2⟩]] ∧
    (run sched (System.init 1 128 [] [(⟨7, 1⟩, 50)]
      ⟨[⟨101, false, [⟨7, 1⟩, ⟨8, 2⟩]⟩]⟩)).cache.HaveCoinInCache ⟨7, 1⟩ = false ∧
    (run sched (System.init 1 128 [] [(⟨7, 1⟩, 50)]
      ⟨[⟨101, false, [⟨7, 1⟩, ⟨8, 2⟩]⟩]⟩)).fetcher.lookups = [] ∧
    (run [0, 0, 0, 0] (System.init 1 128 [] [(⟨7, 1⟩, 50)]
      ⟨[⟨101, false, [⟨7, 1⟩, ⟨8, 2⟩]⟩]⟩)).pc = Pc.returned := by
  have hinv := run_noFetch [] sched _
    (init_noFetch 1 128 [] [(⟨7, 1⟩, 50)] ⟨[⟨101, false, [⟨7, 1⟩, ⟨8, 2⟩]⟩]⟩)
  refine ⟨by decide, by decide, ?_, hinv.lookups, by decide⟩
  rw [hinv.cache]
  rfl

theorem inputs_flatten (cache : CCoinsViewCache) (m_batch_size : Nat) (txids : List Nat)
    (vin buffer : List COutPoint) (calls : List (List COutPoint)) :
    (FetchInputs.inputs cache m_batch_size txids vin buffer calls).2.flatten ++
        (FetchInputs.inputs cache m_batch_size txids vin buffer calls).1 =
      calls.flatten ++ buffer ++
        vin.filter (fun o => !txids.contains o.hash && !cache.HaveCoinInCache o) := by
  induction vin generalizing buffer calls with
  | nil => simp [FetchInputs.inputs]
  | cons outpoint rest ih =>
    unfold FetchInputs.inputs
    split
    · rename_i hid
      rw [ih]
      simp only [List.filter_cons, hid, Bool.not_true, Bool.false_and, Bool.false_eq_true,
        if_false]
    · rename_i hid
      have hid0 : txids.contains outpoint.hash = false := Bool.eq_false_iff.mpr hid
      split
      · rename_i hcache
        rw [ih]
        simp only [List.filter_cons, hcache, Bool.not_true, Bool.and_false,
          Bool.false_eq_true, if_false]
      · rename_i hcache
        have hcache0 : cache.HaveCoinInCache outpoint = false := Bool.eq_false_iff.mpr hcache
        split
        · rw [ih]
          simp only [List.filter_cons, hid0, hcache0, Bool.not_false, Bool.and_self, if_true,
            List.flatten_append, List.flatten_cons, List.flatten_nil, List.append_nil,
            List.append_assoc, List.singleton_append, List.nil_append]
        · rw [ih]
          simp only [List.filter_cons, hid0, hcache0, Bool.not_false, Bool.and_self, if_true,
            List.append_assoc, List.singleton_append]

theorem transactions_flatten (cache : CCoinsViewCache) (m_batch_size : Nat)
    (rest before : List CTransaction) (txids : List Nat) (buffer : List COutPoint)
    (calls : List (List COutPoint))
    (hids : ∀ h, h ∈ txids ↔ ∃ t ∈ before, t.IsCoinBase = false ∧ t.GetHash = h) :
    (FetchInputs.transactions cache m_batch_size rest txids buffer calls).flatten =
      calls.flatten ++ buffer ++ FetchInputs.toFetch cache before rest := by
  induction rest generalizing before txids buffer calls with
  | nil => simp [FetchInputs.transactions, FetchInputs.toFetch]
  | cons tx rest ih =>
    unfold FetchInputs.transactions
    split
    · rename_i hcb
      have hnext : ∀ h, h ∈ txids ↔
          ∃ t ∈ before ++ [tx], t.IsCoinBase = false ∧ t.GetHash = h := by
        intro h
        rw [hids h]
        constructor
        · rintro ⟨t, ht, h1, h2⟩
          exact ⟨t, List.mem_append.mpr (Or.inl ht), h1, h2⟩
        · rintro ⟨t, ht, h1, h2⟩
          rcases List.mem_append.mp ht with ht | ht
          · exact ⟨t, ht, h1, h2⟩
          · rw [List.mem_singleton] at ht
            subst ht
            rw [hcb] at h1
            cases h1
      rw [ih (before ++ [tx]) txids buffer calls hnext]
      simp [FetchInputs.toFetch, FetchInputs.kept, hcb]
    · rename_i hcb
      have hcb0 : tx.IsCoinBase = false := Bool.eq_false_iff.mpr hcb
      have hnext : ∀ h, h ∈ tx.GetHash :: txids ↔
          ∃ t ∈ before ++ [tx], t.IsCoinBase = false ∧ t.GetHash = h := by
        intro h
        rw [List.mem_cons, hids h]
        constructor
        · rintro (rfl | ⟨t, ht, h1, h2⟩)
          · exact ⟨tx, by simp, hcb0, rfl⟩
          · exact ⟨t, List.mem_append.mpr (Or.inl ht), h1, h2⟩
        · rintro ⟨t, ht, h1, h2⟩
          rcases List.mem_append.mp ht with ht | ht
          · exact Or.inr ⟨t, ht, h1, h2⟩
          · rw [List.mem_singleton] at ht
            subst ht
            exact Or.inl h2.symm
      rw [ih (before ++ [tx]) (tx.GetHash :: txids) _ _ hnext, inputs_flatten]
      have hfilter : tx.vin.filter
          (fun o => !txids.contains o.hash && !cache.HaveCoinInCache o) =
          tx.vin.filter (FetchInputs.kept cache before tx) := by
        congr 1
        funext o
        have hc : txids.contains o.hash =
            before.any (fun t => !t.IsCoinBase && t.GetHash == o.hash) := by
          rw [Bool.eq_iff_iff]
          have hm : txids.contains o.hash = true ↔ o.hash ∈ txids := by simp
          rw [hm, hids o.hash]
          simp only [List.any_eq_true, Bool.and_eq_true, Bool.not_eq_true', beq_iff_eq]
        simp only [FetchInputs.kept, hcb0, Bool.not_false, Bool.true_and, hc]
      rw [hfilter]
      simp only [FetchInputs.toFetch, List.append_assoc]

theorem toFetch_append (cache : CCoinsViewCache) (start before : List CTransaction)
    (tx : CTransaction) (after : List CTransaction) :
    FetchInputs.toFetch cache start (before ++ tx :: after) =
      FetchInputs.toFetch cache start before ++
        tx.vin.filter (FetchInputs.kept cache (start ++ before) tx) ++
        FetchInputs.toFetch cache (start ++ before ++ [tx]) after := by
  induction before generalizing start with
  | nil => simp [FetchInputs.toFetch]
  | cons t before ih =>
    show FetchInputs.toFetch cache start (t :: (before ++ tx :: after)) = _
    rw [FetchInputs.toFetch, ih]
    simp [FetchInputs.toFetch]

/-- C10 as the code has it, input by input: the outpoints `FetchInputs` puts into its
batches, taken in order, are the inputs of the block in order, each one kept or skipped
where it stands.  The inputs of a transaction `tx` that has the transactions `before`
before it contribute exactly those that `FetchInputs.kept` keeps: none when `tx` is a
coinbase, and else the inputs that are neither produced by a transaction of `before`
other than a coinbase nor held by the cache.  So every outpoint in a batch has a place in
the block where it is such an input; and under every schedule no outpoint at all is
looked up in the store, since `Add` drops every batch that is not empty. -/
theorem fetch_inputs_skips (workers batch_size m_batch_size : Nat) (cache : CCoinsViewCache)
    (db : CCoinsViewDB) (block : CBlock) (sched : List Nat) :
    (FetchInputs.calls cache m_batch_size block).flatten =
      FetchInputs.toFetch cache [] block.vtx ∧
    (∀ before tx after, block.vtx = before ++ tx :: after →
      (FetchInputs.calls cache m_batch_size block).flatten =
        FetchInputs.toFetch cache [] before ++
          tx.vin.filter (FetchInputs.kept cache before tx) ++
          FetchInputs.toFetch cache (before ++ [tx]) after) ∧
    (∀ before tx o, FetchInputs.kept cache before tx o = true ↔
      (tx.IsCoinBase = false ∧
        (∀ t ∈ before, t.IsCoinBase = false → t.GetHash ≠ o.hash) ∧
        cache.HaveCoinInCache o = false)) ∧
    (∀ o ∈ (FetchInputs.calls cache m_batch_size block).flatten, Collectable cache block o) ∧
    (run sched (System.init workers batch_size cache db block)).fetcher.lookups = [] := by
  have hflat : (FetchInputs.calls cache m_batch_size block).flatten =
      FetchInputs.toFetch cache [] block.vtx := by
    simp only [FetchInputs.calls]
    rw [transactions_flatten cache m_batch_size block.vtx [] [] [] [] (by intro h; simp)]
    simp
  refine ⟨hflat, ?_, ?_, ?_,
    (run_noFetch cache sched _ (init_noFetch workers batch_size cache db block)).lookups⟩
  · intro before tx after hvtx
    rw [hflat, hvtx, toFetch_append]
    simp
  · intro before tx o
    simp only [FetchInputs.kept, Bool.and_eq_true, Bool.not_eq_true', List.any_eq_false,
      Bool.and_eq_false_imp, beq_iff_eq, ne_eq]
    constructor
    · rintro ⟨⟨h1, h2⟩, h3⟩
      exact ⟨h1, fun t ht hcb heq => h2 t ht ⟨hcb, heq⟩, h3⟩
    · rintro ⟨h1, h2, h3⟩
      exact ⟨⟨h1, fun t ht hboth => h2 t ht hboth.1 hboth.2⟩, h3⟩
  · exact transactions_spec cache m_batch_size block block.vtx [] [] [] [] rfl
      (fun h hh => by cases hh) (fun t ht => by cases ht) (fun o ho => by cases ho)

/-- The first transaction spends (2, 0), the second has the hash 2, the third spends
(2, 0) again: the input of the first is put into a batch and the one of the third is not.
And a block whose second transaction spends an output of the first and a cached outpoint
next to a fresh one: only the fresh one is put into a batch. -/
theorem fetch_inputs_skips_witness :
    (FetchInputs.calls [] 128
      ⟨[⟨1, false, [⟨2, 0⟩]⟩, ⟨2, false, []⟩, ⟨3, false, [⟨2, 0⟩]⟩]⟩).flatten =
      FetchInputs.toFetch [] [] [⟨1, false, [⟨2, 0⟩]⟩, ⟨2, false, []⟩] ++
        (⟨3, false, [⟨2, 0⟩]⟩ : CTransaction).vin.filter
          (FetchInputs.kept [] [⟨1, false, [⟨2, 0⟩]⟩, ⟨2, false, []⟩] ⟨3, false, [⟨2, 0⟩]⟩) ++
        FetchInputs.toFetch []
          ([⟨1, false, [⟨2, 0⟩]⟩, ⟨2, false, []⟩] ++ [⟨3, false, [⟨2, 0⟩]⟩]) [] ∧
    (⟨3, false, [⟨2, 0⟩]⟩ : CTransaction).vin.filter
      (FetchInputs.kept [] [⟨1, false, [⟨2, 0⟩]⟩, ⟨2, false, []⟩] ⟨3, false, [⟨2, 0⟩]⟩) = [] ∧
    (FetchInputs.calls [] 128
      ⟨[⟨1, false, [⟨2, 0⟩]⟩, ⟨2, false, []⟩, ⟨3, false, [⟨2, 0⟩]⟩]⟩).flatten = [⟨2, 0⟩] ∧
    Collectable [(⟨6, 6⟩, ⟨9, false⟩)]
      ⟨[⟨100, true, [⟨0, 0⟩]⟩, ⟨101, false, [⟨6, 6⟩]⟩, ⟨102, false, [⟨101, 0⟩, ⟨5, 5⟩]⟩]⟩
      ⟨5, 5⟩ :=
  ⟨(fetch_inputs_skips 1 128 128 [] []
      ⟨[⟨1, false, [⟨2, 0⟩]⟩, ⟨2, false, []⟩, ⟨3, false, [⟨2, 0⟩]⟩]⟩ []).2.1
      [⟨1, false, [⟨2, 0⟩]⟩, ⟨2, false, []⟩] ⟨3, false, [⟨2, 0⟩]⟩ [] rfl,
    by decide, by decide,
    (fetch_inputs_skips 1 128 128 [(⟨6, 6⟩, ⟨9, false⟩)] []
      ⟨[⟨100, true, [⟨0, 0⟩]⟩, ⟨101, false, [⟨6, 6⟩]⟩, ⟨102, false, [⟨101, 0⟩, ⟨5, 5⟩]⟩]⟩
      []).2.2.2.1 ⟨5, 5⟩ (by decide)⟩

/-- C10 as stated fails: the block's first transaction is its coinbase, with hash 100,
and its second transaction spends the output (100, 0); `FetchInputs` puts (100, 0) into
a batch although the transaction that produces it is earlier in the same block. -/
theorem fetch_inputs_collects_coinbase_output :
    FetchInputs.calls [] 128
        ⟨[⟨100, true, [⟨0, 0⟩]⟩, ⟨101, false, [⟨100, 0⟩]⟩]⟩ = [[⟨100, 0⟩]] ∧
      (⟨[⟨100, true, [⟨0, 0⟩]⟩, ⟨101, false, [⟨100, 0⟩]⟩]⟩ : CBlock).vtx.map
        CTransaction.GetHash = [100, 101] := by
  decide

end Fetcher

/-! ## Properties of the thread pool -/

namespace ThreadPool

variable {τ φ : Type}

/-- C14 as the code has it: `Start` throws exactly when the roster `m_workers` is not
empty, and then leaves the pool as it is; on an empty roster `Start(n)` with `n >= 0`
succeeds and leaves `WorkersCount() == n` and the rest of the pool unchanged; so
`Start(m)` after `Start(n)` throws for every `n >= 1` and every `m`. -/
theorem start_fails_on_roster (p : ThreadPool τ φ) (n m : Int) :
    (p.m_workers ≠ [] → p.Start m = Except.error "Thread pool already started") ∧
    (p.m_workers = [] → 0 ≤ n →
      ∃ p1, p.Start n = Except.ok p1 ∧ (p1.WorkersCount : Int) = n ∧
        p1.m_work_queue = p.m_work_queue ∧ p1.m_interrupt = p.m_interrupt ∧
        p1.m_in_flight_task_count = p.m_in_flight_task_count) ∧
    (p.m_workers = [] → 1 ≤ n →
      ∃ p1, p.Start n = Except.ok p1 ∧
        p1.Start m = Except.error "Thread pool already started") := by
  refine ⟨?_, ?_, ?_⟩
  · intro h
    cases hw : p.m_workers with
    | nil => exact absurd hw h
    | cons w ws => simp [Start, hw]
  · intro h hn
    refine ⟨{ p with m_workers := p.m_workers ++ List.replicate n.toNat WorkerThread.waiting },
      by simp [Start, h], ?_, rfl, rfl, rfl⟩
    simp [WorkersCount, h, Int.toNat_of_nonneg hn]
  · intro h hn
    refine ⟨{ p with m_workers := p.m_workers ++ List.replicate n.toNat WorkerThread.waiting },
      by simp [Start, h], ?_⟩
    obtain ⟨k, hk⟩ : ∃ k, n.toNat = k + 1 := ⟨n.toNat - 1, by omega⟩
    simp [Start, h, hk, List.replicate_succ]

/-- A fresh pool: `Start(2)` gives two workers, and `Start(5)` after it throws. -/
theorem start_fails_on_roster_witness :
    ∃ p1 : ThreadPool Nat Nat,
      (ThreadPool.new : ThreadPool Nat Nat).Start 2 = Except.ok p1 ∧
        p1.Start 5 = Except.error "Thread pool already started" :=
  (start_fails_on_roster
    (ThreadPool.new : ThreadPool Nat Nat) 2 5).2.2 rfl (by decide)

/-- C14 as stated fails for `n = 0`: `Start(0)` on a fresh pool spawns no thread and
leaves the roster empty, so `Start(3)` after it does not throw: it spawns three
workers. -/
theorem start_after_start_zero_succeeds :
    (ThreadPool.new : ThreadPool Nat Nat).Start 0 =
      Except.ok (ThreadPool.new : ThreadPool Nat Nat) ∧
    (ThreadPool.new : ThreadPool Nat Nat).Start 3 =
      Except.ok { (ThreadPool.new : ThreadPool Nat Nat) with
        m_workers := [WorkerThread.waiting, WorkerThread.waiting, WorkerThread.waiting] } := by
  constructor <;> rfl

/-- C15: whatever the pool holds when the joins of `Stop` have returned, its last
statements leave `WorkersCount() == 0` and a pool that a second `Stop` returns
unchanged; a `Stop` that returns leaves such a pool; and `Stop` on a pool that was never
started (no worker, not interrupted) returns it unchanged. -/
theorem stop_idempotent (p : ThreadPool τ φ) :
    (Stop.clear p).WorkersCount = 0 ∧
    (Stop.clear p).Stop = some (Stop.clear p) ∧
    (∀ p1, p.Stop = some p1 → p1.WorkersCount = 0 ∧ p1.m_interrupt = false ∧
      p1.Stop = some p1) ∧
    (p.m_workers = [] → p.m_interrupt = false → p.Stop = some p) := by
  have hclear : ∀ q : ThreadPool τ φ, (Stop.clear q).Stop = some (Stop.clear q) := by
    intro q
    simp [Stop, Stop.clear, Stop.signal, Stop.joined]
  refine ⟨rfl, hclear p, ?_, ?_⟩
  · intro p1 h
    unfold Stop at h
    split at h
    · cases h
      exact ⟨rfl, rfl, hclear _⟩
    · cases h
  · intro hw hi
    obtain ⟨queue, interrupt, workers, count⟩ := p
    dsimp only at hw hi
    subst hw hi
    simp [Stop, Stop.clear, Stop.signal, Stop.joined]

/-- A pool with a waiting worker and a worker back from a task, one task queued:
`Stop` clears the roster and keeps the queue and the counter, and a second `Stop`
changes nothing. -/
theorem stop_idempotent_witness :
    ({ (ThreadPool.new : ThreadPool Nat Nat) with
        m_work_queue := [7]
        m_workers := [WorkerThread.waiting, WorkerThread.returned]
        m_in_flight_task_count := 1 } : ThreadPool Nat Nat).Stop =
      some { (ThreadPool.new : ThreadPool Nat Nat) with
        m_work_queue := [7]
        m_in_flight_task_count := 1 } ∧
    ({ (ThreadPool.new : ThreadPool Nat Nat) with
        m_work_queue := [7]
        m_in_flight_task_count := 1 } : ThreadPool Nat Nat).Stop =
      some { (ThreadPool.new : ThreadPool Nat Nat) with
        m_work_queue := [7]
        m_in_flight_task_count := 1 } :=
  ⟨by decide,
    ((stop_idempotent ({ (ThreadPool.new : ThreadPool Nat Nat) with
        m_work_queue := [7]
        m_workers := [WorkerThread.waiting, WorkerThread.returned]
        m_in_flight_task_count := 1 } : ThreadPool Nat Nat)).2.2.1 _ (by decide)).2.2⟩

theorem ProcessTasks_fifo (submits : τ → List τ) (ts extra : List τ) (p : ThreadPool τ φ)
    (h : p.m_work_queue = ts ++ extra) : (ProcessTasks submits ts.length p).1 = ts := by
  induction ts generalizing p extra with
  | nil => rfl
  | cons t ts ih =>
    have hfold : ∀ (l : List τ) (q : ThreadPool τ φ),
        (l.foldl Submit q).m_work_queue = q.m_work_queue ++ l := by
      intro l
      induction l with
      | nil => intro q; simp
      | cons a l ihl =>
        intro q
        rw [List.foldl_cons, ihl]
        simp [Submit]
    have hpop : p.ProcessTask = (true, [t], { p with m_work_queue := ts ++ extra }) := by
      simp [ProcessTask, h]
    simp only [List.length_cons, ProcessTasks, hpop, List.singleton_append, List.cons.injEq,
      true_and]
    exact ih (extra ++ [t].flatMap submits) _ (by rw [hfold]; simp)

/-- C16: `Submit` appends the task at the back of the work queue: the size grows by
one, the tasks queued before keep their places, and the counter, the roster and the flag
are as before.  And the queue is first in, first out: after `t1, ..., tn` have been
submitted to a pool with an empty queue and no worker, `n` calls of `ProcessTask` in a
row execute `t1, ..., tn` in this order, whatever the tasks themselves submit. -/
theorem submit_fifo (p : ThreadPool τ φ) (task : τ) (tasks : List τ)
    (submits : τ → List τ) :
    (p.Submit task).m_work_queue = p.m_work_queue ++ [task] ∧
    (p.Submit task).WorkQueueSize = p.WorkQueueSize + 1 ∧
    (p.Submit task).InFlightTasksCount = p.InFlightTasksCount ∧
    (p.Submit task).m_workers = p.m_workers ∧
    (p.Submit task).m_interrupt = p.m_interrupt ∧
    (p.m_work_queue = [] → p.m_workers = [] →
      (ProcessTasks submits tasks.length (tasks.foldl Submit p)).1 = tasks) := by
  refine ⟨rfl, by simp [Submit, WorkQueueSize], rfl, rfl, rfl, ?_⟩
  intro hq _
  refine ProcessTasks_fifo submits tasks [] _ ?_
  have hfold : ∀ (l : List τ) (q : ThreadPool τ φ),
      (l.foldl Submit q).m_work_queue = q.m_work_queue ++ l := by
    intro l
    induction l with
    | nil => intro q; simp
    | cons a l ihl =>
      intro q
      rw [List.foldl_cons, ihl]
      simp [Submit]
  rw [hfold, hq]
  simp

/-- Three tasks submitted to an empty pool without workers are executed in the order
of submission; the second one submits a fourth task, which comes after them. -/
theorem submit_fifo_witness :
    (ProcessTasks (fun t => if t = 2 then [9] else []) [1, 2, 3].length
      ([1, 2, 3].foldl Submit (ThreadPool.new : ThreadPool Nat Nat))).1 = [1, 2, 3] ∧
    (ProcessTasks (fun t => if t = 2 then [9] else []) 4
      ([1, 2, 3].foldl Submit (ThreadPool.new : ThreadPool Nat Nat))).1 = [1, 2, 3, 9] :=
  ⟨(submit_fifo (ThreadPool.new : ThreadPool Nat Nat) 0 [1, 2, 3]
      (fun t => if t = 2 then [9] else [])).2.2.2.2.2 rfl rfl,
    by decide⟩

/-- C17: `ProcessTask` returns true if and only if the work queue is not empty when it
is called; then it pops the front task, leaves the rest of the queue and everything else
in the pool as it is (the in-flight counter too), and executes that task and no other on
the calling thread; on an empty queue it returns false, changes nothing and executes
nothing.  The step of the master of a check queue at the call of `ProcessTask` in `Wait`
is this pop. -/
theorem process_task_pops_head (p : ThreadPool τ φ) :
    (p.ProcessTask.1 = true ↔ p.m_work_queue ≠ []) ∧
    (∀ task rest, p.m_work_queue = task :: rest →
      p.ProcessTask = (true, [task], { p with m_work_queue := rest })) ∧
    (p.m_work_queue = [] → p.ProcessTask = (false, [], p)) ∧
    (∀ (T : Type) (eval : T → Bool) (s : CheckQueue.System T),
      s.pc = CheckQueue.MasterPc.waitProcessTask →
        CheckQueue.masterStep eval s = some { s with
          queue := { s.queue with m_thread_pool := s.queue.m_thread_pool.ProcessTask.2.2 }
          pc := match s.queue.m_thread_pool.ProcessTask.2.1 with
            | task :: _ => CheckQueue.MasterPc.waitTask (task.enter s.queue)
            | [] => CheckQueue.MasterPc.waitUntilIdle }) := by
  refine ⟨?_, ?_, ?_, ?_⟩
  · cases h : p.m_work_queue <;> simp [ProcessTask, h]
  · intro task rest h
    simp [ProcessTask, h]
  · intro h
    simp [ProcessTask, h]
  · rintro T eval ⟨queue, pc, calls, returned⟩ hpc
    dsimp only at hpc
    subst hpc
    cases h : queue.m_thread_pool.m_work_queue with
    | nil =>
      obtain ⟨ok, batch, ⟨q, i, w, c⟩, ev⟩ := queue
      dsimp only at h
      subst h
      rfl
    | cons task rest => simp [CheckQueue.masterStep, ProcessTask, h]

/-- A queue of two tasks: the first is popped and executed; an empty queue: nothing. -/
theorem process_task_pops_head_witness :
    ({ (ThreadPool.new : ThreadPool Nat Nat) with
        m_work_queue := [4, 5] } : ThreadPool Nat Nat).ProcessTask =
      (true, [4], { (ThreadPool.new : ThreadPool Nat Nat) with m_work_queue := [5] }) ∧
    (ThreadPool.new : ThreadPool Nat Nat).ProcessTask =
      (false, [], (ThreadPool.new : ThreadPool Nat Nat)) :=
  ⟨(process_task_pops_head ({ (ThreadPool.new : ThreadPool Nat Nat) with
      m_work_queue := [4, 5] } : ThreadPool Nat Nat)).2.1 4 [5] rfl,
    (process_task_pops_head (ThreadPool.new : ThreadPool Nat Nat)).2.2.1 rfl⟩

/-- C18 as the code has it: in a pool that is not interrupted, when the loop of
`WaitUntilIdle` ends the work queue is empty and the in-flight counter is not positive;
with a counter that is not negative this is `WorkQueueSize() == 0` and
`InFlightTasksCount() == 0`.  When `m_interrupt` is set the loop ends whatever the queue
and the counter hold.  (The counter is not negative in any state the pool of a check
queue reaches.) -/
theorem wait_until_idle_exit (p : ThreadPool τ φ) :
    (p.m_interrupt = false → p.stillWorking = false →
      p.WorkQueueSize = 0 ∧ p.m_in_flight_task_count ≤ 0) ∧
    (p.m_interrupt = false → 0 ≤ p.m_in_flight_task_count → p.stillWorking = false →
      p.WorkQueueSize = 0 ∧ p.InFlightTasksCount = 0) ∧
    (p.m_interrupt = true → p.stillWorking = false) ∧
    (∀ (T : Type) (eval : T → Bool) (workers batch_size : Nat)
      (calls : List (CheckQueue.Call T)) (sched : List Nat),
      0 ≤ (CheckQueue.run eval sched (CheckQueue.System.init workers batch_size
        calls)).queue.m_thread_pool.m_in_flight_task_count) := by
  have key : p.m_interrupt = false → p.stillWorking = false →
      p.WorkQueueSize = 0 ∧ p.m_in_flight_task_count ≤ 0 := by
    intro hi h
    simp only [stillWorking, hi, Bool.not_false, Bool.true_and, Bool.or_eq_false_iff,
      Bool.not_eq_false', List.isEmpty_iff, decide_eq_false_iff_not, not_lt] at h
    exact ⟨by simp [WorkQueueSize, h.1], h.2⟩
  refine ⟨key, ?_, ?_, ?_⟩
  · intro hi h0 h
    obtain ⟨h1, h2⟩ := key hi h
    have hz : p.m_in_flight_task_count = 0 := le_antisymm h2 h0
    exact ⟨h1, by simp [InFlightTasksCount, hz]⟩
  · intro hi
    simp [stillWorking, hi]
  · intro T eval workers batch_size calls sched
    rw [(CheckQueue.run_inv eval _ sched _
      (CheckQueue.init_inv eval workers batch_size calls)).in_flight]
    exact Int.natCast_nonneg _

/-- An idle pool with two waiting workers: the loop of `WaitUntilIdle` ends, with an
empty queue and nothing in flight. -/
theorem wait_until_idle_exit_witness :
    ({ (ThreadPool.new : ThreadPool Nat Nat) with
        m_workers := [WorkerThread.waiting, WorkerThread.waiting] } : ThreadPool Nat Nat).WorkQueueSize = 0 ∧
      ({ (ThreadPool.new : ThreadPool Nat Nat) with
        m_workers := [WorkerThread.waiting, WorkerThread.waiting] } : ThreadPool Nat Nat).InFlightTasksCount = 0 :=
  (wait_until_idle_exit ({ (ThreadPool.new : ThreadPool Nat Nat) with
        m_workers := [WorkerThread.waiting, WorkerThread.waiting] } : ThreadPool Nat Nat)).2.1 rfl (by decide) (by decide)

/-- C18 as stated fails: in an interrupted pool with one task queued and one task in
flight the loop of `WaitUntilIdle` ends, with `WorkQueueSize() == 1` and
`InFlightTasksCount() == 1`. -/
theorem wait_until_idle_exits_when_interrupted :
    ({ (ThreadPool.new : ThreadPool Nat Nat) with
        m_work_queue := [7]
        m_interrupt := true
        m_workers := [WorkerThread.running 3]
        m_in_flight_task_count := 1 } : ThreadPool Nat Nat).stillWorking = false ∧
      ({ (ThreadPool.new : ThreadPool Nat Nat) with
        m_work_queue := [7]
        m_interrupt := true
        m_workers := [WorkerThread.running 3]
        m_in_flight_task_count := 1 } : ThreadPool Nat Nat).WorkQueueSize = 1 ∧
      ({ (ThreadPool.new : ThreadPool Nat Nat) with
        m_work_queue := [7]
        m_interrupt := true
        m_workers := [WorkerThread.running 3]
        m_in_flight_task_count := 1 } : ThreadPool Nat Nat).InFlightTasksCount = 1 := by
  decide

/-- C19: `IsIdle` returns true if and only if the pool is interrupted, or the work
queue is empty and the in-flight counter is zero. -/
theorem is_idle_iff (p : ThreadPool τ φ) :
    p.IsIdle = true ↔
      p.m_interrupt = true ∨ (p.m_work_queue = [] ∧ p.m_in_flight_task_count = 0) := by
  simp [IsIdle]

end ThreadPool

/-! ## The input fetcher: empty batches and the fetch task -/

namespace Fetcher

theorem masterStep_stalled (s s1 : System) (hinv : Stalled s) (h : masterStep s = some s1) :
    Stalled s1 := by
  obtain ⟨hw, hi, hr, hp⟩ := hinv
  obtain ⟨fetcher, cache, pc⟩ := s
  dsimp only at hw hi hr hp
  cases pc with
  | adding calls =>
    cases calls with
    | nil =>
      simp only [masterStep] at h
      cases h
      exact ⟨hw, hi, by simp, Or.inl (by simpa using hp)⟩
    | cons outpoints rest =>
      simp only [masterStep] at h
      cases h
      cases outpoints with
      | nil =>
        exact ⟨by simpa [InputFetcher.Add, InputFetcher.Submit, ThreadPool.Submit] using hw,
          by simpa [InputFetcher.Add, InputFetcher.Submit, ThreadPool.Submit] using hi,
          by simp,
          Or.inl (by simp [InputFetcher.Add, InputFetcher.Submit, ThreadPool.Submit])⟩
      | cons o os =>
        have hq : fetcher.m_thread_pool.m_work_queue ≠ [] := by
          rcases hp with hp | hp
          · exact hp
          · simp at hp
        exact ⟨by simpa [InputFetcher.Add] using hw, by simpa [InputFetcher.Add] using hi,
          by simp, Or.inl (by simpa [InputFetcher.Add] using hq)⟩
  | lockPairs =>
    have hq : fetcher.m_thread_pool.m_work_queue ≠ [] := by
      rcases hp with hp | hp
      · exact hp
      · cases hp
    simp only [masterStep] at h
    split at h
    · cases h
    · split at h <;> cases h <;> exact ⟨hw, hi, by simp, Or.inl hq⟩
  | testIdle =>
    have hq : fetcher.m_thread_pool.m_work_queue ≠ [] := by
      rcases hp with hp | hp
      · exact hp
      · cases hp
    have hidle : fetcher.m_thread_pool.IsIdle = false := by
      cases hqueue : fetcher.m_thread_pool.m_work_queue with
      | nil => exact absurd hqueue hq
      | cons t ts => simp [ThreadPool.IsIdle, hi, hqueue]
    simp only [masterStep, hidle, Bool.false_eq_true, ↓reduceIte, Option.some.injEq] at h
    cases h
    exact ⟨hw, hi, by simp, Or.inl hq⟩
  | waitForProgress =>
    have hq : fetcher.m_thread_pool.m_work_queue ≠ [] := by
      rcases hp with hp | hp
      · exact hp
      · cases hp
    simp only [masterStep] at h
    split at h <;> cases h <;> exact ⟨hw, hi, by simp, Or.inl hq⟩
  | blocked =>
    have hq : fetcher.m_thread_pool.m_work_queue ≠ [] := by
      rcases hp with hp | hp
      · exact hp
      · cases hp
    simp only [masterStep] at h
    cases h
    exact ⟨hw, hi, by simp, Or.inl hq⟩
  | returned => exact absurd rfl hr

theorem fetch_step_stalled (tid : Nat) (s s1 : System) (hinv : Stalled s)
    (h : step tid s = some s1) : Stalled s1 := by
  cases tid with
  | zero => exact masterStep_stalled s s1 hinv h
  | succ i =>
    simp [step, workerStep, hinv.no_workers] at h

theorem schedule_stalled (tid : Nat) (s : System) (hinv : Stalled s) :
    Stalled (schedule tid s) := by
  unfold schedule
  cases h1 : step tid s with
  | some s1 => exact fetch_step_stalled tid s s1 hinv h1
  | none =>
    dsimp only
    cases h2 : (List.range (s.fetcher.m_thread_pool.WorkersCount + 1)).findSome?
        (fun tid1 => step tid1 s) with
    | some s1 =>
      obtain ⟨tid1, _, h3⟩ := List.exists_of_findSome?_eq_some h2
      exact fetch_step_stalled tid1 s s1 hinv h3
    | none => exact hinv

theorem run_stalled (sched : List Nat) (s : System) (hinv : Stalled s) :
    Stalled (run sched s) := by
  induction sched generalizing s with
  | nil => exact hinv
  | cons tid sched ih => exact ih _ (schedule_stalled tid s hinv)

/-- C11 (the code at the failing input): the one input of the block, X = (7, 1), is in
the cache, and the pool has no worker.  The only call of `Add` is the one after the
loops, with the empty buffer; `Add` submits its closure for it, which no thread
executes, so under every schedule `FetchInputs` does not return (the cache is unchanged
and nothing is looked up).  With one worker the calling thread comes to wait in
`WaitForProgress` for that closure. -/
theorem fetch_inputs_all_cached_never_returns (sched : List Nat) :
    FetchInputs.calls [(⟨7, 1⟩, ⟨50, false⟩)] 128 ⟨[⟨101, false, [⟨7, 1⟩]⟩]⟩ = [[]] ∧
    (run sched (System.init 0 128 [(⟨7, 1⟩, ⟨50, false⟩)] [(⟨7, 1⟩, 50)]
      ⟨[⟨101, false, [⟨7, 1⟩]⟩]⟩)).pc ≠ Pc.returned ∧
    (run sched (System.init 0 128 [(⟨7, 1⟩, ⟨50, false⟩)] [(⟨7, 1⟩, 50)]
      ⟨[⟨101, false, [⟨7, 1⟩]⟩]⟩)).fetcher.lookups = [] ∧
    (run sched (System.init 0 128 [(⟨7, 1⟩, ⟨50, false⟩)] [(⟨7, 1⟩, 50)]
      ⟨[⟨101, false, [⟨7, 1⟩]⟩]⟩)).cache = [(⟨7, 1⟩, ⟨50, false⟩)] ∧
    (run [0, 0, 0, 0, 0] (System.init 1 128 [(⟨7, 1⟩, ⟨50, false⟩)] [(⟨7, 1⟩, 50)]
      ⟨[⟨101, false, [⟨7, 1⟩]⟩]⟩)).pc = Pc.blocked ∧
    (run [0, 0, 0, 0, 0] (System.init 1 128 [(⟨7, 1⟩, ⟨50, false⟩)] [(⟨7, 1⟩, 50)]
      ⟨[⟨101, false, [⟨7, 1⟩]⟩]⟩)).fetcher.m_thread_pool.m_work_queue = [Task.Add []] := by
  have hstalled := run_stalled sched (System.init 0 128 [(⟨7, 1⟩, ⟨50, false⟩)] [(⟨7, 1⟩, 50)]
    ⟨[⟨101, false, [⟨7, 1⟩]⟩]⟩) ⟨rfl, rfl, by decide, Or.inr (by decide)⟩
  have hinv := run_noFetch [(⟨7, 1⟩, ⟨50, false⟩)] sched _
    (init_noFetch 0 128 [(⟨7, 1⟩, ⟨50, false⟩)] [(⟨7, 1⟩, 50)] ⟨[⟨101, false, [⟨7, 1⟩]⟩]⟩)
  exact ⟨by decide, hstalled.not_returned, hinv.lookups, hinv.cache, by decide, by decide⟩

theorem Fetch.loop_spec (db : CCoinsViewDB) (outpoints : List COutPoint) :
    (Fetch.loop db outpoints).1 =
      (outpoints.takeWhile (fun o => (db.GetCoin o).isSome)).filterMap
        (fun o => (db.GetCoin o).map (Prod.mk o)) ∧
    (Fetch.loop db outpoints).1.map Prod.fst =
      outpoints.takeWhile (fun o => (db.GetCoin o).isSome) ∧
    (Fetch.loop db outpoints).2 =
      outpoints.takeWhile (fun o => (db.GetCoin o).isSome) ++
        (outpoints.dropWhile (fun o => (db.GetCoin o).isSome)).take 1 := by
  induction outpoints with
  | nil => exact ⟨rfl, rfl, rfl⟩
  | cons o rest ih =>
    cases h : db.GetCoin o with
    | none => simp [Fetch.loop, h, List.takeWhile, List.dropWhile]
    | some coin =>
      obtain ⟨h1, h2, h3⟩ := ih
      refine ⟨?_, ?_, ?_⟩
      · simp [Fetch.loop, h, List.takeWhile, ← h1]
      · simp [Fetch.loop, h, List.takeWhile, h2]
      · simp [Fetch.loop, h, List.takeWhile, List.dropWhile, h3]

/-- C12: the inner closure over a batch finds exactly the pairs (outpoint, coin of the
store) of the longest initial segment of the batch whose outpoints are all in the store,
in the order of the batch; it looks up that segment and the first outpoint missing from
the store, and nothing after it; a miss only ends its loop.  Then, once `m_mutex` is
free, it appends these pairs to `m_pairs`, whose earlier content stays in place, and
returns; it changes nothing else. -/
theorem fetch_task_appends_found_pairs (f : InputFetcher) (outpoints : List COutPoint) :
    (Fetch.loop f.m_db outpoints).1 =
      (outpoints.takeWhile (fun o => (f.m_db.GetCoin o).isSome)).filterMap
        (fun o => (f.m_db.GetCoin o).map (Prod.mk o)) ∧
    (Fetch.loop f.m_db outpoints).1.map Prod.fst =
      outpoints.takeWhile (fun o => (f.m_db.GetCoin o).isSome) ∧
    (Fetch.loop f.m_db outpoints).2 =
      outpoints.takeWhile (fun o => (f.m_db.GetCoin o).isSome) ++
        (outpoints.dropWhile (fun o => (f.m_db.GetCoin o).isSome)).take 1 ∧
    (Task.Fetch outpoints).enter f = Frame.fetching outpoints ∧
    (Frame.fetching outpoints).step f =
      some (some (Frame.fetched (Fetch.loop f.m_db outpoints).1),
        { f with lookups := f.lookups ++ (Fetch.loop f.m_db outpoints).2 }) ∧
    (∀ pairs, f.m_mutex_held = false →
      (Frame.fetched pairs).step f = some (none, { f with m_pairs := f.m_pairs ++ pairs })) := by
  obtain ⟨h1, h2, h3⟩ := Fetch.loop_spec f.m_db outpoints
  refine ⟨h1, h2, h3, rfl, rfl, ?_⟩
  intro pairs hm
  cases hp : f.m_pairs <;> simp [Frame.step, hm, hp]

/-- A store with X = (7, 1) and Z = (9, 3) but not Y = (8, 2), the batch [X, Y, Z]: the
closure finds the pair of X, looks up X and Y only, and appends the pair behind the one
already in `m_pairs`. -/
theorem fetch_task_appends_found_pairs_witness :
    (Fetch.loop [(⟨7, 1⟩, 50), (⟨9, 3⟩, 70)] [⟨7, 1⟩, ⟨8, 2⟩, ⟨9, 3⟩]).1 = [(⟨7, 1⟩, 50)] ∧
    (Fetch.loop [(⟨7, 1⟩, 50), (⟨9, 3⟩, 70)] [⟨7, 1⟩, ⟨8, 2⟩, ⟨9, 3⟩]).2 =
      [⟨7, 1⟩, ⟨8, 2⟩] ∧
    (Frame.fetched [(⟨7, 1⟩, 50)]).step
        { InputFetcher.new 128 (startedPool 1) [(⟨7, 1⟩, 50), (⟨9, 3⟩, 70)] with
          m_pairs := [(⟨5, 0⟩, 20)] } =
      some (none,
        { InputFetcher.new 128 (startedPool 1) [(⟨7, 1⟩, 50), (⟨9, 3⟩, 70)] with
          m_pairs := [(⟨5, 0⟩, 20), (⟨7, 1⟩, 50)] }) :=
  ⟨by decide, by decide,
    (fetch_task_appends_found_pairs
      { InputFetcher.new 128 (startedPool 1) [(⟨7, 1⟩, 50), (⟨9, 3⟩, 70)] with
        m_pairs := [(⟨5, 0⟩, 20)] } []).2.2.2.2.2 [(⟨7, 1⟩, 50)] rfl⟩

/-- C13 (the code at the failing input): three outpoints pass the filters and the batch
size is 2, so `FetchInputs` accumulates the full batch `[a, b]` and the last batch
`[c]`, and calls `Add` for each and for nothing else.  `Add` returns at once for a batch
that is not empty, so it leaves the fetcher as it is: under every schedule no closure
over an outpoint is in the work queue and nothing is looked up. -/
theorem fetch_inputs_submits_no_batch (sched : List Nat) :
    FetchInputs.calls [] 2 ⟨[⟨101, false, [⟨7, 1⟩, ⟨8, 2⟩, ⟨9, 3⟩]⟩]⟩ =
      [[⟨7, 1⟩, ⟨8, 2⟩], [⟨9, 3⟩]] ∧
    (InputFetcher.new 2 (startedPool 1) []).Add [⟨7, 1⟩, ⟨8, 2⟩] =
      InputFetcher.new 2 (startedPool 1) [] ∧
    (InputFetcher.new 2 (startedPool 1) []).Add [⟨9, 3⟩] =
      InputFetcher.new 2 (startedPool 1) [] ∧
    (∀ task ∈ (run sched (System.init 1 2 [] []
        ⟨[⟨101, false, [⟨7, 1⟩, ⟨8, 2⟩, ⟨9, 3⟩]⟩]⟩)).fetcher.m_thread_pool.m_work_queue,
      task = Task.Add []) ∧
    (run sched (System.init 1 2 [] []
      ⟨[⟨101, false, [⟨7, 1⟩, ⟨8, 2⟩, ⟨9, 3⟩]⟩]⟩)).fetcher.lookups = [] := by
  have hinv := run_noFetch [] sched _
    (init_noFetch 1 2 [] [] ⟨[⟨101, false, [⟨7, 1⟩, ⟨8, 2⟩, ⟨9, 3⟩]⟩]⟩)
  exact ⟨by decide, by decide, by decide, hinv.queued, hinv.lookups⟩

end Fetcher

/-! ## Properties of the guard of a check queue -/

namespace CheckQueue

variable {T : Type}

theorem workerStep_master (eval : T → Bool) (i : Nat) (s s1 : System T)
    (h : workerStep eval i s = some s1) :
    s1.pc = s.pc ∧ s1.calls = s.calls ∧ s1.returned = s.returned := by
  unfold workerStep at h
  split at h
  · cases h
  · cases hw : s.queue.m_thread_pool.workerWake (Task.enter s.queue) i with
    | none => simp [hw] at h
    | some p =>
      simp only [hw, Option.map_some', Option.some.injEq] at h
      subst h
      exact ⟨rfl, rfl, rfl⟩
  · cases h
    exact ⟨rfl, rfl, rfl⟩
  · cases h
    exact ⟨rfl, rfl, rfl⟩
  · cases h

theorem workerStep_drained (eval : T → Bool) (i : Nat) (s : System T)
    (hi : s.queue.m_thread_pool.m_interrupt = false) (hd : s.queue.drained) :
    workerStep eval i s = none := by
  obtain ⟨hq, _, hw⟩ := hd
  unfold workerStep
  cases hget : s.queue.m_thread_pool.m_workers.get? i with
  | none => rfl
  | some w =>
    have hmem : w ∈ s.queue.m_thread_pool.m_workers := List.mem_iff_get?.mpr ⟨i, hget⟩
    have hwait := List.all_eq_true.mp hw w hmem
    cases w with
    | waiting => simp [ThreadPool.workerWake, hi, hq]
    | running f => simp at hwait
    | returned => simp at hwait
    | exited => rfl

theorem getLast_wait_tail (checks : List T) (rest : List (Call T))
    (h : (Call.Add checks :: rest).getLast? = some Call.Wait) :
    rest.getLast? = some Call.Wait := by
  cases rest with
  | nil => simp at h
  | cons c r => simpa [List.getLast?_cons_cons] using h

theorem masterStep_closing (eval : T → Bool) (expected : List Bool) (s s1 : System T)
    (hinv : Inv eval expected s) (hc : Closing s) (h : masterStep eval s = some s1) :
    Closing s1 := by
  have hquiet := hinv.quiet
  obtain ⟨queue, pc, calls, returned⟩ := s
  simp only [Closing] at hc
  dsimp only at hquiet
  cases pc with
  | idle =>
    cases calls with
    | nil => simp [masterStep] at h
    | cons call rest =>
      have hlast : (call :: rest).getLast? = some Call.Wait := by
        rcases hc with hc | ⟨hc, _⟩
        · exact hc
        · cases hc
      cases call with
      | Add checks =>
        have h2 := getLast_wait_tail checks rest hlast
        simp only [masterStep] at h
        split at h <;> cases h <;> exact Or.inl h2
      | Wait =>
        simp only [masterStep] at h
        cases h
        cases rest with
        | nil => exact Or.inr ⟨rfl, trivial⟩
        | cons c r => exact Or.inl (by simpa [List.getLast?_cons_cons] using hlast)
  | addSubmit checks =>
    simp only [masterStep] at h
    cases h
    rcases hc with hc | ⟨_, hc⟩
    · exact Or.inl hc
    · exact hc.elim
  | waitProcessTask =>
    simp only [masterStep] at h
    split at h <;> cases h
    · rcases hc with hc | ⟨hc, _⟩
      · exact Or.inl hc
      · exact Or.inr ⟨hc, trivial⟩
    · rcases hc with hc | ⟨hc, _⟩
      · exact Or.inl hc
      · exact Or.inr ⟨hc, trivial⟩
  | waitTask f =>
    simp only [masterStep] at h
    cases h
    rcases hc with hc | ⟨hc, _⟩
    · exact Or.inl hc
    · refine Or.inr ⟨hc, ?_⟩
      cases (Frame.step eval queue f).1 <;> trivial
  | waitUntilIdle =>
    simp only [masterStep] at h
    split at h
    · cases h
    · cases h
      rcases hc with hc | ⟨hc, _⟩
      · exact Or.inl hc
      · exact Or.inr ⟨hc, trivial⟩
  | waitRead =>
    simp only [masterStep] at h
    cases h
    rcases hc with hc | ⟨hc, _⟩
    · exact Or.inl hc
    · exact Or.inr ⟨hc, (hquiet rfl).1, rfl, (hquiet rfl).2⟩

theorem step_closing (eval : T → Bool) (expected : List Bool) (tid : Nat) (s s1 : System T)
    (hinv : Inv eval expected s) (hc : Closing s) (h : step eval tid s = some s1) :
    Closing s1 := by
  cases tid with
  | zero => exact masterStep_closing eval expected s s1 hinv hc h
  | succ i =>
    simp only [step] at h
    obtain ⟨hpc, hcalls, _⟩ := workerStep_master eval i s s1 h
    simp only [Closing, hpc, hcalls]
    rcases hc with hc | ⟨hc, hm⟩
    · exact Or.inl hc
    · refine Or.inr ⟨hc, ?_⟩
      cases hp : s.pc with
      | idle =>
        rw [hp] at hm
        rw [workerStep_drained eval i s hinv.not_interrupted hm] at h
        cases h
      | addSubmit checks =>
        rw [hp] at hm
        exact hm.elim
      | waitProcessTask => trivial
      | waitTask f => trivial
      | waitUntilIdle => trivial
      | waitRead => trivial

theorem run_closing (eval : T → Bool) (expected : List Bool) (sched : List Nat)
    (s : System T) (hinv : Inv eval expected s) (hc : Closing s) :
    Closing (run eval sched s) := by
  induction sched generalizing s with
  | nil => exact hc
  | cons tid sched ih =>
    refine ih _ (schedule_inv eval expected tid s hinv) ?_
    rcases schedule_cases eval tid s with ⟨h, _⟩ | ⟨tid1, h⟩
    · rw [h]
      exact hc
    · exact step_closing eval expected tid1 s _ hinv hc h

theorem guard_calls_any (g : CCheckQueueControl T) (hq : g.pqueue = true)
    (ops : List (Call T)) :
    CCheckQueueControl.calls g ops =
      (ops ++ (if g.fDone || ops.any Call.isWait then [] else [Call.Wait]),
        { pqueue := true, fDone := true, locked := false }) := by
  induction ops generalizing g with
  | nil =>
    obtain ⟨pqueue, fDone, locked⟩ := g
    simp only at hq
    subst hq
    cases fDone <;> rfl
  | cons op ops ih =>
    cases op with
    | Add vChecks =>
      simp only [CCheckQueueControl.calls, CCheckQueueControl.Add, hq, if_true]
      rw [ih g hq]
      simp [Call.isWait]
    | Wait =>
      simp only [CCheckQueueControl.calls, CCheckQueueControl.Wait, hq, Bool.not_true,
        Bool.false_eq_true, if_false]
      rw [ih _ rfl]
      simp [Call.isWait]

theorem predict_length (eval : T → Bool) (acc : Bool) (calls : List (Call T)) :
    (predict eval acc calls).length = (calls.filter Call.isWait).length := by
  induction calls generalizing acc with
  | nil => rfl
  | cons call calls ih =>
    cases call with
    | Add checks => simpa [predict, Call.isWait] using ih _
    | Wait => simpa [predict, Call.isWait] using ih _

/-- C20 as the code has it: a guard on a live queue, whatever its owner calls on it
(`ops`, `Add` and `Wait` in any order).  The calls reach the queue as they are made, and
the destructor adds one `Wait` exactly when the owner has called none; so with at most
one `Wait` by the owner the queue's `Wait` is invoked exactly once.  At the end of the
destructor the guard has left the critical section of `m_control_mutex`.  Under every
schedule these calls have returned after `fuel` scheduler decisions, and `Wait` has then
returned as many values as it was invoked.  When no `Add` follows the owner's last
`Wait` (the last call is a `Wait`, or the owner calls no `Wait`), then once the calls
have returned the work queue is empty, every worker waits and `m_all_ok` is true. -/
theorem guard_drains_queue (eval : T → Bool) (workers batch_size : Nat)
    (ops : List (Call T)) (sched : List Nat) :
    (CCheckQueueControl.calls (CCheckQueueControl.new true) ops).1 =
      ops ++ (if ops.any Call.isWait then [] else [Call.Wait]) ∧
    ((ops.filter Call.isWait).length ≤ 1 →
      ((CCheckQueueControl.calls (CCheckQueueControl.new true) ops).1.filter
        Call.isWait).length = 1) ∧
    (CCheckQueueControl.calls (CCheckQueueControl.new true : CCheckQueueControl T)
      ops).2.locked = false ∧
    (fuel (CCheckQueueControl.calls (CCheckQueueControl.new true) ops).1 ≤ sched.length →
      (run eval sched (System.init workers batch_size
        (CCheckQueueControl.calls (CCheckQueueControl.new true) ops).1)).finished = true) ∧
    ((run eval sched (System.init workers batch_size
        (CCheckQueueControl.calls (CCheckQueueControl.new true) ops).1)).finished = true →
      (run eval sched (System.init workers batch_size
        (CCheckQueueControl.calls (CCheckQueueControl.new true) ops).1)).returned.length =
        ((CCheckQueueControl.calls (CCheckQueueControl.new true) ops).1.filter
          Call.isWait).length) ∧
    (ops.getLast? = some Call.Wait ∨ ops.any Call.isWait = false →
      (run eval sched (System.init workers batch_size
        (CCheckQueueControl.calls (CCheckQueueControl.new true) ops).1)).finished = true →
      (run eval sched (System.init workers batch_size
        (CCheckQueueControl.calls (CCheckQueueControl.new true) ops).1)).queue.drained) := by
  have hcalls : CCheckQueueControl.calls (CCheckQueueControl.new true : CCheckQueueControl T)
      ops = (ops ++ (if ops.any Call.isWait then [] else [Call.Wait]),
        { pqueue := true, fDone := true, locked := false }) := by
    rw [guard_calls_any _ rfl]
    simp [CCheckQueueControl.new]
  rw [hcalls]
  refine ⟨rfl, ?_, rfl, (run_returned eval workers batch_size _ sched).2, ?_, ?_⟩
  · intro hle
    cases hany : ops.any Call.isWait with
    | false =>
      have h0 : ops.filter Call.isWait = [] := by
        rw [List.filter_eq_nil_iff]
        intro c hc
        have := List.any_eq_false.mp hany c hc
        simpa using this
      simp [List.filter_append, h0, Call.isWait]
    | true =>
      obtain ⟨c, hc, hw⟩ := List.any_eq_true.mp hany
      have hpos : 0 < (ops.filter Call.isWait).length :=
        List.length_pos_of_mem (List.mem_filter.mpr ⟨hc, hw⟩)
      simp only [Bool.true_eq_false, if_true, List.append_nil]
      omega
  · intro hfin
    rw [(run_returned eval workers batch_size _ sched).1 hfin, predict_length]
  · intro hlast hfin
    have hend : (ops ++ (if ops.any Call.isWait then [] else [Call.Wait])).getLast? =
        some Call.Wait := by
      rcases hlast with hl | hl
      · have hne : ops ≠ [] := by
          intro h0
          rw [h0] at hl
          cases hl
        have hany : ops.any Call.isWait = true := by
          rw [List.any_eq_true]
          exact ⟨Call.Wait, List.mem_of_getLast?_eq_some hl, rfl⟩
        simp only [hany, if_true, List.append_nil]
        exact hl
      · simp [hl]
    have hclosing := run_closing eval _ sched _
      (init_inv eval workers batch_size
        (ops ++ (if ops.any Call.isWait then [] else [Call.Wait])))
      (Or.inl (by simpa [System.init] using hend))
    revert hfin hclosing
    generalize run eval sched (System.init workers batch_size
      (ops ++ (if ops.any Call.isWait then [] else [Call.Wait]))) = s
    obtain ⟨queue, pc, calls, returned⟩ := s
    intro hfin hclosing
    cases pc <;> cases calls <;> simp [System.finished] at hfin
    rcases hclosing with hc | ⟨_, hc⟩
    · simp at hc
    · exact hc

/-- Two `Add`s and no `Wait` by the owner, two workers: the destructor calls `Wait`, and
after 60 scheduler decisions all is done and the queue is drained.  An `Add` after the
owner's `Wait`: the queue's `Wait` is still invoked exactly once. -/
theorem guard_drains_queue_witness :
    (run id (List.replicate 60 1) (System.init 2 1
      (CCheckQueueControl.calls (CCheckQueueControl.new true)
        [Call.Add [true], Call.Add [false, true]]).1)).queue.drained ∧
    ((CCheckQueueControl.calls (CCheckQueueControl.new true)
      [Call.Add [true], Call.Wait, Call.Add [true]]).1.filter Call.isWait).length = 1 :=
  ⟨(guard_drains_queue id 2 1 [Call.Add [true], Call.Add [false, true]]
      (List.replicate 60 1)).2.2.2.2.2 (Or.inr (by decide))
      ((guard_drains_queue id 2 1 [Call.Add [true], Call.Add [false, true]]
        (List.replicate 60 1)).2.2.2.1 (by decide)),
    (guard_drains_queue id 0 1 [Call.Add [true], Call.Wait, Call.Add [true]] []).2.1
      (by decide)⟩

/-- C20 as stated fails: the owner calls `Add`, `Wait` and `Add` again; the destructor
finds `fDone` set and does not call `Wait`, so with no worker the closure of the second
`Add` is still in the work queue when the destructor has left the critical section. -/
theorem guard_add_after_wait_not_drained :
    CCheckQueueControl.calls (CCheckQueueControl.new true)
        [Call.Add [true], Call.Wait, Call.Add [true]] =
      ([Call.Add [true], Call.Wait, Call.Add [true]],
        { pqueue := true, fDone := true, locked := false }) ∧
    (run id (List.replicate 40 0)
      (System.init 0 1 [Call.Add [true], Call.Wait, Call.Add [true]])).finished = true ∧
    (run id (List.replicate 40 0)
      (System.init 0 1
        [Call.Add [true], Call.Wait, Call.Add [true]])).queue.m_thread_pool.m_work_queue =
      [Task.CheckBatch [true]] := by
  decide

end CheckQueue

/-! ## The guard without a queue -/

namespace CheckQueue

variable {T : Type}

theorem init_nil_stuck (eval : T → Bool) (workers batch_size : Nat) :
    (System.init workers batch_size ([] : List (Call T))).stuck eval := by
  intro tid
  cases tid with
  | zero => rfl
  | succ i =>
    simp only [step, workerStep, System.init, CCheckQueue.new, startedPool]
    by_cases hi : i < workers
    · simp [List.get?_eq_getElem?, List.getElem?_replicate, hi, ThreadPool.workerWake]
    · simp [List.get?_eq_getElem?, List.getElem?_replicate, hi]

theorem run_stuck_eq (eval : T → Bool) (sched : List Nat) (s : System T)
    (h : s.stuck eval) : run eval sched s = s := by
  induction sched with
  | nil => rfl
  | cons tid sched ih =>
    have hs : schedule eval tid s = s := by
      rcases schedule_cases eval tid s with ⟨h1, _⟩ | ⟨tid1, h1⟩
      · exact h1
      · rw [h tid1] at h1
        cases h1
    simp only [run, hs, ih]

theorem null_guard_calls (g : CCheckQueueControl T) (hq : g.pqueue = false)
    (ops : List (Call T)) : CCheckQueueControl.calls g ops = ([], g) := by
  induction ops with
  | nil => simp [CCheckQueueControl.calls, CCheckQueueControl.destroy, CCheckQueueControl.Wait, hq]
  | cons op ops ih =>
    cases op with
    | Add vChecks =>
      simp [CCheckQueueControl.calls, CCheckQueueControl.Add, hq, ih]
    | Wait =>
      simp [CCheckQueueControl.calls, CCheckQueueControl.Wait, hq, ih]

/-- C21: a `CCheckQueueControl` constructed with `nullptr` is outside every critical
section after its constructor; its `Wait` returns `true` whatever a queue would have
returned, and calls nothing; its `Add` calls nothing; its destructor calls nothing and
leaves the guard, the lock flag included, as it is.  So whatever its owner does with it
(`ops`, then the destructor) no call reaches a queue and the guard never holds a lock,
and a check queue whose master makes these calls stays as constructed under every
schedule: no check is evaluated and nothing is submitted. -/
theorem null_guard_degenerate (eval : T → Bool) (workers batch_size : Nat)
    (ops : List (Call T)) (vChecks : List T) (fRet : Bool) (sched : List Nat) :
    (CCheckQueueControl.new false : CCheckQueueControl T).locked = false ∧
    CCheckQueueControl.Wait.returns (CCheckQueueControl.new false : CCheckQueueControl T) fRet =
      true ∧
    (CCheckQueueControl.new false : CCheckQueueControl T).Wait =
      ([], CCheckQueueControl.new false) ∧
    (CCheckQueueControl.new false : CCheckQueueControl T).Add vChecks =
      ([], CCheckQueueControl.new false) ∧
    (CCheckQueueControl.new false : CCheckQueueControl T).destroy =
      ([], CCheckQueueControl.new false) ∧
    CCheckQueueControl.calls (CCheckQueueControl.new false) ops =
      ([], CCheckQueueControl.new false) ∧
    run eval sched (System.init workers batch_size
        (CCheckQueueControl.calls (CCheckQueueControl.new false) ops).1) =
      System.init workers batch_size [] ∧
    (run eval sched (System.init workers batch_size
        (CCheckQueueControl.calls (CCheckQueueControl.new false) ops).1)).queue.evaluated = [] ∧
    (run eval sched (System.init workers batch_size
        (CCheckQueueControl.calls (CCheckQueueControl.new false)
          ops).1)).queue.m_thread_pool.m_work_queue = [] := by
  have hrun : run eval sched (System.init workers batch_size
      (CCheckQueueControl.calls (CCheckQueueControl.new false) ops).1) =
      System.init workers batch_size [] := by
    rw [null_guard_calls _ rfl]
    exact run_stuck_eq eval sched _ (init_nil_stuck eval workers batch_size)
  refine ⟨rfl, rfl, rfl, rfl, rfl, null_guard_calls _ rfl ops, hrun, ?_, ?_⟩
  · rw [hrun]
    rfl
  · rw [hrun]
    rfl

end CheckQueue

/-! ## The batch sizes -/

namespace Fetcher

/-- C23 on the code: the `batch_size` of `CCheckQueue::CheckBatch` divides by
`WorkersCount() + 1` and is at least 1 for every worker count, and the one of the closure
of `InputFetcher::Add` is at least 1 for one worker or more; but that one divides by
`WorkersCount()`, so with no worker it is a division by zero.  The division is reached:
`FetchInputs` on the empty block with a pool of no workers queues the closure (its first
step), a call of `ProcessTask` on that pool hands it to the caller, and the caller
divides by zero at once and can do nothing further. -/
theorem add_batch_size_divides_by_zero (m_batch_size size : Nat) (cache : CCoinsViewCache)
    (db : CCoinsViewDB) :
    Add.batch_size m_batch_size size 0 = none ∧
    (∀ workers, ∃ b, Add.batch_size m_batch_size size (workers + 1) = some b ∧ 1 ≤ b) ∧
    (∀ workers, 1 ≤ CheckQueue.CheckBatch.batch_size m_batch_size size workers) ∧
    (run [0] (System.init 0 m_batch_size cache db ⟨[]⟩)).fetcher =
      (InputFetcher.new m_batch_size (startedPool 0) db).Add [] ∧
    ((InputFetcher.new m_batch_size (startedPool 0) db).Add []).m_thread_pool.ProcessTask.1 =
      true ∧
    ((InputFetcher.new m_batch_size (startedPool 0) db).Add []).m_thread_pool.ProcessTask.2.1 =
      [Task.Add []] ∧
    (Task.Add []).enter ((InputFetcher.new m_batch_size (startedPool 0) db).Add []) =
      Frame.undefined ∧
    Frame.undefined.step ((InputFetcher.new m_batch_size (startedPool 0) db).Add []) = none := by
  refine ⟨rfl, ?_, ?_, rfl, rfl, rfl, rfl, rfl⟩
  · intro workers
    exact ⟨max 1 (min m_batch_size ((size / (workers + 1)) % 4294967296)),
      by simp [Add.batch_size], le_max_left _ _⟩
  · intro workers
    exact le_max_left _ _

end Fetcher

/-! ## The in-flight counter, idleness and `Stop` -/

namespace ThreadPool

variable {τ : Type}

theorem countP_set_busy {φ : Type} (l : List (WorkerThread φ)) (i : Nat)
    (w w1 : WorkerThread φ) (h : l[i]? = some w) :
    ((l.set i w1).countP WorkerThread.busy : Int) =
      (l.countP WorkerThread.busy : Int) - (if w.busy then 1 else 0) +
        (if w1.busy then 1 else 0) := by
  obtain ⟨l1, l2, hl, hset⟩ := CheckQueue.set_split l i w (by rw [List.get?_eq_getElem?, h])
  rw [hset w1, hl]
  simp only [List.countP_append, List.countP_cons]
  cases w.busy <;> cases w1.busy <;> simp <;> omega

theorem frameStep_spec (p : ThreadPool τ (τ × List τ)) (frame : τ × List τ) :
    (frameStep p frame).2.m_workers = p.m_workers ∧
    (frameStep p frame).2.m_in_flight_task_count = p.m_in_flight_task_count ∧
    (frameStep p frame).2.m_interrupt = p.m_interrupt := by
  obtain ⟨task, rest⟩ := frame
  cases rest <;> exact ⟨rfl, rfl, rfl⟩

theorem callerStep_counted (submits : τ → List τ) (s s1 : System τ) (hinv : Counted s)
    (h : callerStep submits s = some s1) : Counted s1 := by
  obtain ⟨pool, pc, calls, thrown⟩ := s
  unfold Counted at hinv ⊢
  dsimp only at hinv
  cases pc with
  | idle =>
    cases calls with
    | nil => simp [callerStep] at h
    | cons call rest =>
      cases call with
      | Start num_workers =>
        simp only [callerStep] at h
        cases hs : pool.Start num_workers with
        | error e =>
          rw [hs] at h
          cases h
          exact hinv
        | ok p =>
          rw [hs] at h
          cases h
          simp only [Start] at hs
          split at hs
          · cases hs
          · cases hs
            simp only [List.countP_append]
            have : (List.replicate num_workers.toNat
                (WorkerThread.waiting : WorkerThread (τ × List τ))).countP WorkerThread.busy = 0 := by
              rw [List.countP_eq_zero]
              intro w hw
              rw [List.eq_of_mem_replicate hw]
              simp [WorkerThread.busy]
            rw [this]
            simpa using hinv
      | Stop =>
        simp only [callerStep, Option.some.injEq] at h
        subst h
        exact hinv
      | Submit task =>
        simp only [callerStep, Option.some.injEq] at h
        subst h
        exact hinv
      | ProcessTask =>
        simp only [callerStep, Option.some.injEq] at h
        subst h
        simp only [ProcessTask]
        cases pool.m_work_queue <;> exact hinv
      | WaitUntilIdle =>
        simp only [callerStep, Option.some.injEq] at h
        subst h
        exact hinv
  | processTask frame =>
    simp only [callerStep, Option.some.injEq] at h
    subst h
    obtain ⟨h1, h2, _⟩ := frameStep_spec pool frame
    simp only [h1, h2]
    exact hinv
  | stopJoin =>
    simp only [callerStep] at h
    split at h
    · cases h
      simp only [Stop.clear, List.countP_nil, Nat.cast_zero]
      exact le_trans (Int.natCast_nonneg _) hinv
    · simp at h
  | waitUntilIdle =>
    simp only [callerStep] at h
    split at h
    · simp at h
    · cases h
      exact hinv

theorem workerStep_counted (submits : τ → List τ) (i : Nat) (s s1 : System τ)
    (hinv : Counted s) (h : workerStep submits i s = some s1) : Counted s1 := by
  obtain ⟨pool, pc, calls, thrown⟩ := s
  unfold Counted at hinv ⊢
  dsimp only at hinv
  simp only [workerStep] at h
  cases hw : pool.m_workers[i]? with
  | none => simp [hw] at h
  | some w =>
    rw [List.get?_eq_getElem?, hw] at h
    cases w with
    | waiting =>
      simp only [workerWake, Option.map_eq_some'] at h
      obtain ⟨p, hp, rfl⟩ := h
      split at hp
      · cases hp
        simp only [countP_set_busy _ _ _ _ hw]
        simp [WorkerThread.busy]
        exact hinv
      · split at hp
        · simp at hp
        · cases hp
          simp only [countP_set_busy _ _ _ _ hw]
          simp [WorkerThread.busy]
          exact hinv
    | running frame =>
      simp only [Option.some.injEq] at h
      subst h
      obtain ⟨h1, h2, _⟩ := frameStep_spec pool frame
      have : (WorkerThread.resume (frameStep pool frame).1).busy = true := by
        cases (frameStep pool frame).1 <;> rfl
      simp only [h1, h2, countP_set_busy _ _ _ _ hw, this]
      simp [WorkerThread.busy]
      exact hinv
    | returned =>
      simp only [Option.some.injEq] at h
      subst h
      simp only [workerNext]
      split
      · simp only [countP_set_busy _ _ _ _ hw]
        simp [WorkerThread.busy]
        omega
      · split
        · simp only [countP_set_busy _ _ _ _ hw]
          simp [WorkerThread.busy]
          omega
        · simp only [countP_set_busy _ _ _ _ hw]
          simp [WorkerThread.busy]
          omega
    | exited => simp at h

theorem run_counted (submits : τ → List τ) (sched : List Nat) (s : System τ)
    (hinv : Counted s) : Counted (run submits sched s) := by
  induction sched generalizing s with
  | nil => exact hinv
  | cons tid sched ih =>
    refine ih _ ?_
    unfold schedule
    cases h : step submits tid s with
    | none => exact hinv
    | some s1 =>
      cases tid with
      | zero => exact callerStep_counted submits s s1 hinv h
      | succ i => exact workerStep_counted submits i s s1 hinv h

theorem init_counted (calls : List (Call τ)) : Counted (System.init calls) := by
  simp [Counted, System.init, ThreadPool.new]

/-- C24 as the code has it: in every state a pool reaches from its construction,
whatever its owner calls (`Start` and `Stop` included) and under every schedule, when
the pool is not interrupted and `IsIdle` returns true the work queue is empty and no
worker holds a task: none is inside `task()` and none has a finished task still counted.
(The counter is raised and lowered by `WorkerThread` only; `ProcessTask` does not touch
it.) -/
theorem is_idle_no_worker_task (submits : τ → List τ) (calls : List (Call τ))
    (sched : List Nat)
    (hi : (run submits sched (System.init calls)).pool.m_interrupt = false)
    (hidle : (run submits sched (System.init calls)).pool.IsIdle = true) :
    (run submits sched (System.init calls)).pool.m_work_queue = [] ∧
    (∀ w ∈ (run submits sched (System.init calls)).pool.m_workers, w.busy = false) ∧
    (∀ frame, WorkerThread.running frame ∉
      (run submits sched (System.init calls)).pool.m_workers) := by
  have hc := run_counted submits sched _ (init_counted calls)
  revert hi hidle hc
  generalize run submits sched (System.init calls) = s
  intro hi hidle hc
  unfold Counted at hc
  simp only [IsIdle, hi, Bool.false_or, Bool.and_eq_true, List.isEmpty_iff,
    beq_iff_eq] at hidle
  rw [hidle.2] at hc
  have hz : s.pool.m_workers.countP WorkerThread.busy = 0 := by omega
  rw [List.countP_eq_zero] at hz
  refine ⟨hidle.1, fun w hw => by simpa using hz w hw, fun frame hmem => ?_⟩
  have := hz _ hmem
  simp [WorkerThread.busy] at this

/-- Two workers, one task: when the owner has come back from `WaitUntilIdle` the pool is
idle, the queue is empty and no worker holds a task. -/
theorem is_idle_no_worker_task_witness :
    (run (fun _ => ([] : List Nat)) [0, 0, 1, 1, 1, 0, 0]
      (System.init [Call.Start 2, Call.Submit 7, Call.WaitUntilIdle])).pool.m_work_queue = [] ∧
    (∀ w ∈ (run (fun _ => ([] : List Nat)) [0, 0, 1, 1, 1, 0, 0]
      (System.init [Call.Start 2, Call.Submit 7, Call.WaitUntilIdle])).pool.m_workers,
        w.busy = false) ∧
    (∀ frame, WorkerThread.running frame ∉
      (run (fun _ => ([] : List Nat)) [0, 0, 1, 1, 1, 0, 0]
        (System.init [Call.Start 2, Call.Submit 7, Call.WaitUntilIdle])).pool.m_workers) :=
  is_idle_no_worker_task (fun _ => ([] : List Nat))
    [Call.Start 2, Call.Submit 7, Call.WaitUntilIdle] [0, 0, 1, 1, 1, 0, 0]
    (by decide) (by decide)

/-- C24 as stated fails: the owner of a pool without workers submits a task and calls
`ProcessTask`; while it is inside `task()` the pool is not interrupted and `IsIdle`
returns true.  The same holds of the master of a check queue inside `Wait`. -/
theorem is_idle_during_process_task :
    (run (fun _ => ([] : List Nat)) [0, 0]
      (System.init [Call.Submit 7, Call.ProcessTask])).pc = CallerPc.processTask (7, []) ∧
    (run (fun _ => ([] : List Nat)) [0, 0]
      (System.init [Call.Submit 7, Call.ProcessTask])).pool.m_interrupt = false ∧
    (run (fun _ => ([] : List Nat)) [0, 0]
      (System.init [Call.Submit 7, Call.ProcessTask])).pool.IsIdle = true ∧
    (CheckQueue.run id [0, 0, 0, 0] (CheckQueue.System.init 0 1
      [CheckQueue.Call.Add [true], CheckQueue.Call.Wait])).pc =
        CheckQueue.MasterPc.waitTask (CheckQueue.Frame.submitting [[true]]) ∧
    (CheckQueue.run id [0, 0, 0, 0] (CheckQueue.System.init 0 1
      [CheckQueue.Call.Add [true], CheckQueue.Call.Wait])).queue.m_thread_pool.m_interrupt =
        false ∧
    (CheckQueue.run id [0, 0, 0, 0] (CheckQueue.System.init 0 1
      [CheckQueue.Call.Add [true], CheckQueue.Call.Wait])).queue.m_thread_pool.IsIdle =
        true := by
  decide

theorem run_append (submits : τ → List τ) (sched1 sched2 : List Nat) (s : System τ) :
    run submits (sched1 ++ sched2) s = run submits sched2 (run submits sched1 s) := by
  induction sched1 generalizing s with
  | nil => rfl
  | cons tid sched1 ih => exact ih _

theorem run_blocked (submits : τ → List τ) (s : System τ)
    (h : ∀ tid, step submits tid s = none) (sched : List Nat) : run submits sched s = s := by
  induction sched with
  | nil => rfl
  | cons tid sched ih =>
    simp only [run, schedule, h tid, Option.getD_none, ih]

/-- C25 as the code has it.  `Stop` returns with the roster cleared and the interrupt
reset (`Stop.clear` of the pool it finds when the joins have returned).  A `Submit`
after that does not fail and appends the task to the work queue; no worker exists that
could execute it; calls of `ProcessTask` execute the queued tasks in order, the new one
last; and when the queue was empty, a worker of a pool started again pops the task and
executes it. -/
theorem submit_after_stop_enqueues (submits : τ → List τ) (p : ThreadPool τ (τ × List τ))
    (task : τ) :
    (∀ s s1 : System τ, s.pc = CallerPc.stopJoin → callerStep submits s = some s1 →
      s1.pool = Stop.clear s.pool ∧ s1.pc = CallerPc.idle) ∧
    (∀ rest thrown, callerStep submits
        { pool := Stop.clear p, pc := CallerPc.idle, calls := Call.Submit task :: rest,
          thrown := thrown } =
      some { pool := { Stop.clear p with m_work_queue := p.m_work_queue ++ [task] },
             pc := CallerPc.idle, calls := rest, thrown := thrown }) ∧
    (∀ (s : System τ) i, s.pool = (Stop.clear p).Submit task →
      workerStep submits i s = none) ∧
    (ProcessTasks submits (p.m_work_queue.length + 1) ((Stop.clear p).Submit task)).1 =
      p.m_work_queue ++ [task] ∧
    (p.m_work_queue = [] → ∀ n : Int, 0 < n →
      ∃ p1 p2, ((Stop.clear p).Submit task).Start n = Except.ok p1 ∧
        p1.workerWake (enter submits) 0 = some p2 ∧
        p2.m_workers.get? 0 = some (WorkerThread.running (enter submits task))) := by
  refine ⟨?_, ?_, ?_, ?_, ?_⟩
  · intro s s1 hpc h
    simp only [callerStep, hpc] at h
    split at h
    · cases h
      exact ⟨rfl, rfl⟩
    · simp at h
  · intro rest thrown
    rfl
  · intro s i hs
    simp [workerStep, hs, Stop.clear, Submit]
  · have := ProcessTasks_fifo submits (p.m_work_queue ++ [task]) []
      ((Stop.clear p).Submit task) (by simp [Stop.clear, Submit])
    simpa using this
  · intro hq n hn
    obtain ⟨k, hk⟩ : ∃ k : Nat, n.toNat = k + 1 := ⟨n.toNat - 1, by omega⟩
    refine ⟨{ (Stop.clear p).Submit task with
        m_workers := List.replicate n.toNat WorkerThread.waiting }, ?_, ?_, ?_, ?_⟩
    · exact { (Stop.clear p).Submit task with
        m_work_queue := []
        m_in_flight_task_count := p.m_in_flight_task_count + 1
        m_workers := (List.replicate n.toNat WorkerThread.waiting).set 0
          (WorkerThread.running (enter submits task)) }
    · simp [Start, Stop.clear, Submit]
    · simp [workerWake, Stop.clear, Submit, hq]
    · simp [hk, List.replicate_succ]

/-- A pool stopped with one task queued: `Submit` appends, two calls of `ProcessTask`
execute both tasks, and without the queued task a worker of a pool started again with
one thread executes the submitted task. -/
theorem submit_after_stop_enqueues_witness :
    (∃ p1 p2, ((Stop.clear ({ (ThreadPool.new : ThreadPool Nat (Nat × List Nat)) with
          m_interrupt := true
          m_workers := [WorkerThread.exited] })).Submit 7).Start 1 = Except.ok p1 ∧
        p1.workerWake (enter (fun _ => [])) 0 = some p2 ∧
        p2.m_workers.get? 0 = some (WorkerThread.running (enter (fun _ => []) 7))) :=
  (submit_after_stop_enqueues (fun _ => [])
    ({ (ThreadPool.new : ThreadPool Nat (Nat × List Nat)) with
          m_interrupt := true
          m_workers := [WorkerThread.exited] }) 7).2.2.2.2 rfl 1 (by decide)

/-- C25 as stated fails: the owner starts a pool of one thread and stops it; when `Stop`
has returned it submits task `7`: no exception is thrown and the work queue, empty
before, holds the task; a call of `ProcessTask` then executes it on the owner, and if the
owner instead starts the pool again the new worker executes it. -/
theorem submit_after_stop_is_executed :
    run (fun _ => ([] : List Nat)) [0, 0, 1, 0]
        (System.init [Call.Start 1, Call.Stop, Call.Submit 7, Call.ProcessTask]) =
      { pool := ThreadPool.new, pc := CallerPc.idle
        calls := [Call.Submit 7, Call.ProcessTask], thrown := [] } ∧
    run (fun _ => ([] : List Nat)) [0, 0, 1, 0, 0]
        (System.init [Call.Start 1, Call.Stop, Call.Submit 7, Call.ProcessTask]) =
      { pool := { (ThreadPool.new : ThreadPool Nat (Nat × List Nat)) with m_work_queue := [7] }
        pc := CallerPc.idle, calls := [Call.ProcessTask], thrown := [] } ∧
    (run (fun _ => ([] : List Nat)) [0, 0, 1, 0, 0, 0]
      (System.init [Call.Start 1, Call.Stop, Call.Submit 7, Call.ProcessTask])).pc =
        CallerPc.processTask (7, []) ∧
    (run (fun _ => ([] : List Nat)) [0, 0, 1, 0, 0, 0, 1]
      (System.init [Call.Start 1, Call.Stop, Call.Submit 7, Call.Start 1])).pool.m_workers =
        [WorkerThread.running (7, [])] := by
  decide

/-- C26 on the code: the owner starts a pool of one thread and submits task `7`, the
worker pops it (the counter is 1), and the owner calls `Stop` while the worker is inside
`task()`.  The worker finishes the task, finds `m_interrupt` set at the test of its loop
and leaves without `--m_in_flight_task_count`; `Stop` joins it and returns.  Then
`InFlightTasksCount()` is 1 with `WorkersCount()` 0, no worker executing anything.  When
the owner starts the pool again and calls `WaitUntilIdle`, with an empty queue and the
new worker waiting for work, that call never returns, whatever the schedule. -/
theorem in_flight_count_left_by_stop (sched : List Nat) :
    (run (fun _ => ([] : List Nat)) [0, 0, 1, 0]
      (System.init [Call.Start 1, Call.Submit 7, Call.Stop])).pool =
      { m_work_queue := [], m_interrupt := true
        m_workers := [WorkerThread.running (7, [])], m_in_flight_task_count := 1 } ∧
    run (fun _ => ([] : List Nat)) [0, 0, 1, 0, 1, 1, 0]
        (System.init [Call.Start 1, Call.Submit 7, Call.Stop]) =
      { pool := { m_work_queue := [], m_interrupt := false
                  m_workers := [], m_in_flight_task_count := 1 }
        pc := CallerPc.idle, calls := [], thrown := [] } ∧
    (run (fun _ => ([] : List Nat)) [0, 0, 1, 0, 1, 1, 0]
      (System.init [Call.Start 1, Call.Submit 7, Call.Stop])).pool.InFlightTasksCount = 1 ∧
    (run (fun _ => ([] : List Nat)) [0, 0, 1, 0, 1, 1, 0]
      (System.init [Call.Start 1, Call.Submit 7, Call.Stop])).pool.WorkersCount = 0 ∧
    run (fun _ => ([] : List Nat)) ([0, 0, 1, 0, 1, 1, 0, 0, 0] ++ sched)
        (System.init [Call.Start 1, Call.Submit 7, Call.Stop, Call.Start 1,
          Call.WaitUntilIdle]) =
      { pool := { m_work_queue := [], m_interrupt := false
                  m_workers := [WorkerThread.waiting], m_in_flight_task_count := 1 }
        pc := CallerPc.waitUntilIdle, calls := [], thrown := [] } := by
  refine ⟨by decide, by decide, by decide, by decide, ?_⟩
  rw [run_append]
  have h : run (fun _ => ([] : List Nat)) [0, 0, 1, 0, 1, 1, 0, 0, 0]
      (System.init [Call.Start 1, Call.Submit 7, Call.Stop, Call.Start 1,
        Call.WaitUntilIdle]) =
      { pool := { m_work_queue := [], m_interrupt := false
                  m_workers := [WorkerThread.waiting], m_in_flight_task_count := 1 }
        pc := CallerPc.waitUntilIdle, calls := [], thrown := [] } := by
    decide
  rw [h]
  apply run_blocked
  intro tid
  match tid with
  | 0 => decide
  | 1 => decide
  | i + 2 => rfl

end ThreadPool

/-! ## Guards on one queue -/

namespace CheckQueue

variable {T : Type}

end CheckQueue

/-! ## Every check is evaluated at most once -/

namespace CheckQueue

variable {T : Type}

theorem enter_checks (q : CCheckQueue T) (task : Task T) :
    (task.enter q).checks = task.checks := by
  cases task with
  | CheckBatch checks =>
    simp only [Task.enter, Frame.checks, Task.checks, CCheckQueue.subBatches]
    cases checks with
    | nil => rfl
    | cons c rest => simpa using CheckBatch.loop_join _ 0 [] (c :: rest) (by simp)
  | Check checks => rfl

theorem Check.loop_sublist (eval : T → Bool) (ok : Bool) (checks : List T) :
    (Check.loop eval ok checks).2.Sublist checks := by
  induction checks generalizing ok with
  | nil => simp [Check.loop]
  | cons c rest ih =>
    simp only [Check.loop]
    split
    · exact (ih _).cons₂ c
    · exact (ih _).cons c

theorem Check.loop_pass (eval : T → Bool) (checks : List T)
    (h : ∀ x ∈ checks, eval x = true) : Check.loop eval true checks = (true, checks) := by
  induction checks with
  | nil => rfl
  | cons c rest ih =>
    have hc : eval c = true := h c (by simp)
    have hr := ih (fun x hx => h x (by simp [hx]))
    simp only [Check.loop, if_true, hc, hr]

@[simp] theorem checks_resume (o : Option (Frame T)) :
    (MasterPc.resume o).checks = Frame.checksOpt o := by
  cases o <;> rfl

@[simp] theorem passed_resume (o : Option (Frame T)) :
    (MasterPc.resume o).passed = Frame.passedOpt o := by
  cases o <;> rfl

@[simp] theorem workerChecks_resume (o : Option (Frame T)) :
    workerChecks (WorkerThread.resume o) = Frame.checksOpt o := by
  cases o <;> rfl

@[simp] theorem workerPassed_resume (o : Option (Frame T)) :
    workerPassed (WorkerThread.resume o) = Frame.passedOpt o := by
  cases o <;> rfl

/-- What one action inside a closure does to the checks: those evaluated, queued or
still held by the closure afterwards were held by it, queued or evaluated before. -/
theorem Frame.step_count [DecidableEq T] (eval : T → Bool) (q : CCheckQueue T) (f : Frame T)
    (c : T) :
    (f.step eval q).2.evaluated.count c +
        ((f.step eval q).2.m_thread_pool.m_work_queue.flatMap Task.checks).count c +
        (Frame.checksOpt (f.step eval q).1).count c ≤
      q.evaluated.count c + (q.m_thread_pool.m_work_queue.flatMap Task.checks).count c +
        f.checks.count c := by
  cases f with
  | submitting batches =>
    cases batches with
    | nil => simp [Frame.step, Frame.checksOpt, Frame.checks]
    | cons batch rest =>
      cases rest with
      | nil =>
        simp [Frame.step, Frame.checksOpt, Frame.checks, CCheckQueue.Submit,
          ThreadPool.Submit, Task.checks]
        omega
      | cons b rest =>
        simp [Frame.step, Frame.checksOpt, Frame.checks, CCheckQueue.Submit,
          ThreadPool.Submit, Task.checks]
        omega
  | checkEntry checks =>
    simp only [Frame.step, Check.entry]
    split
    · simp [Frame.checksOpt, Frame.checks]
    · have := (Check.loop_sublist eval q.m_all_ok checks).count_le c
      simp [Frame.checksOpt, Frame.checks]
      omega
  | checkExit ok =>
    simp only [Frame.step, Check.exit, Frame.checksOpt, Frame.checks]
    split <;> simp

/-- When no failure has been seen and the checks the closure holds pass, one action
inside it loses no check and sees no failure. -/
theorem Frame.step_pass [DecidableEq T] (eval : T → Bool) (q : CCheckQueue T) (f : Frame T)
    (hok : q.m_all_ok = true) (hf : f.passed = true) (hall : ∀ x ∈ f.checks, eval x = true) :
    (∀ c, (f.step eval q).2.evaluated.count c +
        ((f.step eval q).2.m_thread_pool.m_work_queue.flatMap Task.checks).count c +
        (Frame.checksOpt (f.step eval q).1).count c =
      q.evaluated.count c + (q.m_thread_pool.m_work_queue.flatMap Task.checks).count c +
        f.checks.count c) ∧
    (f.step eval q).2.m_all_ok = true ∧ Frame.passedOpt (f.step eval q).1 = true := by
  cases f with
  | submitting batches =>
    cases batches with
    | nil => simp [Frame.step, Frame.checksOpt, Frame.checks, Frame.passedOpt, hok]
    | cons batch rest =>
      cases rest with
      | nil =>
        refine ⟨fun c => ?_, ?_⟩
        · simp [Frame.step, Frame.checksOpt, Frame.checks, CCheckQueue.Submit,
            ThreadPool.Submit, Task.checks]
          omega
        · simp [Frame.step, CCheckQueue.Submit, Frame.passedOpt, hok]
      | cons b rest =>
        refine ⟨fun c => ?_, ?_⟩
        · simp [Frame.step, Frame.checksOpt, Frame.checks, CCheckQueue.Submit,
            ThreadPool.Submit, Task.checks]
          omega
        · simp [Frame.step, CCheckQueue.Submit, Frame.passedOpt, Frame.passed, hok]
  | checkEntry checks =>
    simp only [Frame.checks] at hall
    refine ⟨fun c => ?_, ?_⟩
    · simp [Frame.step, Check.entry, hok, Check.loop_pass eval checks hall, Frame.checksOpt,
        Frame.checks]
      omega
    · simp [Frame.step, Check.entry, hok, Check.loop_pass eval checks hall, Frame.passedOpt,
        Frame.passed]
  | checkExit ok =>
    simp only [Frame.passed] at hf
    simp [Frame.step, Check.exit, hf, hok, Frame.checksOpt, Frame.checks, Frame.passedOpt]

theorem checks_waitTask (f : Frame T) : (MasterPc.waitTask f).checks = f.checks := rfl

/-- One action of the master loses or evaluates checks it or the queue held, and
brings none in; when no failure has been seen and the held checks pass, it loses none
and sees no failure. -/
theorem masterStep_count [DecidableEq T] (eval : T → Bool) (s s1 : System T)
    (h : masterStep eval s = some s1) :
    (∀ c, s1.queue.evaluated.count c + s1.held.count c ≤
        s.queue.evaluated.count c + s.held.count c) ∧
      (s.passing → (∀ x ∈ s.held, eval x = true) →
        (∀ c, s1.queue.evaluated.count c + s1.held.count c =
            s.queue.evaluated.count c + s.held.count c) ∧
          s1.passing) := by
  obtain ⟨queue, pc, calls, returned⟩ := s
  cases pc with
  | idle =>
    cases calls with
    | nil => simp [masterStep] at h
    | cons call rest =>
      cases call with
      | Add checks =>
        simp only [masterStep] at h
        split at h
        · next hskip =>
          cases h
          refine ⟨fun c => by simp [System.held, Call.checks, MasterPc.checks], ?_⟩
          intro hp _
          obtain ⟨hok, hpc, hw⟩ := hp
          dsimp only at hok
          simp only [Add.skips, hok, Bool.not_true, Bool.false_or, List.isEmpty_iff] at hskip
          subst hskip
          exact ⟨fun c => by simp [System.held, Call.checks, MasterPc.checks], hok, rfl, hw⟩
        · cases h
          refine ⟨fun c => by simp [System.held, Call.checks, MasterPc.checks]; omega, ?_⟩
          intro hp _
          exact ⟨fun c => by simp [System.held, Call.checks, MasterPc.checks]; omega,
            hp.1, rfl, hp.2.2⟩
      | Wait =>
        simp only [masterStep] at h
        cases h
        refine ⟨fun c => by simp [System.held, Call.checks, MasterPc.checks], ?_⟩
        intro hp _
        exact ⟨fun c => by simp [System.held, Call.checks, MasterPc.checks], hp.1, rfl, hp.2.2⟩
  | addSubmit checks =>
    simp only [masterStep] at h
    cases h
    refine ⟨fun c => by simp [System.held, MasterPc.checks, CCheckQueue.Submit,
      ThreadPool.Submit, Task.checks]; omega, ?_⟩
    intro hp _
    exact ⟨fun c => by simp [System.held, MasterPc.checks, CCheckQueue.Submit,
      ThreadPool.Submit, Task.checks]; omega, hp.1, rfl, hp.2.2⟩
  | waitProcessTask =>
    simp only [masterStep] at h
    split at h
    · cases h
      refine ⟨fun c => by simp [System.held, MasterPc.checks], ?_⟩
      intro hp _
      exact ⟨fun c => by simp [System.held, MasterPc.checks], hp.1, rfl, hp.2.2⟩
    · rename_i task rest hqueue
      cases h
      have henter := enter_checks queue task
      refine ⟨fun c => by simp [System.held, MasterPc.checks, hqueue, henter], ?_⟩
      intro hp _
      refine ⟨fun c => by simp [System.held, MasterPc.checks, hqueue, henter],
        hp.1, ?_, hp.2.2⟩
      cases task <;> rfl
  | waitTask f =>
    simp only [masterStep] at h
    cases h
    have hw := (Frame.step_spec eval queue f).1
    refine ⟨fun c => ?_, ?_⟩
    · have hcount := Frame.step_count eval queue f c
      simp only [System.held, hw, checks_resume, checks_waitTask, List.count_append]
      omega
    · intro hp hall
      obtain ⟨hok, hpc, hwp⟩ := hp
      have hpass := Frame.step_pass eval queue f hok hpc
        (fun x hx => hall x (by simp [System.held, MasterPc.checks, hx]))
      refine ⟨fun c => ?_, hpass.2.1, ?_, ?_⟩
      · have hcount := hpass.1 c
        simp only [System.held, hw, checks_resume, checks_waitTask, List.count_append]
        omega
      · simpa using hpass.2.2
      · dsimp only
        rw [hw]
        exact hwp
  | waitUntilIdle =>
    simp only [masterStep] at h
    split at h
    · cases h
    · cases h
      refine ⟨fun c => by simp [System.held, MasterPc.checks], ?_⟩
      intro hp _
      exact ⟨fun c => by simp [System.held, MasterPc.checks], hp.1, rfl, hp.2.2⟩
  | waitRead =>
    simp only [masterStep] at h
    cases h
    refine ⟨fun c => by simp [System.held, MasterPc.checks], ?_⟩
    intro hp _
    exact ⟨fun c => by simp [System.held, MasterPc.checks], rfl, rfl, hp.2.2⟩

theorem workerChecks_running (f : Frame T) :
    workerChecks (WorkerThread.running f) = f.checks := rfl

theorem passed_enter (q : CCheckQueue T) (task : Task T) : (task.enter q).passed = true := by
  cases task <;> rfl

theorem passing_set (l1 l2 : List (WorkerThread (Frame T))) (w w1 : WorkerThread (Frame T))
    (h : ∀ x ∈ l1 ++ w :: l2, workerPassed x = true) (h1 : workerPassed w1 = true) :
    ∀ x ∈ l1 ++ w1 :: l2, workerPassed x = true := by
  intro x hx
  rw [List.mem_append, List.mem_cons] at hx
  rcases hx with hx | hx | hx
  · exact h x (by simp [hx])
  · rw [hx]
    exact h1
  · exact h x (by simp [hx])

/-- One action of a worker loses or evaluates checks it or the queue held, and brings
none in; when no failure has been seen and the held checks pass, it loses none and sees
no failure. -/
theorem workerStep_count [DecidableEq T] (eval : T → Bool) (i : Nat) (s s1 : System T)
    (h : workerStep eval i s = some s1) :
    (∀ c, s1.queue.evaluated.count c + s1.held.count c ≤
        s.queue.evaluated.count c + s.held.count c) ∧
      (s.passing → (∀ x ∈ s.held, eval x = true) →
        (∀ c, s1.queue.evaluated.count c + s1.held.count c =
            s.queue.evaluated.count c + s.held.count c) ∧
          s1.passing) := by
  unfold workerStep at h
  split at h
  · cases h
  · rename_i hget
    obtain ⟨l1, l2, hl, hset⟩ := set_split _ _ _ hget
    simp only [ThreadPool.workerWake] at h
    split at h
    · simp only [Option.map_some', Option.some.injEq] at h
      subst h
      simp only [System.held, System.passing]
      rw [hset, hl]
      refine ⟨fun c => by simp [workerChecks],
        fun hp _ => ⟨fun c => by simp [workerChecks], hp.1, hp.2.1, ?_⟩⟩
      exact passing_set l1 l2 _ _ hp.2.2 rfl
    · split at h
      · simp at h
      · rename_i task rest hqueue
        simp only [Option.map_some', Option.some.injEq] at h
        subst h
        have henter := enter_checks s.queue task
        simp only [System.held, System.passing]
        rw [hset, hqueue, hl]
        refine ⟨fun c => by simp [workerChecks, henter]; omega,
          fun hp _ => ⟨fun c => by simp [workerChecks, henter]; omega, hp.1, hp.2.1, ?_⟩⟩
        exact passing_set l1 l2 _ _ hp.2.2 (passed_enter s.queue task)
  · rename_i f hget
    obtain ⟨l1, l2, hl, hset⟩ := set_split _ _ _ hget
    have hw := (Frame.step_spec eval s.queue f).1
    cases h
    simp only [System.held, System.passing, CCheckQueue.setWorker]
    rw [hw, hset, hl]
    refine ⟨fun c => ?_, ?_⟩
    · have hcount := Frame.step_count eval s.queue f c
      simp only [List.flatMap_append, List.flatMap_cons, List.count_append,
        workerChecks_resume, workerChecks_running]
      omega
    · intro hp hall
      obtain ⟨hok, hpc, hwp⟩ := hp
      have hfp : f.passed = true := hwp (WorkerThread.running f) (by simp)
      have hpass := Frame.step_pass eval s.queue f hok hfp
        (fun x hx => hall x (by simp [workerChecks, hx]))
      refine ⟨fun c => ?_, hpass.2.1, hpc, ?_⟩
      · have hcount := hpass.1 c
        simp only [List.flatMap_append, List.flatMap_cons, List.count_append,
          workerChecks_resume, workerChecks_running]
        omega
      · exact passing_set l1 l2 _ _ hwp (by simpa using hpass.2.2)
  · rename_i hget
    obtain ⟨l1, l2, hl, hset⟩ := set_split _ _ _ hget
    cases h
    simp only [ThreadPool.workerNext]
    split
    · simp only [System.held, System.passing]
      rw [hset, hl]
      refine ⟨fun c => by simp [workerChecks],
        fun hp _ => ⟨fun c => by simp [workerChecks], hp.1, hp.2.1, ?_⟩⟩
      exact passing_set l1 l2 _ _ hp.2.2 rfl
    · split
      · rename_i hqueue
        simp only [System.held, System.passing]
        rw [hset, hl]
        refine ⟨fun c => by simp [workerChecks],
          fun hp _ => ⟨fun c => by simp [workerChecks], hp.1, hp.2.1, ?_⟩⟩
        exact passing_set l1 l2 _ _ hp.2.2 rfl
      · rename_i task rest hqueue
        have henter := enter_checks s.queue task
        simp only [System.held, System.passing]
        rw [hset, hqueue, hl]
        refine ⟨fun c => by simp [workerChecks, henter]; omega,
          fun hp _ => ⟨fun c => by simp [workerChecks, henter]; omega, hp.1, hp.2.1, ?_⟩⟩
        exact passing_set l1 l2 _ _ hp.2.2 (passed_enter s.queue task)
  · cases h

theorem thread_step_count [DecidableEq T] (eval : T → Bool) (tid : Nat) (s s1 : System T)
    (h : step eval tid s = some s1) :
    (∀ c, s1.queue.evaluated.count c + s1.held.count c ≤
        s.queue.evaluated.count c + s.held.count c) ∧
      (s.passing → (∀ x ∈ s.held, eval x = true) →
        (∀ c, s1.queue.evaluated.count c + s1.held.count c =
            s.queue.evaluated.count c + s.held.count c) ∧
          s1.passing) := by
  cases tid with
  | zero => exact masterStep_count eval s s1 h
  | succ i => exact workerStep_count eval i s s1 h

theorem run_count [DecidableEq T] (eval : T → Bool) (submitted : List T) (sched : List Nat)
    (s : System T)
    (h : ∀ c, s.queue.evaluated.count c + s.held.count c ≤ submitted.count c) (c : T) :
    (run eval sched s).queue.evaluated.count c + (run eval sched s).held.count c ≤
      submitted.count c := by
  induction sched generalizing s with
  | nil => exact h c
  | cons tid sched ih =>
    refine ih _ ?_
    intro c1
    rcases schedule_cases eval tid s with ⟨hs, _⟩ | ⟨tid1, hs⟩
    · rw [hs]
      exact h c1
    · exact le_trans ((thread_step_count eval tid1 s _ hs).1 c1) (h c1)

theorem run_pass [DecidableEq T] (eval : T → Bool) (submitted : List T)
    (hsub : ∀ x ∈ submitted, eval x = true) (sched : List Nat) (s : System T)
    (h : ∀ c, s.queue.evaluated.count c + s.held.count c = submitted.count c)
    (hp : s.passing) :
    (∀ c, (run eval sched s).queue.evaluated.count c + (run eval sched s).held.count c =
      submitted.count c) ∧ (run eval sched s).passing := by
  induction sched generalizing s with
  | nil => exact ⟨h, hp⟩
  | cons tid sched ih =>
    rcases schedule_cases eval tid s with ⟨hs, _⟩ | ⟨tid1, hs⟩
    · simp only [run, hs]
      exact ih s h hp
    · have hall : ∀ x ∈ s.held, eval x = true := by
        intro x hx
        apply hsub
        have h1 := h x
        have h2 : 0 < s.held.count x := List.count_pos_iff.mpr hx
        exact List.count_pos_iff.mp (by omega)
      obtain ⟨heq, hp1⟩ := (thread_step_count eval tid1 s _ hs).2 hp hall
      refine ih _ ?_ hp1
      intro c
      rw [heq c]
      exact h c

theorem flatMap_adds (adds : List (List T)) :
    (adds.map Call.Add ++ [Call.Wait]).flatMap Call.checks = adds.flatten := by
  induction adds with
  | nil => rfl
  | cons a adds ih =>
    simp only [List.map_cons, List.cons_append, List.flatMap_cons, List.flatten_cons, ih]
    rfl

theorem init_held (workers batch_size : Nat) (calls : List (Call T)) :
    (System.init workers batch_size calls).held = calls.flatMap Call.checks := by
  have : ∀ n, (List.replicate n (WorkerThread.waiting : WorkerThread (Frame T))).flatMap
      workerChecks = [] := by
    intro n
    induction n with
    | zero => rfl
    | succ n ih => simp [List.replicate_succ, workerChecks, ih]
  simp [System.held, System.init, CCheckQueue.new, startedPool, MasterPc.checks, this]

theorem init_passing (workers batch_size : Nat) (calls : List (Call T)) :
    (System.init workers batch_size calls).passing := by
  refine ⟨rfl, rfl, ?_⟩
  intro w hw
  simp only [System.init, CCheckQueue.new, startedPool] at hw
  rw [List.eq_of_mem_replicate hw]
  rfl

theorem drained_held (s : System T) (hfin : s.finished = true) (hd : s.queue.drained) :
    s.held = [] := by
  obtain ⟨queue, pc, calls, returned⟩ := s
  cases pc <;> cases calls <;> simp [System.finished] at hfin
  obtain ⟨hq, _, hw⟩ := hd
  dsimp only at hq hw
  have : queue.m_thread_pool.m_workers.flatMap workerChecks = [] := by
    rw [List.all_eq_true] at hw
    generalize queue.m_thread_pool.m_workers = l at hw
    induction l with
    | nil => rfl
    | cons w l ih =>
      have hw1 := hw w (by simp)
      cases w <;> simp [WorkerThread.isWaiting] at hw1
      simpa [workerChecks] using ih (fun x hx => hw x (by simp [hx]))
  simp [System.held, MasterPc.checks, hq, this]

/-- C27: for every sequence of `Add` calls followed by `Wait`, on a pool of any number
of workers and under every schedule, the multiset of the checks evaluated so far is at
every moment a sub-multiset of the checks passed to `Add` (no check is evaluated more
often than it was submitted); when every submitted check returns true, it is equal to
that multiset once `Wait` has returned; and `Wait` has returned after `fuel` scheduler
decisions. -/
theorem checks_evaluated_once (eval : T → Bool) (workers batch_size : Nat)
    (adds : List (List T)) (sched : List Nat) :
    ((run eval sched (System.init workers batch_size
        (adds.map Call.Add ++ [Call.Wait]))).queue.evaluated : Multiset T) ≤
      (adds.flatten : Multiset T) ∧
    ((∀ c ∈ adds.flatten, eval c = true) →
      (run eval sched (System.init workers batch_size
        (adds.map Call.Add ++ [Call.Wait]))).finished = true →
      ((run eval sched (System.init workers batch_size
        (adds.map Call.Add ++ [Call.Wait]))).queue.evaluated : Multiset T) =
        (adds.flatten : Multiset T)) ∧
    (fuel (adds.map Call.Add ++ [Call.Wait]) ≤ sched.length →
      (run eval sched (System.init workers batch_size
        (adds.map Call.Add ++ [Call.Wait]))).finished = true) := by
  classical
  have hinit : ∀ c, (System.init workers batch_size
      (adds.map Call.Add ++ [Call.Wait])).queue.evaluated.count c +
      (System.init workers batch_size (adds.map Call.Add ++ [Call.Wait])).held.count c =
        adds.flatten.count c := by
    intro c
    rw [init_held, flatMap_adds]
    simp [System.init, CCheckQueue.new]
  refine ⟨?_, ?_, (run_returned eval workers batch_size _ sched).2⟩
  · rw [Multiset.coe_le, List.subperm_ext_iff]
    intro c _
    have := run_count eval adds.flatten sched _ (fun c1 => le_of_eq (hinit c1)) c
    omega
  · intro hsub hfin
    have hclosing := run_closing eval _ sched _
      (init_inv eval workers batch_size (adds.map Call.Add ++ [Call.Wait]))
      (Or.inl (by simp [System.init]))
    have hpass := (run_pass eval adds.flatten hsub sched _ hinit
      (init_passing workers batch_size _)).1
    revert hfin hclosing hpass
    generalize run eval sched (System.init workers batch_size
      (adds.map Call.Add ++ [Call.Wait])) = s
    intro hfin hclosing hpass
    have hd : s.queue.drained := by
      obtain ⟨queue, pc, calls, returned⟩ := s
      cases pc <;> cases calls <;> simp [System.finished] at hfin
      rcases hclosing with hc | ⟨_, hc⟩
      · simp at hc
      · exact hc
    have hheld := drained_held s hfin hd
    rw [Multiset.coe_eq_coe, List.perm_iff_count]
    intro c
    have := hpass c
    rw [hheld] at this
    simpa using this

/-- Three checks that pass, added in two calls, two workers: after 60 scheduler
decisions `Wait` has returned and the checks evaluated are the three submitted. -/
theorem checks_evaluated_once_witness :
    ((run id (List.replicate 60 1) (System.init 2 1
      ([[true, true], [true]].map Call.Add ++ [Call.Wait]))).queue.evaluated : Multiset Bool) =
      (([[true, true], [true]] : List (List Bool)).flatten : Multiset Bool) :=
  (checks_evaluated_once id 2 1 [[true, true], [true]] (List.replicate 60 1)).2.1
    (by decide)
    ((checks_evaluated_once id 2 1 [[true, true], [true]] (List.replicate 60 1)).2.2
      (by decide))

end CheckQueue

end FieroCoin
